import Mathlib

/-!
# OmniNative virtual machine: a shallow embedding

The definitions below transcribe `src/cpp/omni_native/common.h` and
`src/cpp/omni_native/vm.cpp` into Lean; later sections do the same for the
text interpreter (`compiler.cpp`, `main.cpp`), the line diff
(`diff_checker.cpp`) and the equation solver (`equation_solver.cpp`).

* `double` is IEEE-754 binary64, represented by its 64-bit pattern; the
  arithmetic is exact integer arithmetic on multiples of `2^-1074`
  followed by round-to-nearest-even.
* `size_t` is a 64-bit unsigned integer (`Nat` with explicit `% 2^64`).
* Operations the C++ standard leaves undefined (reading the top of an
  empty `std::stack`, a floating-integral conversion whose truncated
  value does not fit the destination type, an out-of-range shift count)
  are explicit `Fault`s. Two conversions are followed further, with the
  value the x86-64 conversion instruction gives when the truncated value
  does not fit: `(int64_t)val` in `PRINT`, whose result is only compared
  with `val`, and `(int)value` in the echo of the text interpreter.
* `std::vector::resize` throws `std::length_error` beyond `max_size()`
  and `std::bad_alloc` when the host has no buffer to give; both are
  `Fault`s as well. What the host answers to the successive requests for a
  larger buffer is the field `host` of the machine state.
* The call stack of the host is a parameter of the equation solver, whose
  recursion has no bound of its own.
-/

namespace OmniNative

/-! ## IEEE-754 binary64 -/

/-- An IEEE-754 binary64 value (`double`), given by its 64-bit pattern. -/
structure Double where
  bits : Nat
  isLt : bits < 18446744073709551616
deriving DecidableEq

namespace Double

/-- The double with the given bit pattern (reduced modulo `2^64`). -/
def ofBits (n : Nat) : Double :=
  ⟨n % 18446744073709551616, Nat.mod_lt _ (by decide)⟩

/-- Sign bit (bit 63). -/
def sign (d : Double) : Bool := decide (9223372036854775808 ≤ d.bits)

/-- Biased exponent field (bits 52..62). -/
def expField (d : Double) : Nat := d.bits / 4503599627370496 % 2048

/-- Fraction field (bits 0..51). -/
def fracField (d : Double) : Nat := d.bits % 4503599627370496

def isNaN (d : Double) : Bool := d.expField == 2047 && d.fracField != 0

def isInf (d : Double) : Bool := d.expField == 2047 && d.fracField == 0

/-- Magnitude of a finite double in units of `2^-1074`; an infinity gets
`2^2098`, above every finite magnitude. -/
def mag (d : Double) : Nat :=
  if d.expField = 0 then d.fracField
  else (4503599627370496 + d.fracField) * 2 ^ (d.expField - 1)

/-- Signed value in units of `2^-1074`. -/
def scaled (d : Double) : Int :=
  if d.sign then -(d.mag : Int) else (d.mag : Int)

/-- Round `n / d` to the nearest integer, ties to even. -/
def rne (n d : Nat) : Nat :=
  let q := n / d
  let r := n % d
  if 2 * r < d then q
  else if d < 2 * r then q + 1
  else if q % 2 = 0 then q else q + 1

/-- Position of the highest set bit of `q` (for `1 ≤ q < 2^4096`), found
by bisection: the `l` with `2^l ≤ q < 2^(l+1)`. -/
def ilog2 (q : Nat) : Nat :=
  [2048, 1024, 512, 256, 128, 64, 32, 16, 8, 4, 2, 1].foldl
    (fun l k => if 2 ^ (l + k) ≤ q then l + k else l) 0

/-- Magnitude bits (sign bit clear) of the double nearest to `n / d`
units of `2^-1074`, ties to even, overflowing to infinity. -/
def roundMag (n d : Nat) : Nat :=
  let q := n / d
  let shift := if q < 9007199254740992 then 0 else ilog2 q - 52
  let m := rne n (d * 2 ^ shift)
  let b := shift * 4503599627370496 + m
  if 9218868437227405312 ≤ b then 9218868437227405312 else b

/-- Assemble a double from a sign and magnitude bits. -/
def pack (neg : Bool) (magBits : Nat) : Double :=
  ofBits ((if neg then 9223372036854775808 else 0) + magBits)

def zero : Double := ofBits 0
def one : Double := ofBits 4607182418800017408
def negZero : Double := ofBits 9223372036854775808
def inf : Double := ofBits 9218868437227405312
/-- The quiet NaN produced by invalid operations. -/
def nan : Double := ofBits 9221120237041090560

/-- Unary minus: flips the sign bit. -/
def neg (a : Double) : Double :=
  ofBits (if a.sign then a.bits - 9223372036854775808 else a.bits + 9223372036854775808)

/-- The C++ expression `a + b` on doubles. -/
def add (a b : Double) : Double :=
  if a.isNaN || b.isNaN then nan
  else if a.isInf then (if b.isInf && (a.sign != b.sign) then nan else a)
  else if b.isInf then b
  else
    let s := a.scaled + b.scaled
    if s = 0 then (if a.sign && b.sign then negZero else zero)
    else pack (decide (s < 0)) (roundMag s.natAbs 1)

/-- The C++ expression `a - b` on doubles. -/
def sub (a b : Double) : Double := add a (neg b)

/-- The C++ expression `a * b` on doubles. -/
def mul (a b : Double) : Double :=
  if a.isNaN || b.isNaN then nan
  else if a.isInf then (if b.mag = 0 then nan else pack (a.sign != b.sign) 9218868437227405312)
  else if b.isInf then (if a.mag = 0 then nan else pack (a.sign != b.sign) 9218868437227405312)
  else pack (a.sign != b.sign) (roundMag (a.mag * b.mag) (2 ^ 1074))

/-- The C++ expression `a / b` on doubles. -/
def div (a b : Double) : Double :=
  if a.isNaN || b.isNaN then nan
  else if a.isInf then (if b.isInf then nan else pack (a.sign != b.sign) 9218868437227405312)
  else if b.isInf then pack (a.sign != b.sign) 0
  else if b.mag = 0 then
    (if a.mag = 0 then nan else pack (a.sign != b.sign) 9218868437227405312)
  else pack (a.sign != b.sign) (roundMag (a.mag * 2 ^ 1074) b.mag)

/-- The library function `std::fmod(a, b)`. -/
def fmod (a b : Double) : Double :=
  if a.isNaN || b.isNaN then nan
  else if a.isInf || b.mag = 0 then nan
  else if b.isInf then a
  else pack a.sign (roundMag (a.mag % b.mag) 1)

/-- The C++ comparison `a == b`. -/
def eq (a b : Double) : Bool := !(a.isNaN || b.isNaN) && decide (a.scaled = b.scaled)
/-- The C++ comparison `a != b`. -/
def ne (a b : Double) : Bool := !(eq a b)
/-- The C++ comparison `a < b`. -/
def lt (a b : Double) : Bool := !(a.isNaN || b.isNaN) && decide (a.scaled < b.scaled)
/-- The C++ comparison `a > b`. -/
def gt (a b : Double) : Bool := lt b a
/-- The C++ comparison `a <= b`. -/
def le (a b : Double) : Bool := !(a.isNaN || b.isNaN) && decide (a.scaled ≤ b.scaled)
/-- The C++ comparison `a >= b`. -/
def ge (a b : Double) : Bool := le b a

/-- Truncation toward zero of a finite double. -/
def trunc (d : Double) : Int :=
  if d.sign then -((d.mag / 2 ^ 1074 : Nat) : Int) else ((d.mag / 2 ^ 1074 : Nat) : Int)

/-- A floating-integral conversion to a signed integer type with range
`[lo, hi]`: `none` when the truncated value is not representable
(undefined behaviour in C++). -/
def toSigned? (lo hi : Int) (d : Double) : Option Int :=
  if d.isNaN || d.isInf then none
  else if lo ≤ d.trunc ∧ d.trunc ≤ hi then some d.trunc else none

/-- The conversion `(int64_t)d`. -/
def toInt64? (d : Double) : Option Int :=
  toSigned? (-9223372036854775808) 9223372036854775807 d

/-- The conversion `(int)d`. -/
def toInt? (d : Double) : Option Int := toSigned? (-2147483648) 2147483647 d

/-- The conversion `(char)d` (`char` is a signed 8-bit type). -/
def toChar? (d : Double) : Option Int := toSigned? (-128) 127 d

/-- The conversion `(size_t)d`. -/
def toSizeT? (d : Double) : Option Nat :=
  if d.isNaN || d.isInf then none
  else if 0 ≤ d.trunc ∧ d.trunc < 18446744073709551616 then some d.trunc.toNat else none

/-- The conversion `(double)n` from an integer (round to nearest even). -/
def ofInt (t : Int) : Double :=
  pack (decide (t < 0)) (roundMag (t.natAbs * 2 ^ 1074) 1)

/-- The conversion `(double)n` from a `size_t`. -/
def ofNat (n : Nat) : Double := ofInt (n : Int)

end Double

/-! ## Text output -/

/-- One byte of memory or of output text. -/
abbrev Byte := Fin 256

/-- The bytes of an ASCII string literal. -/
def ascii (s : String) : List Byte :=
  s.toList.map (fun c => ⟨c.toNat % 256, Nat.mod_lt _ (by decide)⟩)

/-- The decimal digit `'0' + n % 10`. -/
def digitByte (n : Nat) : Byte := ⟨48 + n % 10, by omega⟩

/-- Decimal digits of `n`, most significant first, prepended to `acc`. -/
def digitsAux : Nat → Nat → List Byte → List Byte
  | 0, _, acc => acc
  | fuel + 1, n, acc =>
    if n / 10 = 0 then digitByte n :: acc else digitsAux fuel (n / 10) (digitByte n :: acc)

/-- Decimal rendering of a natural number. -/
def natDigits (n : Nat) : List Byte := digitsAux (n + 1) n []

/-- The stream insertion `output << t` of an integer. -/
def fmtInt (t : Int) : List Byte :=
  if t < 0 then 45 :: natDigits t.natAbs else natDigits t.natAbs

/-- Remove trailing `'0'` characters. -/
def stripZeros (ds : List Byte) : List Byte :=
  (ds.reverse.dropWhile (fun b => b == 48)).reverse

/-- The decimal exponent `X` with `10^X ≤ n/d < 10^(X+1)`, for `0 < n/d`
within the range of binary64. -/
def decExp (n d : Nat) : Int :=
  (((List.range 800).filter (fun k => decide (d * 10 ^ k ≤ n * 10 ^ 400))).length : Int) - 401

/-- The six significant decimal digits of `n/d` (as a number in
`[10^5, 10^6)`) and its decimal exponent, correctly rounded. -/
def sig6 (n d : Nat) : Nat × Int :=
  let x := decExp n d
  let e := 5 - x
  let m := if 0 ≤ e then Double.rne (n * 10 ^ e.toNat) d else Double.rne n (d * 10 ^ (-e).toNat)
  if m = 1000000 then (100000, x + 1) else (m, x)

/-- Rendering of a positive finite magnitude `n/d` in the `%g` style with
precision 6. -/
def fmtMag (n d : Nat) : List Byte :=
  let (m, x) := sig6 n d
  let ds := natDigits m
  if x < -4 ∨ 6 ≤ x then
    let frac := stripZeros (ds.drop 1)
    let ex := natDigits x.natAbs
    ds.take 1 ++ (if frac.isEmpty then [] else 46 :: frac) ++ [101, if x < 0 then 45 else 43]
      ++ (if ex.length < 2 then 48 :: ex else ex)
  else if 0 ≤ x then
    let frac := stripZeros (ds.drop (x.toNat + 1))
    ds.take (x.toNat + 1) ++ (if frac.isEmpty then [] else 46 :: frac)
  else
    [48, 46] ++ List.replicate ((-x).toNat - 1) 48 ++ stripZeros ds

/-- The stream insertion `output << val` of a double with the default
flags of a fresh `std::stringstream` (`%g`, precision 6). -/
def fmtDouble (v : Double) : List Byte :=
  (if v.sign then [45] else []) ++
    (if v.isNaN then ascii "nan"
     else if v.isInf then ascii "inf"
     else if v.mag = 0 then [48]
     else fmtMag v.mag (2 ^ 1074))

/-! ## Instruction set and program (`common.h`) -/

/-- The opcodes of the OmniVM instruction set. -/
inductive OpCode
  | HALT | NOOP
  | PUSH_IMM | PUSH_STR | POP | DUP
  | ADD | SUB | MUL | DIV | MOD
  | BIT_AND | BIT_OR | BIT_XOR | BIT_NOT | SHL | SHR
  | EQ | NEQ | LT | GT | LTE | GTE
  | LOGICAL_AND | LOGICAL_OR | LOGICAL_NOT
  | LOAD | STORE | ALLOC | FREE
  | ADDR_OF | DEREF
  | JMP | JMP_IF | JMP_IF_NOT | CALL | RET | ENTER | LEAVE
  | PRINT | PRINT_CHAR | PRINT_STR
  | INT_TO_DOUBLE | DOUBLE_TO_INT
deriving DecidableEq, Repr

/-- One instruction: opcode, numeric immediate, string immediate. -/
structure Instruction where
  op : OpCode
  immediate : Double
  strValue : List Byte := []
deriving DecidableEq

/-- The part of `Program` the virtual machine reads: the instruction
sequence and the static data segment. -/
structure Program where
  instructions : List Instruction
  dataSegment : List Byte
deriving DecidableEq

/-! ## Virtual machine (`vm.cpp`) -/

/-- The value `2^64`: `size_t` arithmetic is modulo this. -/
def sizeMod : Nat := 18446744073709551616

/-- The ways the C++ code leaves a call without returning from it:
undefined behaviour, and the exceptions of `std::vector::resize`, which
nothing in `vm.cpp` catches. -/
inductive Fault
  /-- `top()` or `pop()` on an empty `std::stack`. -/
  | emptyStack
  /-- A floating-integral conversion whose truncated value does not fit. -/
  | badConversion
  /-- A shift count that is negative or not below the operand width. -/
  | badShift
  /-- A `memcpy` outside the bytes of the memory vector. -/
  | outOfBounds
  /-- The exception `std::length_error`: a vector asked to grow beyond
  `max_size()`. -/
  | lengthError
  /-- The exception `std::bad_alloc`: the host refuses the memory a vector
  asks for. -/
  | badAlloc
deriving DecidableEq, Repr

deriving instance DecidableEq for Except

/-- The data members of `class VirtualMachine`, and the host the object
lives on. -/
structure VirtualMachine where
  memory : List Byte
  /-- The operand stack, top first. -/
  evalStack : List Double
  /-- The call stack, top first. -/
  callStack : List Nat
  loopStack : List Nat
  ip : Nat
  heapPtr : Nat
  output : List Byte
  maxCycles : Nat
  cycles : Nat
  /-- Not a data member: what the host has for the coming growths of
  `memory`, in order. `true`: the bytes are there (the buffer has room
  left, or the allocator grants a larger one); `false`: a larger buffer is
  needed and the allocator refuses it (`std::bad_alloc`). After the end of
  the list the bytes are always there. -/
  host : List Bool
deriving DecidableEq

namespace VirtualMachine

/-- The size `1024 * 1024` the constructor gives to `memory`. -/
def initialMemorySize : Nat := 1024 * 1024

/-- The state built by the constructor `VirtualMachine()` and the default
member initialisers: 1 MiB of zeroed memory, empty stacks; on a host that
grants every request. -/
def new : VirtualMachine :=
  { memory := List.replicate initialMemorySize 0
    evalStack := []
    callStack := []
    loopStack := []
    ip := 0
    heapPtr := 4096
    output := []
    maxCycles := 10000000
    cycles := 0
    host := [] }

/-- The value of `memory.max_size()`: the largest size a
`std::vector<uint8_t>` accepts, `PTRDIFF_MAX` where `size_t` has 64 bits. -/
def maxSize : Nat := 9223372036854775807

/-- The call `memory.resize(n)`. A size not above the present one cuts the
vector and asks nothing of the host. A larger one throws
`std::length_error` when it exceeds `max_size()` and `std::bad_alloc` when
the host has no buffer for it; otherwise zero bytes are appended. -/
@[irreducible]
def resize (vm : VirtualMachine) (n : Nat) : Except Fault VirtualMachine :=
  if n ≤ vm.memory.length then .ok { vm with memory := vm.memory.take n }
  else if maxSize < n then .error .lengthError
  else
    match vm.host with
    | false :: _ => .error .badAlloc
    | true :: answers =>
      .ok { vm with
        memory := vm.memory ++ List.replicate (n - vm.memory.length) 0
        host := answers }
    | [] => .ok { vm with memory := vm.memory ++ List.replicate (n - vm.memory.length) 0 }

/-- The eight bytes of a 64-bit pattern, least significant first. -/
def bytesOfBits (n : Nat) : List Byte :=
  [ ⟨n % 256, Nat.mod_lt _ (by decide)⟩,
    ⟨n / 256 % 256, Nat.mod_lt _ (by decide)⟩,
    ⟨n / 65536 % 256, Nat.mod_lt _ (by decide)⟩,
    ⟨n / 16777216 % 256, Nat.mod_lt _ (by decide)⟩,
    ⟨n / 4294967296 % 256, Nat.mod_lt _ (by decide)⟩,
    ⟨n / 1099511627776 % 256, Nat.mod_lt _ (by decide)⟩,
    ⟨n / 281474976710656 % 256, Nat.mod_lt _ (by decide)⟩,
    ⟨n / 72057594037927936 % 256, Nat.mod_lt _ (by decide)⟩ ]

/-- The number whose little-endian bytes are given. -/
def bitsOfBytes : List Byte → Nat
  | [] => 0
  | b :: bs => b.val + 256 * bitsOfBytes bs

/-- The member function `loadDouble(addr)`: the 8 bytes at `addr` when the
guard `addr + sizeof(double) <= memory.size()` holds, else 0. -/
def loadDouble (memory : List Byte) (addr : Nat) : Except Fault Double :=
  if (addr + 8) % sizeMod ≤ memory.length then
    if addr + 8 ≤ memory.length then
      .ok (Double.ofBits (bitsOfBytes ((memory.drop addr).take 8)))
    else .error .outOfBounds
  else .ok Double.zero

/-- The member function `storeDouble(addr, val)`: overwrites the 8 bytes at
`addr` when the guard holds, else does nothing. -/
def storeDouble (memory : List Byte) (addr : Nat) (val : Double) :
    Except Fault (List Byte) :=
  if (addr + 8) % sizeMod ≤ memory.length then
    if addr + 8 ≤ memory.length then
      .ok (memory.take addr ++ bytesOfBits val.bits ++ memory.drop (addr + 8))
    else .error .outOfBounds
  else .ok memory

/-- Result of executing one instruction of the main loop. -/
inductive Outcome
  /-- The loop goes on with this state. -/
  | running (vm : VirtualMachine)
  /-- The instruction set `running = false`. -/
  | halted (vm : VirtualMachine)
  /-- The instruction reached undefined behaviour or threw an exception. -/
  | fault (f : Fault)
deriving DecidableEq

/-- How the loop goes on after a call that may throw: with the state the
call leaves when it returns, not at all when an exception leaves `run`. -/
def Outcome.ofExcept : Except Fault VirtualMachine → Outcome
  | .ok vm => .running vm
  | .error f => .fault f

/-- The macros `BINARY_OP(op)` and `BINARY_OP_FUNC`. -/
def binaryOp (f : Double → Double → Double) (vm : VirtualMachine) : Outcome :=
  match vm.evalStack with
  | b :: a :: rest => .running { vm with evalStack := f a b :: rest }
  | _ => .running vm

/-- The value `c ? 1.0 : 0.0`. -/
def boolValue (c : Bool) : Double := if c then Double.one else Double.zero

/-- The macro `COMPARE_OP(op)`. -/
def compareOp (r : Double → Double → Bool) (vm : VirtualMachine) : Outcome :=
  match vm.evalStack with
  | b :: a :: rest => .running { vm with evalStack := boolValue (r a b) :: rest }
  | _ => .running vm

/-- The 64-bit two's complement pattern of an `int64_t`. -/
def toU64 (t : Int) : Nat := (t % 18446744073709551616).toNat

/-- The `int64_t` with the given 64-bit pattern. -/
def ofU64 (n : Nat) : Int :=
  if n % 18446744073709551616 < 9223372036854775808 then (n % 18446744073709551616 : Nat)
  else ((n % 18446744073709551616 : Nat) : Int) - 18446744073709551616

/-- The bitwise cases `(double)((int64_t)a op (int64_t)b)`. -/
def bitOp (f : Nat → Nat → Nat) (vm : VirtualMachine) : Outcome :=
  match vm.evalStack with
  | b :: a :: rest =>
    match a.toInt64?, b.toInt64? with
    | some x, some y =>
      .running { vm with evalStack := Double.ofInt (ofU64 (f (toU64 x) (toU64 y))) :: rest }
    | _, _ => .fault .badConversion
  | _ => .running vm

/-- The shift cases `(double)((int64_t)a op (int)b)`. -/
def shiftOp (f : Int → Nat → Int) (vm : VirtualMachine) : Outcome :=
  match vm.evalStack with
  | b :: a :: rest =>
    match a.toInt64?, b.toInt? with
    | some x, some s =>
      if 0 ≤ s ∧ s < 64 then
        .running { vm with evalStack := Double.ofInt (f x s.toNat) :: rest }
      else .fault .badShift
    | _, _ => .fault .badConversion
  | _ => .running vm

/-- The cases `LOAD` and `DEREF`. -/
def loadOp (vm : VirtualMachine) : Outcome :=
  match vm.evalStack with
  | [] => .running vm
  | top :: rest =>
    match top.toSizeT? with
    | none => .fault .badConversion
    | some addr =>
      match loadDouble vm.memory addr with
      | .ok v => .running { vm with evalStack := v :: rest }
      | .error f => .fault f

/-- The assignment `ip = (size_t)instr.immediate`. -/
def jumpTo (instr : Instruction) (vm : VirtualMachine) : Outcome :=
  match instr.immediate.toSizeT? with
  | none => .fault .badConversion
  | some target => .running { vm with ip := target }

/-- The text appended by `PRINT` for the popped value: the test
`val == (int64_t)val` selects `output << (int64_t)val` or `output << val`.
For a value whose truncation does not fit `int64_t` the conversion is what
the x86-64 conversion instruction returns, `INT64_MIN`; no such value is
equal to it, so the second form is printed. -/
def printValue (val : Double) : List Byte :=
  match val.toInt64? with
  | none => fmtDouble val ++ ascii "\n"
  | some t => (if Double.eq val (Double.ofInt t) then fmtInt t else fmtDouble val) ++ ascii "\n"

/-- The text `PRINT` appends for a value whose truncation fits `int64_t`. -/
def printText (v : Double) (t : Int) : List Byte :=
  (if Double.eq v (Double.ofInt t) then fmtInt t else fmtDouble v) ++ ascii "\n"

/-- The bytes `PRINT_STR` emits from `addr`: up to the first zero byte or
the end of memory. -/
def cString (memory : List Byte) (addr : Nat) : List Byte :=
  (memory.drop addr).takeWhile (fun b => b != 0)

/-- The body of the `switch (instr.op)`, on the state in which `ip` and
`cycles` are already incremented. -/
def exec (instr : Instruction) (vm : VirtualMachine) : Outcome :=
  match instr.op with
  | .HALT => .halted vm
  | .NOOP => .running vm
  | .PUSH_IMM => .running { vm with evalStack := instr.immediate :: vm.evalStack }
  | .PUSH_STR => .running { vm with evalStack := instr.immediate :: vm.evalStack }
  | .POP =>
    match vm.evalStack with
    | [] => .running vm
    | _ :: rest => .running { vm with evalStack := rest }
  | .DUP =>
    match vm.evalStack with
    | [] => .running vm
    | top :: rest => .running { vm with evalStack := top :: top :: rest }
  | .ADD => binaryOp Double.add vm
  | .SUB => binaryOp Double.sub vm
  | .MUL => binaryOp Double.mul vm
  | .DIV =>
    match vm.evalStack with
    | [] => .running vm
    | [_] => .fault .emptyStack
    | b :: a :: rest =>
      .running { vm with
        evalStack := (if Double.ne b Double.zero then Double.div a b else Double.zero) :: rest }
  | .MOD =>
    match vm.evalStack with
    | [] => .running vm
    | [_] => .fault .emptyStack
    | b :: a :: rest =>
      .running { vm with
        evalStack := (if Double.ne b Double.zero then Double.fmod a b else Double.zero) :: rest }
  | .BIT_AND => bitOp Nat.land vm
  | .BIT_OR => bitOp Nat.lor vm
  | .BIT_XOR => bitOp Nat.xor vm
  | .BIT_NOT =>
    match vm.evalStack with
    | [] => .running vm
    | a :: rest =>
      match a.toInt64? with
      | none => .fault .badConversion
      | some x => .running { vm with evalStack := Double.ofInt (-x - 1) :: rest }
  | .SHL => shiftOp (fun x s => ofU64 (toU64 x * 2 ^ s)) vm
  | .SHR => shiftOp (fun x s => x / (2 ^ s : Int)) vm
  | .LOGICAL_AND =>
    binaryOp (fun a b => boolValue (Double.ne a Double.zero && Double.ne b Double.zero)) vm
  | .LOGICAL_OR =>
    binaryOp (fun a b => boolValue (Double.ne a Double.zero || Double.ne b Double.zero)) vm
  | .LOGICAL_NOT =>
    match vm.evalStack with
    | [] => .running vm
    | a :: rest => .running { vm with evalStack := boolValue (Double.eq a Double.zero) :: rest }
  | .EQ => compareOp Double.eq vm
  | .NEQ => compareOp Double.ne vm
  | .LT => compareOp Double.lt vm
  | .GT => compareOp Double.gt vm
  | .LTE => compareOp Double.le vm
  | .GTE => compareOp Double.ge vm
  | .LOAD => loadOp vm
  | .STORE =>
    match vm.evalStack with
    | val :: a :: rest =>
      match a.toSizeT? with
      | none => .fault .badConversion
      | some addr =>
        match storeDouble vm.memory addr val with
        | .ok m => .running { vm with evalStack := rest, memory := m }
        | .error f => .fault f
    | _ => .running vm
  | .ALLOC =>
    match vm.evalStack with
    | [] => .running vm
    | top :: rest =>
      match top.toSizeT? with
      | none => .fault .badConversion
      | some size =>
        let hp := (vm.heapPtr + size) % sizeMod
        let vm1 := { vm with evalStack := Double.ofNat vm.heapPtr :: rest, heapPtr := hp }
        if vm.memory.length < hp then Outcome.ofExcept (resize vm1 ((hp + 4096) % sizeMod))
        else .running vm1
  | .FREE =>
    match vm.evalStack with
    | [] => .running vm
    | _ :: rest => .running { vm with evalStack := rest }
  | .ADDR_OF => .running vm
  | .DEREF => loadOp vm
  | .JMP => jumpTo instr vm
  | .JMP_IF =>
    match vm.evalStack with
    | [] => .running vm
    | cond :: rest =>
      if Double.ne cond Double.zero then jumpTo instr { vm with evalStack := rest }
      else .running { vm with evalStack := rest }
  | .JMP_IF_NOT =>
    match vm.evalStack with
    | [] => .running vm
    | cond :: rest =>
      if Double.eq cond Double.zero then jumpTo instr { vm with evalStack := rest }
      else .running { vm with evalStack := rest }
  | .CALL => .running { vm with callStack := vm.ip :: vm.callStack }
  | .RET =>
    match vm.callStack with
    | [] => .halted vm
    | ret :: rest => .running { vm with ip := ret, callStack := rest }
  | .ENTER => .running vm
  | .LEAVE => .running vm
  | .PRINT =>
    match vm.evalStack with
    | [] => .running vm
    | val :: rest => .running { vm with evalStack := rest, output := vm.output ++ printValue val }
  | .PRINT_CHAR =>
    match vm.evalStack with
    | [] => .running vm
    | top :: rest =>
      match top.toChar? with
      | none => .fault .badConversion
      | some c =>
        .running { vm with
          evalStack := rest
          output := vm.output ++ [⟨(c % 256).toNat % 256, Nat.mod_lt _ (by decide)⟩] }
  | .PRINT_STR =>
    match vm.evalStack with
    | [] => .running vm
    | top :: rest =>
      match top.toSizeT? with
      | none => .fault .badConversion
      | some addr =>
        .running { vm with evalStack := rest, output := vm.output ++ cString vm.memory addr }
  | .INT_TO_DOUBLE => .running vm
  | .DOUBLE_TO_INT =>
    match vm.evalStack with
    | [] => .running vm
    | val :: rest =>
      match val.toInt64? with
      | none => .fault .badConversion
      | some t => .running { vm with evalStack := Double.ofInt t :: rest }

/-- The fetch `prog.instructions[ip++]; cycles++` followed by the switch. -/
def step (instr : Instruction) (vm : VirtualMachine) : Outcome :=
  exec instr { vm with ip := vm.ip + 1, cycles := vm.cycles + 1 }

/-- The main loop `while (running && cycles < maxCycles)`. The first
argument bounds the number of iterations; `maxCycles - cycles` is enough,
since every iteration increments `cycles`. -/
def loop (prog : Program) : Nat → VirtualMachine → Except Fault VirtualMachine
  | 0, vm => .ok vm
  | fuel + 1, vm =>
    if vm.cycles < vm.maxCycles then
      if h : vm.ip < prog.instructions.length then
        match step prog.instructions[vm.ip] vm with
        | .running vm1 => loop prog fuel vm1
        | .halted vm1 => .ok vm1
        | .fault f => .error f
      else .ok vm
    else .ok vm

/-- The prologue of `run` without the resize: `ip` and `cycles` are reset,
the data segment is copied to the start of memory, the heap pointer is
placed 8 bytes past the data. -/
def place (prog : Program) (vm : VirtualMachine) : Except Fault VirtualMachine :=
  if prog.dataSegment.length ≤ vm.memory.length then
    .ok { vm with
      ip := 0
      cycles := 0
      memory := prog.dataSegment ++ vm.memory.drop prog.dataSegment.length
      heapPtr := (prog.dataSegment.length + 8) % sizeMod }
  else .error .outOfBounds

/-- The prologue of `run`: reset `ip` and `cycles`, copy the data segment
to the start of memory (growing it first if needed), place the heap
pointer 8 bytes past the data. -/
def load (prog : Program) (vm : VirtualMachine) : Except Fault VirtualMachine :=
  if vm.memory.length < prog.dataSegment.length then
    (resize vm ((prog.dataSegment.length + 4096) % sizeMod)).bind (place prog)
  else place prog vm

/-- The text appended when the cycle budget is used up. -/
def budgetDiagnostic : List Byte := ascii "[ERROR] Infinite loop detected\n"

/-- The epilogue of `run`: `if (cycles >= maxCycles) output << ...`. -/
def finish (vm : VirtualMachine) : VirtualMachine :=
  if vm.maxCycles ≤ vm.cycles then { vm with output := vm.output ++ budgetDiagnostic } else vm

/-- The member function `run(prog)`. -/
def run (prog : Program) (vm : VirtualMachine) : Except Fault VirtualMachine :=
  match load prog vm with
  | .error f => .error f
  | .ok vm0 =>
    match loop prog (vm0.maxCycles - vm0.cycles) vm0 with
    | .error f => .error f
    | .ok vm1 => .ok (finish vm1)

/-- The number of operand-stack values an opcode consumes. -/
def operands : OpCode → Nat
  | .POP | .DUP | .BIT_NOT | .LOGICAL_NOT | .LOAD | .ALLOC | .FREE | .DEREF
  | .JMP_IF | .JMP_IF_NOT | .PRINT | .PRINT_CHAR | .PRINT_STR | .DOUBLE_TO_INT => 1
  | .ADD | .SUB | .MUL | .DIV | .MOD | .BIT_AND | .BIT_OR | .BIT_XOR | .SHL | .SHR
  | .EQ | .NEQ | .LT | .GT | .LTE | .GTE | .LOGICAL_AND | .LOGICAL_OR | .STORE => 2
  | _ => 0

/-- Opcodes that may change the instruction pointer or stop the loop. -/
def isControl : OpCode → Bool
  | .HALT | .JMP | .JMP_IF | .JMP_IF_NOT | .RET => true
  | _ => false

/-- Consecutive iterations of the loop body on a given instruction
sequence, stopping at the first instruction that halts or faults. -/
def stepSeq : List Instruction → VirtualMachine → Outcome
  | [], vm => .running vm
  | instr :: rest, vm =>
    match step instr vm with
    | .running vm1 => stepSeq rest vm1
    | .halted vm1 => .halted vm1
    | .fault f => .fault f

/-- The indices at which the main loop reads `prog.instructions`, in
order: one entry for every execution of `prog.instructions[ip++]`. -/
def fetches (prog : Program) : Nat → VirtualMachine → List Nat
  | 0, _ => []
  | fuel + 1, vm =>
    if vm.cycles < vm.maxCycles then
      if h : vm.ip < prog.instructions.length then
        vm.ip ::
          (match step prog.instructions[vm.ip] vm with
           | .running vm1 => fetches prog fuel vm1
           | .halted _ => []
           | .fault _ => [])
      else []
    else []

/-- The data members of a machine: the state with the host's answers left
out. -/
def observable (vm : VirtualMachine) : VirtualMachine := { vm with host := [] }

/-- The outcome of an instruction with the host's answers left out. -/
def Outcome.observable : Outcome → Outcome
  | .running vm => .running vm.observable
  | .halted vm => .halted vm.observable
  | .fault f => .fault f

end VirtualMachine

end OmniNative

/-! ## The interpreter (`compiler.cpp`, `main.cpp`)

Source text and output are lists of characters. The `int` counters are
natural numbers (an overflow would need `2^31` distinct variables), and
`std::stod` gives the correctly rounded value of its digits. -/

namespace OmniNative

namespace CInterpreter

/-- The struct `VarInfo`. -/
structure VarInfo where
  address : Nat
  isPointer : Bool
  isConst : Bool
deriving DecidableEq

/-- The data members of `class CInterpreter` that `execute` uses; the maps
are association lists. -/
structure State where
  locals : List (List Char × VarInfo)
  globals : List (List Char × VarInfo)
  nextLocalAddr : Nat
  nextGlobalAddr : Nat
  memory : List Double
  output : List Char
deriving DecidableEq

/-- The state built by the constructor `CInterpreter(src)`. -/
def State.init : State :=
  { locals := []
    globals := [("INT_MAX".toList, ⟨2147483647, false, false⟩)]
    nextLocalAddr := 0
    nextGlobalAddr := 0
    memory := List.replicate 10000 Double.zero
    output := [] }

/-- The call `s.find(c)`; `none` is `npos`. -/
def findChar (c : Char) : List Char → Option Nat
  | [] => none
  | x :: xs => if x = c then some 0 else (findChar c xs).map (fun i => i + 1)

/-- The call `s.rfind(c)`. -/
def rfindChar (c : Char) (s : List Char) : Option Nat :=
  (findChar c s.reverse).map (fun i => s.length - 1 - i)

/-- Whether `s` begins with `sub`. -/
def startsWith : List Char → List Char → Bool
  | [], _ => true
  | _ :: _, [] => false
  | a :: as, b :: bs => a == b && startsWith as bs

/-- The test `s.find(sub) != npos`. -/
def containsSub (sub : List Char) : List Char → Bool
  | [] => sub.isEmpty
  | x :: xs => startsWith sub (x :: xs) || containsSub sub xs

/-- The call `s.substr(pos, n)` for `pos <= s.size()`. -/
def substr (s : List Char) (pos n : Nat) : List Char := (s.drop pos).take n

/-- Membership in the set `" \t\n\r"`. -/
def isWs (c : Char) : Bool := c == ' ' || c == '\t' || c == '\n' || c == '\r'

/-- The call `s.find_first_not_of(" \t\n\r")`. -/
def findFirstNotWs : List Char → Option Nat
  | [] => none
  | x :: xs => if isWs x then (findFirstNotWs xs).map (fun i => i + 1) else some 0

/-- The call `s.find_last_not_of(" \t\n\r")`. -/
def findLastNotWs (s : List Char) : Option Nat :=
  (findFirstNotWs s.reverse).map (fun i => s.length - 1 - i)

/-- The "trim whitespace" lines of `executeStatement`:
`if (start != npos) s = s.substr(start, end + 1)`. -/
def trim (s : List Char) : List Char :=
  match findFirstNotWs s, findLastNotWs s with
  | some start, some e => substr s start (e + 1)
  | _, _ => s

/-- The assignment pattern of `executeStatement`: the trimmed texts left of
the first `=` and from there on, when the first `=` precedes the first
`;`. -/
def parseAssignment (code : List Char) : Option (List Char × List Char) :=
  match findChar '=' code, findChar ';' code with
  | some eqPos, some semiPos =>
    if eqPos < semiPos then
      some (trim (substr code 0 eqPos), trim (substr code (eqPos + 1) semiPos))
    else none
  | _, _ => none

/-- The number written by a string of decimal digits. -/
def digitsValue (ds : List Char) : Nat :=
  ds.foldl (fun acc c => 10 * acc + (c.toNat - 48)) 0

/-- The call `stod(s)` on a string of digits and dots: `none` when it
throws, which is when there is no digit (`std::invalid_argument`) and when
`strtod` reports `ERANGE` (`std::out_of_range`): for a value too large for
a double, and for a value so small that the result is subnormal and not
exact. -/
def stod (s : List Char) : Option Double :=
  let ip := s.takeWhile Char.isDigit
  let fp :=
    match s.dropWhile Char.isDigit with
    | '.' :: r => r.takeWhile Char.isDigit
    | _ => []
  if ip.isEmpty && fp.isEmpty then none
  else
    let bits := Double.roundMag (digitsValue (ip ++ fp) * 2 ^ 1074) (10 ^ fp.length)
    if bits = 9218868437227405312 then none
    else if bits < 4503599627370496 ∧
        (digitsValue (ip ++ fp) * 2 ^ 1074) % (10 ^ fp.length) ≠ 0 then none
    else some (Double.pack false bits)

/-- The lookup `locals.find(name)`. -/
def lookup (name : List Char) : List (List Char × VarInfo) → Option VarInfo
  | [] => none
  | (k, v) :: rest => if k = name then some v else lookup name rest

/-- The member function `evaluateExpression`. -/
def evaluateExpression (st : State) (expr : List Char) : Except Fault Double :=
  if expr.isEmpty then .ok Double.zero
  else
    let num := expr.takeWhile (fun c => c.isDigit || c == '.')
    match (if num.isEmpty then none else stod num) with
    | some v => .ok v
    | none =>
      match lookup expr st.locals with
      | some info =>
        match st.memory[info.address]? with
        | some v => .ok v
        | none => .error .outOfBounds
      | none => .ok Double.zero

/-- The loop `while ((int)memory.size() <= nextLocalAddr) memory.push_back(0)`. -/
def grow (memory : List Double) (nextLocalAddr : Nat) : List Double :=
  memory ++ List.replicate (nextLocalAddr + 1 - memory.length) Double.zero

/-- The text `output << t` of an `int`. -/
def intChars (t : Int) : List Char := (fmtInt t).map (fun b => Char.ofNat b.val)

/-- The "store variable" block of `executeStatement`. For a value whose
truncation does not fit `int` the echoed `(int)value` is what the x86-64
conversion instruction returns, `INT_MIN`. -/
def assign (st : State) (varName : List Char) (value : Double) : Except Fault State :=
  let st1 :=
    match lookup varName st.locals with
    | none =>
      { st with
        locals := (varName, ⟨st.nextLocalAddr, false, false⟩) :: st.locals
        nextLocalAddr := st.nextLocalAddr + 1
        memory := grow st.memory (st.nextLocalAddr + 1) }
    | some _ => st
  match lookup varName st1.locals with
  | none => .ok st1
  | some info =>
    if info.address < st1.memory.length then
      match value.toInt? with
      | none =>
        .ok { st1 with
          memory := st1.memory.set info.address value
          output := st1.output ++ varName ++ " = ".toList ++ intChars (-2147483648) ++ ['\n'] }
      | some t =>
        .ok { st1 with
          memory := st1.memory.set info.address value
          output := st1.output ++ varName ++ " = ".toList ++ intChars t ++ ['\n'] }
    else .error .outOfBounds

/-- The member function `executeStatement`. -/
def executeStatement (st : State) (code : List Char) : Except Fault State :=
  if containsSub "printf".toList code then
    match findChar '"' code, rfindChar '"' code with
    | some s, some e =>
      if s < e then .ok { st with output := st.output ++ substr code (s + 1) (e - s - 1) }
      else .ok st
    | _, _ => .ok st
  else
    match parseAssignment code with
    | none => .ok st
    | some (varName, expr) =>
      match evaluateExpression st expr with
      | .error f => .error f
      | .ok value => assign st varName value

/-- The statement splitter of `execute`: `prev` is `source[i-1]`, the list
starts at `source[i]`, `current` and `statements` are the accumulators. -/
def splitStatements : Option Char → List Char → Bool → Bool → List Char →
    List (List Char) → List (List Char)
  | _, [], _, _, _, statements => statements
  | prev, c :: rest, inString, inComment, current, statements =>
    let inString :=
      if c == '"' && (prev.isNone || prev != some '\\') then !inString else inString
    let inComment :=
      if !inString && c == '/' && rest.head? == some '/' then true else inComment
    if inComment && c == '\n' then
      splitStatements (some c) rest inString false current statements
    else if inComment then
      splitStatements (some c) rest inString inComment current statements
    else if c == '\n' then
      if current.isEmpty then
        splitStatements (some c) rest inString inComment current statements
      else splitStatements (some c) rest inString inComment [] (statements ++ [current])
    else if c == ';' && !inString then
      splitStatements (some c) rest inString inComment [] (statements ++ [current ++ [c]])
    else splitStatements (some c) rest inString inComment (current ++ [c]) statements

/-- The loop `for (stmt : statements) if (!stmt.empty()) executeStatement(stmt)`. -/
def executeAll : State → List (List Char) → Except Fault State
  | st, [] => .ok st
  | st, stmt :: rest =>
    if stmt.isEmpty then executeAll st rest
    else
      match executeStatement st stmt with
      | .error f => .error f
      | .ok st1 => executeAll st1 rest

/-- The pieces of `text` between newline characters (`getline`). -/
def splitLines : List Char → List Char → List (List Char)
  | [], current => [current]
  | c :: rest, current =>
    if c == '\n' then current :: splitLines rest [] else splitLines rest (current ++ [c])

/-- The member function `execute`, from the state after the constructor. -/
def execute (source : List Char) : Except Fault (List (List Char)) :=
  match executeAll { State.init with output := [] }
      (splitStatements none source false false [] []) with
  | .error f => .error f
  | .ok st =>
    let results := (splitLines st.output []).filter (fun line => !line.isEmpty)
    if results.isEmpty then .ok ["Program finished successfully.".toList] else .ok results

/-- The function `executeSource`. -/
def executeSource (source : List Char) : Except Fault (List (List Char)) :=
  execute source

/-- The joined text built by the loop of `compile_and_run`. -/
def joinResults : List (List Char) → List Char
  | [] => []
  | [r] => "> ".toList ++ r
  | r :: rest => "> ".toList ++ r ++ ['\n'] ++ joinResults rest

/-- The entry point `compile_and_run` of `main.cpp`. -/
def compile_and_run (source_code : List Char) : Except Fault (List Char) :=
  match executeSource source_code with
  | .error f => .error f
  | .ok results =>
    let output_cache := joinResults results
    if output_cache.isEmpty then .ok "> Program finished with no output.".toList
    else .ok output_cache

/-- Consistency of the symbol table with the address counter and the
variable memory: distinct names hold distinct addresses, every address is
below the counter, the counter does not exceed the memory size. -/
def WellFormed (st : State) : Prop :=
  (∀ n1 n2 i1 i2, lookup n1 st.locals = some i1 → lookup n2 st.locals = some i2 →
    i1.address = i2.address → n1 = n2) ∧
  (∀ n i, lookup n st.locals = some i → i.address < st.nextLocalAddr) ∧
  st.nextLocalAddr ≤ st.memory.length

end CInterpreter

/-! ## The type descriptor of `common.h`

`struct Type` is called `CType` here, as `Type` is reserved. The owning
pointer `base` is an `Option`; `equals` returns `none` where the code
dereferences a null pointer. -/

/-- The enumeration `TypeKind`. -/
inductive TypeKind where
  | TYPE_VOID
  | TYPE_INT
  | TYPE_CHAR
  | TYPE_DOUBLE
  | TYPE_PTR
  | TYPE_ARRAY
  | TYPE_FUNCTION
deriving DecidableEq

/-- The struct `Type`. -/
inductive CType where
  | mk (kind : TypeKind) (base : Option CType) (isConst : Bool) (arraySize : Int) : CType

namespace CType

/-- The member function `Type::equals`. -/
def equals : CType → CType → Option Bool
  | mk kind base _ _, mk okind obase _ _ =>
    if kind ≠ okind then some false
    else if kind = TypeKind.TYPE_PTR then
      match base, obase with
      | some b, some ob => equals b ob
      | _, _ => none
    else some true

/-- Every pointer type reached through pointer bases has a base. -/
def Defined : CType → Bool
  | mk kind base _ _ =>
    if kind = TypeKind.TYPE_PTR then
      match base with
      | some b => Defined b
      | none => false
    else true

/-- The type reached through pointer bases is not an array. -/
def arrayFree : CType → Bool
  | mk kind base _ _ =>
    if kind = TypeKind.TYPE_PTR then
      match base with
      | some b => arrayFree b
      | none => true
    else kind ≠ TypeKind.TYPE_ARRAY

/-- Structural equality as the specification words it: the same kind and,
for pointer and array types, base types that are equal in turn. -/
def structEq : CType → CType → Bool
  | mk kind base _ _, mk okind obase _ _ =>
    kind = okind &&
      (if kind = TypeKind.TYPE_PTR ∨ kind = TypeKind.TYPE_ARRAY then
        match base, obase with
        | some b, some ob => structEq b ob
        | _, _ => false
      else true)

end CType

end OmniNative

/-! ## The line diff (`diff_checker.cpp`)

Texts are lists of characters, `size_t` indices are natural numbers (they
never exceed the number of lines). A vector read at an index that is not
below the size is the failure `outOfRange`; the backtracking loop is
iterated at most a given number of times and reports `outOfFuel` when it
would go on. -/

namespace OmniDiff

/-- The enumeration `DiffType`. -/
inductive DiffType where
  | EQUAL
  | INSERT
  | DELETE
deriving DecidableEq

/-- The struct `DiffOp`. -/
structure DiffOp where
  type : DiffType
  text : List Char
deriving DecidableEq

/-- Ways in which the model of `computeDiff` can fail to return a list. -/
inductive Failure where
  /-- A vector is read at an index that is not below its size. -/
  | outOfRange
  /-- The backtracking loop is still running after the given number of
  iterations. -/
  | outOfFuel
deriving DecidableEq

/-- The lines read by `while (std::getline(ss, line))`: the pieces of the
text that end at a newline character, and the rest of the text after the
last newline when it is not empty. -/
def getlines : List Char → List (List Char)
  | [] => []
  | c :: rest =>
    if c = '\n' then [] :: getlines rest
    else
      match getlines rest with
      | [] => [[c]]
      | line :: lines => (c :: line) :: lines

/-- One pass of the inner loop `for (j = 1; j <= n; j++)`: the entries
`dp[i][j..]` of row `i`. The arguments are the old line `oldLines[i - 1]`,
the new lines from `newLines[j - 1]` on, the entries `dp[i - 1][j..]` of
the row above, `dp[i - 1][j - 1]` and `dp[i][j - 1]`. -/
def fillRow (oldLine : List Char) : List (List Char) → List Nat → Nat → Nat → List Nat
  | [], _, _, _ => []
  | newLine :: rest, up, diag, left =>
    let v := if oldLine = newLine then diag + 1 else max (up.headD 0) left
    v :: fillRow oldLine rest up.tail (up.headD 0) v

/-- Row `i` of the table from row `i - 1`; `dp[i][0]` stays 0. -/
def nextRow (oldLine : List Char) (newLines : List (List Char)) (prev : List Nat) : List Nat :=
  0 :: fillRow oldLine newLines prev.tail (prev.headD 0) 0

/-- The rows from the given one on, one more for every old line. -/
def lcsRows : List (List Char) → List (List Char) → List Nat → List (List Nat)
  | [], _, row => [row]
  | oldLine :: rest, newLines, row =>
    row :: lcsRows rest newLines (nextRow oldLine newLines row)

/-- The table `dp` after the two nested loops: `m + 1` rows of `n + 1`
entries, row 0 all zero. -/
def lcsTable (oldLines newLines : List (List Char)) : List (List Nat) :=
  lcsRows oldLines newLines (List.replicate (newLines.length + 1) 0)

/-- The read `dp[i][j]`. -/
def dpAt (dp : List (List Nat)) (i j : Nat) : Option Nat :=
  match dp[i]? with
  | some row => row[j]?
  | none => none

/-- The condition `i > 0 && j > 0 && oldLines[i - 1] == newLines[j - 1]`. -/
def linesMatch (oldLines newLines : List (List Char)) (i j : Nat) : Except Failure Bool :=
  if 0 < i ∧ 0 < j then
    match oldLines[i - 1]?, newLines[j - 1]? with
    | some a, some b => .ok (decide (a = b))
    | _, _ => .error .outOfRange
  else .ok false

/-- The condition `j > 0 && (i == 0 || dp[i][j - 1] >= dp[i - 1][j])`. -/
def takesInsert (dp : List (List Nat)) (i j : Nat) : Except Failure Bool :=
  if 0 < j then
    if i = 0 then .ok true
    else
      match dpAt dp i (j - 1), dpAt dp (i - 1) j with
      | some x, some y => .ok (decide (y ≤ x))
      | _, _ => .error .outOfRange
  else .ok false

/-- The condition `i > 0 && (j == 0 || dp[i][j - 1] < dp[i - 1][j])`. -/
def takesDelete (dp : List (List Nat)) (i j : Nat) : Except Failure Bool :=
  if 0 < i then
    if j = 0 then .ok true
    else
      match dpAt dp i (j - 1), dpAt dp (i - 1) j with
      | some x, some y => .ok (decide (x < y))
      | _, _ => .error .outOfRange
  else .ok false

/-- The body of the backtracking loop: the new values of `i`, `j` and
`reversed`. When none of the three branches fires the state is unchanged. -/
def backtrackStep (oldLines newLines : List (List Char)) (dp : List (List Nat))
    (i j : Nat) (reversed : List DiffOp) : Except Failure (Nat × Nat × List DiffOp) :=
  match linesMatch oldLines newLines i j with
  | .error e => .error e
  | .ok true =>
    match oldLines[i - 1]? with
    | some a => .ok (i - 1, j - 1, reversed ++ [⟨.EQUAL, a⟩])
    | none => .error .outOfRange
  | .ok false =>
    match takesInsert dp i j with
    | .error e => .error e
    | .ok true =>
      match newLines[j - 1]? with
      | some b => .ok (i, j - 1, reversed ++ [⟨.INSERT, b⟩])
      | none => .error .outOfRange
    | .ok false =>
      match takesDelete dp i j with
      | .error e => .error e
      | .ok true =>
        match oldLines[i - 1]? with
        | some a => .ok (i - 1, j, reversed ++ [⟨.DELETE, a⟩])
        | none => .error .outOfRange
      | .ok false => .ok (i, j, reversed)

/-- The loop `while (i > 0 || j > 0)`, iterated at most `fuel` times. -/
def backtrack (oldLines newLines : List (List Char)) (dp : List (List Nat)) :
    Nat → Nat → Nat → List DiffOp → Except Failure (List DiffOp)
  | 0, i, j, reversed => if 0 < i ∨ 0 < j then .error .outOfFuel else .ok reversed
  | fuel + 1, i, j, reversed =>
    if 0 < i ∨ 0 < j then
      match backtrackStep oldLines newLines dp i j reversed with
      | .error e => .error e
      | .ok (i1, j1, reversed1) => backtrack oldLines newLines dp fuel i1 j1 reversed1
    else .ok reversed

/-- The body of the loop "merge consecutive operations of the same type". -/
def mergeOp (result : List DiffOp) (op : DiffOp) : List DiffOp :=
  match result.getLast? with
  | none => result ++ [op]
  | some back =>
    if back.type ≠ op.type then result ++ [op]
    else result.dropLast ++ [⟨back.type, back.text ++ '\n' :: op.text⟩]

/-- The function `computeDiff`; the backtracking loop is given `m + n`
iterations. -/
def computeDiff (oldText newText : List Char) : Except Failure (List DiffOp) :=
  let oldLines := getlines oldText
  let newLines := getlines newText
  let dp := lcsTable oldLines newLines
  match backtrack oldLines newLines dp (oldLines.length + newLines.length)
      oldLines.length newLines.length [] with
  | .error e => .error e
  | .ok reversed => .ok (reversed.reverse.foldl mergeOp [])

/-- The two characters written in front of an operation's text. -/
def marker : DiffType → List Char
  | .EQUAL => "  ".toList
  | .INSERT => "+ ".toList
  | .DELETE => "- ".toList

/-- The function `diffToString`. -/
def diffToString (diffs : List DiffOp) : List Char :=
  diffs.foldl (fun output op => output ++ marker op.type ++ op.text ++ ['\n']) []

/-- The pieces of a text between its newline characters (one more piece
than there are newlines). -/
def splitNl : List Char → List (List Char)
  | [] => [[]]
  | c :: rest =>
    if c = '\n' then [] :: splitNl rest
    else
      match splitNl rest with
      | [] => [[c]]
      | line :: lines => (c :: line) :: lines

/-- The operations with their texts split back into lines: one operation
for every line. -/
def unmerge : List DiffOp → List DiffOp
  | [] => []
  | op :: rest => (splitNl op.text).map (fun line => ⟨op.type, line⟩) ++ unmerge rest

/-- The lines, in order, of the operations whose type is kept. -/
def sideLines (keep : DiffType → Bool) : List DiffOp → List (List Char)
  | [] => []
  | op :: rest =>
    if keep op.type then splitNl op.text ++ sideLines keep rest else sideLines keep rest

/-- The lines of the text that `diffToString` writes for the operations,
as they are produced: the marker is in front of the first line of every
operation only. -/
def markedLines : List DiffOp → List (List Char)
  | [] => []
  | op :: rest =>
    (match splitNl op.text with
     | [] => []
     | first :: more => (marker op.type ++ first) :: more) ++ markedLines rest

/-- The length of a longest common subsequence, by the recurrence of the
table on the first elements. -/
def lcs : List (List Char) → List (List Char) → Nat
  | [], _ => 0
  | _ :: _, [] => 0
  | a :: as, b :: bs =>
    if a = b then lcs as bs + 1 else max (lcs as (b :: bs)) (lcs (a :: as) bs)
termination_by xs ys => xs.length + ys.length

/-- The values of `h` at `acc` and at its successive extensions by the
elements of the list. -/
def chain {β γ : Type} (h : List β → γ) : List β → List β → List γ
  | acc, [] => [h acc]
  | acc, b :: rest => h acc :: chain h (b :: acc) rest

/-- Types of the operations that carry a line of the old text. -/
def inOld : DiffType → Bool
  | .INSERT => false
  | _ => true

/-- Types of the operations that carry a line of the new text. -/
def inNew : DiffType → Bool
  | .DELETE => false
  | _ => true

/-- The type of unchanged lines. -/
def isEqual : DiffType → Bool
  | .EQUAL => true
  | _ => false

/-- The types of inserted and deleted lines. -/
def isChange : DiffType → Bool
  | .EQUAL => false
  | _ => true

/-- The texts, in order, of the operations whose type is kept. -/
def lineTexts (keep : DiffType → Bool) (ops : List DiffOp) : List (List Char) :=
  (ops.filter (fun op => keep op.type)).map DiffOp.text

end OmniDiff

/-! ## The equation solver (`equation_solver.cpp`)

The text is a list of ASCII characters; the lexer's position is the input
not yet read. An exception thrown by `std::stod` leaves `solve` without a
result (`thrown`). The library functions `sin`, `cos`, `tan`, `log`,
`exp`, `sqrt` and `pow` are parameters, and `new` is taken to succeed.

The code does not bound the depth of its recursive calls
(`parseExpression`, `parseTerm`, `parseFactor`, `evaluate`, the
destructors). The parameter `depth` is the number of nested calls of these
functions that the call stack of the host has room for below `solve`; a
call beyond it ends the process (`stackOverflow`).

The recursive descent parser is iterated with a bound `fuel` on the total
number of calls and loop iterations and reports `outOfFuel` when the bound
is used up; with the bound that `parse` gives this does not happen. -/

namespace OmniMath

open OmniNative

/-- The enumeration `TokenType`. -/
inductive TokenType where
  | NUMBER
  | VARIABLE
  | PLUS
  | MINUS
  | MULTIPLY
  | DIVIDE
  | POWER
  | LPAREN
  | RPAREN
  | EQ
  | FUNC_SIN
  | FUNC_COS
  | FUNC_TAN
  | FUNC_LOG
  | FUNC_EXP
  | FUNC_SQRT
  | END
deriving DecidableEq

/-- The struct `Token`. -/
structure Token where
  type : TokenType
  value : List Char
  numValue : Double
deriving DecidableEq

/-- The library function `std::isspace` in the "C" locale. -/
def isSpace (c : Char) : Bool :=
  c == ' ' || c == '\t' || c == '\n' || c == '\x0b' || c == '\x0c' || c == '\r'

/-- The test `std::isdigit(c) || c == '.'`. -/
def isNumChar (c : Char) : Bool := c.isDigit || c == '.'

/-- The token type of an identifier. -/
def keyword (id : List Char) : TokenType :=
  if id = "sin".toList then .FUNC_SIN
  else if id = "cos".toList then .FUNC_COS
  else if id = "tan".toList then .FUNC_TAN
  else if id = "log".toList then .FUNC_LOG
  else if id = "exp".toList then .FUNC_EXP
  else if id = "sqrt".toList then .FUNC_SQRT
  else .VARIABLE

/-- The `switch (c)` at the end of `Lexer::next`. -/
def symbol (c : Char) : Token :=
  if c = '+' then ⟨.PLUS, "+".toList, Double.zero⟩
  else if c = '-' then ⟨.MINUS, "-".toList, Double.zero⟩
  else if c = '*' then ⟨.MULTIPLY, "*".toList, Double.zero⟩
  else if c = '/' then ⟨.DIVIDE, "/".toList, Double.zero⟩
  else if c = '^' then ⟨.POWER, "^".toList, Double.zero⟩
  else if c = '(' then ⟨.LPAREN, "(".toList, Double.zero⟩
  else if c = ')' then ⟨.RPAREN, ")".toList, Double.zero⟩
  else if c = '=' then ⟨.EQ, "=".toList, Double.zero⟩
  else ⟨.END, [], Double.zero⟩

/-- The member function `Lexer::next` on the input not yet read: the token
and the input left; `none` when `std::stod` throws. -/
def Lexer.next (input : List Char) : Option (Token × List Char) :=
  match input.dropWhile isSpace with
  | [] => some (⟨.END, [], Double.zero⟩, [])
  | c :: rest =>
    if isNumChar c then
      let val := (c :: rest).takeWhile isNumChar
      match CInterpreter.stod val with
      | some d => some (⟨.NUMBER, val, d⟩, (c :: rest).dropWhile isNumChar)
      | none => none
    else if c.isAlpha then
      let id := (c :: rest).takeWhile Char.isAlpha
      some (⟨keyword id, id, Double.zero⟩, (c :: rest).dropWhile Char.isAlpha)
    else some (symbol c, rest)

/-- The syntax tree: `NumberNode`, `VariableNode`, `BinaryNode`,
`FuncNode`. -/
inductive Node where
  | number (val : Double)
  | variable
  | binary (left : Node) (op : TokenType) (right : Node)
  | func (fn : TokenType) (arg : Node)
deriving DecidableEq

/-- The functions of `<cmath>` that `evaluate` calls. -/
structure Libm where
  sin : Double → Double
  cos : Double → Double
  tan : Double → Double
  log : Double → Double
  exp : Double → Double
  sqrt : Double → Double
  pow : Double → Double → Double

/-- The ways a call can end. -/
inductive Result (α : Type) where
  | ok (a : α)
  /-- An exception of `std::stod` leaves the function. -/
  | thrown
  /-- The call stack is used up. -/
  | stackOverflow
  /-- The bound on calls and iterations is used up. -/
  | outOfFuel
deriving DecidableEq

/-- The `switch (op)` of `BinaryNode::evaluate`. -/
def applyBinary (m : Libm) (op : TokenType) (l r : Double) : Double :=
  match op with
  | .PLUS => Double.add l r
  | .MINUS => Double.sub l r
  | .MULTIPLY => Double.mul l r
  | .DIVIDE => Double.div l r
  | .POWER => m.pow l r
  | _ => Double.zero

/-- The `switch (func)` of `FuncNode::evaluate`. -/
def applyFunc (m : Libm) (fn : TokenType) (v : Double) : Double :=
  match fn with
  | .FUNC_SIN => m.sin v
  | .FUNC_COS => m.cos v
  | .FUNC_TAN => m.tan v
  | .FUNC_LOG => m.log v
  | .FUNC_EXP => m.exp v
  | .FUNC_SQRT => m.sqrt v
  | _ => Double.zero

/-- The virtual member function `evaluate`, with room for `depth` nested
calls. -/
def Node.evaluate (m : Libm) : Nat → Node → Double → Result Double
  | 0, _, _ => .stackOverflow
  | _ + 1, .number val, _ => .ok val
  | _ + 1, .variable, x => .ok x
  | depth + 1, .binary left op right, x =>
    match left.evaluate m depth x with
    | .ok l =>
      match right.evaluate m depth x with
      | .ok r => .ok (applyBinary m op l r)
      | .thrown => .thrown
      | .stackOverflow => .stackOverflow
      | .outOfFuel => .outOfFuel
    | .thrown => .thrown
    | .stackOverflow => .stackOverflow
    | .outOfFuel => .outOfFuel
  | depth + 1, .func fn arg, x =>
    match arg.evaluate m depth x with
    | .ok v => .ok (applyFunc m fn v)
    | .thrown => .thrown
    | .stackOverflow => .stackOverflow
    | .outOfFuel => .outOfFuel

/-- The virtual destructor called by `delete ast`, with room for `depth`
nested calls: `~BinaryNode() { delete left; delete right; }`,
`~FuncNode() { delete arg; }`. -/
def Node.destroy : Nat → Node → Result Unit
  | 0, _ => .stackOverflow
  | _ + 1, .number _ => .ok ()
  | _ + 1, .variable => .ok ()
  | depth + 1, .binary left _ right =>
    match left.destroy depth with
    | .ok _ => right.destroy depth
    | .thrown => .thrown
    | .stackOverflow => .stackOverflow
    | .outOfFuel => .outOfFuel
  | depth + 1, .func _ arg => arg.destroy depth

/-- The data members of `class Parser`: the current token and the input
the lexer has not read. -/
structure Parser where
  current : Token
  input : List Char
deriving DecidableEq

/-- The statement `current = lexer.next()`. -/
def advance (p : Parser) : Result Parser :=
  match Lexer.next p.input with
  | some (t, rest) => .ok ⟨t, rest⟩
  | none => .thrown

/-- The test `current.type >= FUNC_SIN && current.type <= FUNC_SQRT`. -/
def isFunc : TokenType → Bool
  | .FUNC_SIN | .FUNC_COS | .FUNC_TAN | .FUNC_LOG | .FUNC_EXP | .FUNC_SQRT => true
  | _ => false

/-- The statement `if (current.type == RPAREN) current = lexer.next()`. -/
def skipRParen (p : Parser) : Result Parser :=
  if p.current.type = .RPAREN then advance p else .ok p

mutual

/-- The member function `parseExpression`, with a bound of `fuel` and room
for `depth` nested calls. -/
def parseExpression : Nat → Nat → Parser → Result (Node × Parser)
  | 0, _, _ => .outOfFuel
  | _ + 1, 0, _ => .stackOverflow
  | fuel + 1, depth + 1, p =>
    match parseTerm fuel depth p with
    | .thrown => .thrown
    | .stackOverflow => .stackOverflow
    | .outOfFuel => .outOfFuel
    | .ok (lhs, p1) =>
      match exprLoop fuel depth lhs p1 with
      | .thrown => .thrown
      | .stackOverflow => .stackOverflow
      | .outOfFuel => .outOfFuel
      | .ok (lhs, p2) =>
        if p2.current.type = .EQ then
          match advance p2 with
          | .thrown => .thrown
          | .stackOverflow => .stackOverflow
          | .outOfFuel => .outOfFuel
          | .ok p3 =>
            match parseExpression fuel depth p3 with
            | .thrown => .thrown
            | .stackOverflow => .stackOverflow
            | .outOfFuel => .outOfFuel
            | .ok (rhs, p4) => .ok (.binary lhs .MINUS rhs, p4)
        else .ok (lhs, p2)

/-- The loop `while (current.type == PLUS || current.type == MINUS)` of
`parseExpression`; `depth` is the room left for the calls it makes. -/
def exprLoop : Nat → Nat → Node → Parser → Result (Node × Parser)
  | 0, _, _, _ => .outOfFuel
  | fuel + 1, depth, lhs, p =>
    if p.current.type = .PLUS ∨ p.current.type = .MINUS then
      match advance p with
      | .thrown => .thrown
      | .stackOverflow => .stackOverflow
      | .outOfFuel => .outOfFuel
      | .ok p1 =>
        match parseTerm fuel depth p1 with
        | .thrown => .thrown
        | .stackOverflow => .stackOverflow
        | .outOfFuel => .outOfFuel
        | .ok (rhs, p2) => exprLoop fuel depth (.binary lhs p.current.type rhs) p2
    else .ok (lhs, p)

/-- The member function `parseTerm`. -/
def parseTerm : Nat → Nat → Parser → Result (Node × Parser)
  | 0, _, _ => .outOfFuel
  | _ + 1, 0, _ => .stackOverflow
  | fuel + 1, depth + 1, p =>
    match parseFactor fuel depth p with
    | .thrown => .thrown
    | .stackOverflow => .stackOverflow
    | .outOfFuel => .outOfFuel
    | .ok (lhs, p1) => termLoop fuel depth lhs p1

/-- The loop `while (current.type == MULTIPLY || ... DIVIDE || ... POWER)`
of `parseTerm`; `depth` is the room left for the calls it makes. -/
def termLoop : Nat → Nat → Node → Parser → Result (Node × Parser)
  | 0, _, _, _ => .outOfFuel
  | fuel + 1, depth, lhs, p =>
    if p.current.type = .MULTIPLY ∨ p.current.type = .DIVIDE ∨ p.current.type = .POWER then
      match advance p with
      | .thrown => .thrown
      | .stackOverflow => .stackOverflow
      | .outOfFuel => .outOfFuel
      | .ok p1 =>
        match parseFactor fuel depth p1 with
        | .thrown => .thrown
        | .stackOverflow => .stackOverflow
        | .outOfFuel => .outOfFuel
        | .ok (rhs, p2) => termLoop fuel depth (.binary lhs p.current.type rhs) p2
    else .ok (lhs, p)

/-- The member function `parseFactor`. -/
def parseFactor : Nat → Nat → Parser → Result (Node × Parser)
  | 0, _, _ => .outOfFuel
  | _ + 1, 0, _ => .stackOverflow
  | fuel + 1, depth + 1, p =>
    if p.current.type = .NUMBER then
      match advance p with
      | .thrown => .thrown
      | .stackOverflow => .stackOverflow
      | .outOfFuel => .outOfFuel
      | .ok p1 => .ok (.number p.current.numValue, p1)
    else if p.current.type = .VARIABLE then
      match advance p with
      | .thrown => .thrown
      | .stackOverflow => .stackOverflow
      | .outOfFuel => .outOfFuel
      | .ok p1 => .ok (.variable, p1)
    else if isFunc p.current.type then
      match advance p with
      | .thrown => .thrown
      | .stackOverflow => .stackOverflow
      | .outOfFuel => .outOfFuel
      | .ok p1 =>
        if p1.current.type = .LPAREN then
          match advance p1 with
          | .thrown => .thrown
          | .stackOverflow => .stackOverflow
          | .outOfFuel => .outOfFuel
          | .ok p2 =>
            match parseExpression fuel depth p2 with
            | .thrown => .thrown
            | .stackOverflow => .stackOverflow
            | .outOfFuel => .outOfFuel
            | .ok (arg, p3) =>
              match skipRParen p3 with
              | .thrown => .thrown
              | .stackOverflow => .stackOverflow
              | .outOfFuel => .outOfFuel
              | .ok p4 => .ok (.func p.current.type arg, p4)
        else .ok (.number Double.zero, p1)
    else if p.current.type = .LPAREN then
      match advance p with
      | .thrown => .thrown
      | .stackOverflow => .stackOverflow
      | .outOfFuel => .outOfFuel
      | .ok p1 =>
        match parseExpression fuel depth p1 with
        | .thrown => .thrown
        | .stackOverflow => .stackOverflow
        | .outOfFuel => .outOfFuel
        | .ok (n, p2) =>
          match skipRParen p2 with
          | .thrown => .thrown
          | .stackOverflow => .stackOverflow
          | .outOfFuel => .outOfFuel
          | .ok p3 => .ok (n, p3)
    else .ok (.number Double.zero, p)

end

/-- The first two statements of `solve`: the constructor `Parser(equation)`
and the call `parser.parseExpression()`, with a bound of `4 * length + 4`
and room for `depth` nested calls. -/
def parse (depth : Nat) (equation : List Char) : Result Node :=
  match Lexer.next equation with
  | none => .thrown
  | some (t, rest) =>
    match parseExpression (4 * equation.length + 4) depth ⟨t, rest⟩ with
    | .thrown => .thrown
    | .stackOverflow => .stackOverflow
    | .outOfFuel => .outOfFuel
    | .ok (ast, _) => .ok ast

/-- The library function `std::abs` on a double: the sign bit is cleared. -/
def fabs (d : Double) : Double := Double.ofBits (d.bits % 9223372036854775808)

/-- The constant `EPSILON = 1e-7`. -/
def EPSILON : Double := Double.ofBits 4502148214488346440

/-- The step `h = 1e-5` of the numerical derivative. -/
def stepH : Double := Double.ofBits 4532020583610935537

/-- The bound `1e-9` of the "zero derivative" test. -/
def derivativeBound : Double := Double.ofBits 4472406533629990549

/-- The constant `MAX_ITER`. -/
def MAX_ITER : Nat := 100

/-- The loop `for (int i = 0; i < MAX_ITER; ++i)` of `solve` with the given
number of iterations left; `depth` is the room for the calls of
`evaluate`. -/
def newton (m : Libm) (depth : Nat) (ast : Node) : Nat → Double → Result Double
  | 0, x => .ok x
  | left + 1, x =>
    match ast.evaluate m depth x with
    | .thrown => .thrown
    | .stackOverflow => .stackOverflow
    | .outOfFuel => .outOfFuel
    | .ok fx =>
      if Double.lt (fabs fx) EPSILON then .ok x
      else
        match ast.evaluate m depth (Double.add x stepH) with
        | .thrown => .thrown
        | .stackOverflow => .stackOverflow
        | .outOfFuel => .outOfFuel
        | .ok fxh =>
          let dfx := Double.div (Double.sub fxh fx) stepH
          if Double.lt (fabs dfx) derivativeBound then .ok x
          else newton m depth ast left (Double.sub x (Double.div fx dfx))

/-- The function `solve`, with room for `depth` nested calls below it. -/
def solve (m : Libm) (depth : Nat) (equation : List Char) : Result Double :=
  match parse depth equation with
  | .thrown => .thrown
  | .stackOverflow => .stackOverflow
  | .outOfFuel => .outOfFuel
  | .ok ast =>
    match newton m depth ast MAX_ITER Double.one with
    | .thrown => .thrown
    | .stackOverflow => .stackOverflow
    | .outOfFuel => .outOfFuel
    | .ok x =>
      match ast.destroy depth with
      | .thrown => .thrown
      | .stackOverflow => .stackOverflow
      | .outOfFuel => .outOfFuel
      | .ok _ => .ok x

/-- The function of `x` that a tree denotes: the number `evaluate`
returns when the call stack has room for it. -/
def Node.value (m : Libm) : Node → Double → Double
  | .number val, _ => val
  | .variable, x => x
  | .binary left op right, x => applyBinary m op (left.value m x) (right.value m x)
  | .func fn arg, x => applyFunc m fn (arg.value m x)

/-- The number of nodes on the longest path of a tree: the number of
nested calls that `evaluate` and the destructor make on it. -/
def Node.height : Node → Nat
  | .number _ => 1
  | .variable => 1
  | .binary left _ right => max left.height right.height + 1
  | .func _ arg => arg.height + 1

/-- Whether the loop of `solve` stops at the iterate `x`. -/
def stops (m : Libm) (ast : Node) (x : Double) : Bool :=
  Double.lt (fabs (ast.value m x)) EPSILON ||
    Double.lt
      (fabs (Double.div (Double.sub (ast.value m (Double.add x stepH)) (ast.value m x))
        stepH))
      derivativeBound

/-- The Newton update `x - f(x) / f'(x)` with the numerical derivative. -/
def update (m : Libm) (ast : Node) (x : Double) : Double :=
  Double.sub x
    (Double.div (ast.value m x)
      (Double.div (Double.sub (ast.value m (Double.add x stepH)) (ast.value m x)) stepH))

/-- The size of what the parser has not consumed: the unread input and
the current token, unless it is the end token. -/
def Parser.measure (p : Parser) : Nat :=
  p.input.length + (if p.current.type = .END then 0 else 1)

/-- A result that is not `outOfFuel`, is `stackOverflow` only when `roomy`
fails, and, when it is a value, leaves no more than `bound` to consume with
a tree whose height plus what is left does not exceed `hb`. -/
def Result.within (roomy : Prop) (bound hb : Nat) : Result (Node × Parser) → Prop
  | .ok (n, p) => p.measure ≤ bound ∧ n.height + p.measure ≤ hb
  | .thrown => True
  | .stackOverflow => ¬ roomy
  | .outOfFuel => False

end OmniMath

/-! ## Sample values of the arithmetic and rendering model -/

namespace OmniNative

namespace Double

/-- Sample value: `0.1 + 0.2` is `0.30000000000000004`. -/
theorem sample_add_tenth_fifth :
    Double.add (Double.ofBits 4591870180066957722) (Double.ofBits 4596373779694328218) = Double.ofBits 4599075939470750516 := by
  decide!

/-- Sample value: `1 / 3` is `0x3FD5555555555555`. -/
theorem sample_div_one_three :
    Double.div (Double.ofInt 1) (Double.ofInt 3) = Double.ofBits 4599676419421066581 := by
  decide!

/-- Sample value: `1e200 * 1e200` overflows to infinity. -/
theorem sample_mul_overflow :
    Double.mul (Double.ofBits 7598952565167317594) (Double.ofBits 7598952565167317594) = Double.inf := by
  decide!

/-- Sample value: `fmod(7.5, 2)` is `1.5`. -/
theorem sample_fmod_seven_two :
    Double.fmod (Double.ofBits 4620130267728707584) (Double.ofInt 2) = Double.ofBits 4609434218613702656 := by
  decide!

/-- Sample value: `5 - 5` is `+0`. -/
theorem sample_sub_cancel :
    Double.sub (Double.ofInt 5) (Double.ofInt 5) = Double.zero := by
  decide!

/-- Sample value: NaN compares unequal to itself. -/
theorem sample_nan_ne_nan :
    Double.eq Double.nan Double.nan = false ∧ Double.ne Double.nan Double.nan = true := by
  decide!

/-- Sample value: `-0.0 == 0.0`. -/
theorem sample_negZero_eq_zero :
    Double.eq Double.negZero Double.zero = true := by
  decide!

/-- Sample value: `2^53 + 1` rounds to `2^53`. -/
theorem sample_ofNat_round :
    Double.ofNat 9007199254740993 = Double.ofNat 9007199254740992 := by
  decide!

/-- Sample value: stream rendering of `0.1`. -/
theorem sample_fmt_tenth :
    fmtDouble (Double.ofBits 4591870180066957722) = ascii "0.1" := by
  decide!

/-- Sample value: stream rendering of `1/3`. -/
theorem sample_fmt_third :
    fmtDouble (Double.ofBits 4599676419421066581) = ascii "0.333333" := by
  decide!

/-- Sample value: stream rendering of `1.5e300`. -/
theorem sample_fmt_large :
    fmtDouble (Double.ofBits 9097811302482466869) = ascii "1.5e+300" := by
  decide!

/-- Sample value: stream rendering of `-2.5e-7`. -/
theorem sample_fmt_small :
    fmtDouble (Double.ofBits 13731694030708141453) = ascii "-2.5e-07" := by
  decide!

/-- Sample value: stream rendering of the least `int64_t`. -/
theorem sample_fmt_int :
    fmtInt (-9223372036854775808) = ascii "-9223372036854775808" := by
  decide!

end Double

end OmniNative

/-! ## Facts about doubles -/

namespace OmniNative

namespace Double

theorem ilog2_spec (q : Nat) (h1 : 1 ≤ q) (h2 : q < 2 ^ 4096) :
    2 ^ ilog2 q ≤ q ∧ q < 2 ^ (ilog2 q + 1) := by
  have step : ∀ l k : Nat, 2 ^ l ≤ q → q < 2 ^ (l + (k + k)) →
      2 ^ (if 2 ^ (l + k) ≤ q then l + k else l) ≤ q ∧
        q < 2 ^ ((if 2 ^ (l + k) ≤ q then l + k else l) + k) := by
    intro l k hl hu
    by_cases hc : 2 ^ (l + k) ≤ q
    · rw [if_pos hc]
      exact ⟨hc, by rw [Nat.add_assoc]; exact hu⟩
    · rw [if_neg hc]
      exact ⟨hl, by omega⟩
  have e0 : 0 + (2048 + 2048) = 4096 := rfl
  have h0 : (2 : Nat) ^ 0 ≤ q := by rw [Nat.pow_zero]; exact h1
  have s1 := step 0 2048 h0 (by rw [e0]; exact h2)
  have s2 := step _ 1024 s1.1 s1.2
  have s3 := step _ 512 s2.1 s2.2
  have s4 := step _ 256 s3.1 s3.2
  have s5 := step _ 128 s4.1 s4.2
  have s6 := step _ 64 s5.1 s5.2
  have s7 := step _ 32 s6.1 s6.2
  have s8 := step _ 16 s7.1 s7.2
  have s9 := step _ 8 s8.1 s8.2
  have s10 := step _ 4 s9.1 s9.2
  have s11 := step _ 2 s10.1 s10.2
  have s12 := step _ 1 s11.1 s11.2
  simp only [ilog2, List.foldl]
  exact s12

theorem rne_exact (m d : Nat) (hd : 0 < d) : rne (m * d) d = m := by
  unfold rne
  simp only [Nat.mul_mod_left, Nat.mul_zero, hd, if_true, Nat.mul_div_cancel _ hd]

/-- Bits of the double for an integer `n` with `2^e ≤ n < 2^(e+1)`, `e ≤ 52`. -/
theorem roundMag_int (n e : Nat) (he : e ≤ 52) (hlo : 2 ^ e ≤ n) (hhi : n < 2 ^ (e + 1)) :
    roundMag (n * 2 ^ 1074) 1 = (e + 1022) * 4503599627370496 + n * 2 ^ (52 - e) := by
  have hpos : 0 < (2 : Nat) ^ 1074 := Nat.pow_pos (by decide)
  have hn1 : 1 ≤ n := Nat.le_trans (Nat.two_pow_pos _) hlo
  have hN1 : 2 ^ (e + 1074) ≤ n * 2 ^ 1074 := by
    rw [Nat.pow_add]; exact Nat.mul_le_mul_right _ hlo
  have hN2 : n * 2 ^ 1074 < 2 ^ (e + 1074 + 1) := by
    rw [show e + 1074 + 1 = (e + 1) + 1074 by omega, Nat.pow_add]
    exact Nat.mul_lt_mul_of_pos_right hhi hpos
  have hN3 : n * 2 ^ 1074 < 2 ^ 4096 :=
    Nat.lt_of_lt_of_le hN2 (Nat.pow_le_pow_right (by decide) (by omega))
  have hsp := ilog2_spec (n * 2 ^ 1074) (Nat.le_trans (Nat.two_pow_pos _) hN1) hN3
  have hL : ilog2 (n * 2 ^ 1074) = e + 1074 := by
    have a1 : ilog2 (n * 2 ^ 1074) < e + 1074 + 1 :=
      (Nat.pow_lt_pow_iff_right (by decide : 1 < 2)).1 (Nat.lt_of_le_of_lt hsp.1 hN2)
    have a2 : e + 1074 < ilog2 (n * 2 ^ 1074) + 1 :=
      (Nat.pow_lt_pow_iff_right (by decide : 1 < 2)).1 (Nat.lt_of_le_of_lt hN1 hsp.2)
    omega
  have hbig : ¬ n * 2 ^ 1074 < 9007199254740992 := by
    have : (9007199254740992 : Nat) = 2 ^ 53 := by norm_num
    rw [this]
    have : (2 : Nat) ^ 53 ≤ 2 ^ (e + 1074) := Nat.pow_le_pow_right (by decide) (by omega)
    exact Nat.not_lt.2 (Nat.le_trans this hN1)
  have hsplit : n * 2 ^ 1074 = (n * 2 ^ (52 - e)) * 2 ^ (e + 1022) := by
    rw [Nat.mul_assoc, ← Nat.pow_add, show 52 - e + (e + 1022) = 1074 by omega]
  have hm0lo : 4503599627370496 ≤ n * 2 ^ (52 - e) := by
    have : (4503599627370496 : Nat) = 2 ^ e * 2 ^ (52 - e) := by
      rw [← Nat.pow_add, show e + (52 - e) = 52 by omega]
    rw [this]
    exact Nat.mul_le_mul_right _ hlo
  have hm0hi : n * 2 ^ (52 - e) < 9007199254740992 := by
    have : (9007199254740992 : Nat) = 2 ^ (e + 1) * 2 ^ (52 - e) := by
      rw [← Nat.pow_add, show e + 1 + (52 - e) = 53 by omega]
    rw [this]
    exact Nat.mul_lt_mul_of_pos_right hhi (Nat.two_pow_pos _)
  unfold roundMag
  simp only [Nat.div_one, hbig, if_false, hL, Nat.one_mul]
  rw [show e + 1074 - 52 = e + 1022 by omega]
  have hr : rne (n * 2 ^ 1074) (2 ^ (e + 1022)) = n * 2 ^ (52 - e) := by
    rw [hsplit]
    exact rne_exact _ _ (Nat.two_pow_pos _)
  rw [hr]
  have : ¬ 9218868437227405312 ≤ (e + 1022) * 4503599627370496 + n * 2 ^ (52 - e) := by
    generalize n * 2 ^ (52 - e) = m0 at hm0hi
    omega
  simp only [this, if_false]

/-- An integer below `2^53` converts to a double exactly. -/
theorem ofNat_exact (n : Nat) (hn : n < 9007199254740992) :
    (ofNat n).isNaN = false ∧ (ofNat n).isInf = false ∧ (ofNat n).sign = false ∧
      (ofNat n).mag = n * 2 ^ 1074 := by
  by_cases h0 : n = 0
  · subst h0
    decide!
  · have hlo : 2 ^ Nat.log 2 n ≤ n := Nat.pow_log_le_self 2 h0
    have hhi : n < 2 ^ (Nat.log 2 n + 1) := Nat.lt_pow_succ_log_self (by decide) n
    generalize Nat.log 2 n = e at hlo hhi
    have he : e ≤ 52 := by
      have h53 : (9007199254740992 : Nat) = 2 ^ 53 := by norm_num
      rw [h53] at hn
      have : e < 53 := (Nat.pow_lt_pow_iff_right (by decide : 1 < 2)).1 (Nat.lt_of_le_of_lt hlo hn)
      omega
    have hm0lo : 4503599627370496 ≤ n * 2 ^ (52 - e) := by
      have : (4503599627370496 : Nat) = 2 ^ e * 2 ^ (52 - e) := by
        rw [← Nat.pow_add, show e + (52 - e) = 52 by omega]
      rw [this]
      exact Nat.mul_le_mul_right _ hlo
    have hm0hi : n * 2 ^ (52 - e) < 9007199254740992 := by
      have : (9007199254740992 : Nat) = 2 ^ (e + 1) * 2 ^ (52 - e) := by
        rw [← Nat.pow_add, show e + 1 + (52 - e) = 53 by omega]
      rw [this]
      exact Nat.mul_lt_mul_of_pos_right hhi (Nat.two_pow_pos _)
    have hsplit : n * 2 ^ 1074 = (n * 2 ^ (52 - e)) * 2 ^ (e + 1022) := by
      rw [Nat.mul_assoc, ← Nat.pow_add, show 52 - e + (e + 1022) = 1074 by omega]
    have hbits : (ofNat n).bits = (e + 1022) * 4503599627370496 + n * 2 ^ (52 - e) := by
      simp only [ofNat, ofInt, Int.natAbs_ofNat, pack, ofBits, roundMag_int n e he hlo hhi]
      have : ¬ ((n : Int) < 0) := by omega
      simp only [this, decide_False, Bool.false_eq_true, if_false, Nat.zero_add]
      generalize n * 2 ^ (52 - e) = m0 at hm0hi
      omega
    rw [hsplit]
    generalize n * 2 ^ (52 - e) = m0 at hm0lo hm0hi hbits
    have hexp : (ofNat n).expField = e + 1023 := by
      simp only [expField, hbits]; omega
    have hfrac : (ofNat n).fracField = m0 - 4503599627370496 := by
      simp only [fracField, hbits]; omega
    refine ⟨?_, ?_, ?_, ?_⟩
    · have : (e + 1023 == 2047) = false := by
        rw [beq_eq_false_iff_ne]; omega
      simp only [isNaN, hexp, this, Bool.false_and]
    · have : (e + 1023 == 2047) = false := by
        rw [beq_eq_false_iff_ne]; omega
      simp only [isInf, hexp, this, Bool.false_and]
    · simp only [sign, hbits]
      have : ¬ (9223372036854775808 ≤ (e + 1022) * 4503599627370496 + m0) := by omega
      simp [this]
    · simp only [mag, hexp, hfrac]
      have : ¬ (e + 1023 = 0) := by omega
      simp only [this, if_false]
      rw [show e + 1023 - 1 = e + 1022 by omega,
        show 4503599627370496 + (m0 - 4503599627370496) = m0 by omega]

theorem lt_ofNat (a b : Nat) (hab : a < b) (hb : b < 9007199254740992) :
    Double.lt (ofNat a) (ofNat b) = true := by
  have ha := ofNat_exact a (by omega)
  have hb := ofNat_exact b hb
  simp only [Double.lt, ha.1, hb.1, scaled, ha.2.2.1, hb.2.2.1, ha.2.2.2, hb.2.2.2,
    Bool.or_self, Bool.not_false, Bool.true_and, Bool.false_eq_true, if_false, decide_eq_true_eq]
  exact_mod_cast Nat.mul_lt_mul_of_pos_right hab (Nat.two_pow_pos _)

theorem toSizeT_ofNat (n : Nat) (hn : n < 9007199254740992) :
    (ofNat n).toSizeT? = some n := by
  have h := ofNat_exact n hn
  have ht : (ofNat n).trunc = (n : Int) := by
    simp only [trunc, h.2.2.1, h.2.2.2, Bool.false_eq_true, if_false,
      Nat.mul_div_cancel _ (Nat.two_pow_pos 1074)]
  simp only [toSizeT?, h.1, h.2.1, ht, Bool.or_self, Bool.false_eq_true, if_false]
  have : (0 : Int) ≤ n ∧ (n : Int) < 18446744073709551616 := by omega
  simp only [this, and_self, if_true, Int.toNat_ofNat]

/-- The integer part of a finite double is either below `2^63` or a
multiple of 2048. -/
theorem mag_div_bound (d : Double) (h : d.mag / 2 ^ 1074 < 18446744073709551616) :
    d.mag / 2 ^ 1074 + 2048 ≤ 18446744073709551616 := by
  have hfrac : d.fracField < 4503599627370496 := Nat.mod_lt _ (by decide)
  have hpos : 0 < (2 : Nat) ^ 1074 := Nat.two_pow_pos 1074
  revert h
  unfold mag
  by_cases hE : d.expField = 0
  · simp only [hE, if_true]
    intro _
    have h52 : (2 : Nat) ^ 52 ≤ 2 ^ 1074 := Nat.pow_le_pow_right (by decide) (by decide)
    have e52 : (4503599627370496 : Nat) = 2 ^ 52 := by norm_num
    have : d.fracField / 2 ^ 1074 = 0 := by
      apply Nat.div_eq_of_lt
      rw [e52] at hfrac
      exact Nat.lt_of_lt_of_le hfrac h52
    rw [this]
    decide
  · simp only [hE, if_false]
    have hMlo : 4503599627370496 ≤ 4503599627370496 + d.fracField := by omega
    have hMhi : 4503599627370496 + d.fracField < 9007199254740992 := by omega
    generalize 4503599627370496 + d.fracField = M at hMlo hMhi
    generalize d.expField - 1 = k
    intro h
    by_cases hk : k ≤ 1084
    · have h1 : M * 2 ^ k ≤ M * 2 ^ 1084 :=
        Nat.mul_le_mul_left _ (Nat.pow_le_pow_right (by decide) hk)
      have h2 : M * 2 ^ 1084 = (M * 1024) * 2 ^ 1074 := by
        rw [Nat.mul_assoc, show (1024 : Nat) = 2 ^ 10 by norm_num, ← Nat.pow_add]
      have h3 : M * 2 ^ k / 2 ^ 1074 ≤ M * 1024 := by
        calc M * 2 ^ k / 2 ^ 1074 ≤ M * 2 ^ 1084 / 2 ^ 1074 := Nat.div_le_div_right h1
          _ = M * 1024 := by rw [h2, Nat.mul_div_cancel _ hpos]
      omega
    · have hk2 : k = (k - 1074) + 1074 := by omega
      have hj : 11 ≤ k - 1074 := by omega
      generalize k - 1074 = j at hk2 hj
      subst hk2
      rw [Nat.pow_add, ← Nat.mul_assoc, Nat.mul_div_cancel _ hpos] at h ⊢
      have h4 : 4503599627370496 * 2 ^ j ≤ M * 2 ^ j := Nat.mul_le_mul_right _ hMlo
      have h5 : (2 : Nat) ^ (52 + j) < 2 ^ 64 := by
        rw [Nat.pow_add]
        have e52 : (2 : Nat) ^ 52 = 4503599627370496 := by norm_num
        have e64 : (2 : Nat) ^ 64 = 18446744073709551616 := by norm_num
        rw [e52, e64]
        omega
      have h6 : 52 + j < 64 := (Nat.pow_lt_pow_iff_right (by decide : 1 < 2)).1 h5
      have h7 : j = 11 := by omega
      subst h7
      have e11 : (2 : Nat) ^ 11 = 2048 := by norm_num
      rw [e11] at h ⊢
      omega

/-- Every `size_t` obtained from a double is at most `2^64 - 2048`. -/
theorem toSizeT_bound (d : Double) (n : Nat) (h : d.toSizeT? = some n) :
    n + 2048 ≤ 18446744073709551616 := by
  unfold toSizeT? at h
  split at h
  · exact absurd h (by simp)
  · split at h
    · rename_i hr
      injection h with h
      subst h
      unfold trunc at hr ⊢
      by_cases hs : d.sign = true
      · simp only [hs, if_true] at hr ⊢
        have : (d.mag / 2 ^ 1074 : Nat) = 0 := by omega
        rw [this]
        decide
      · simp only [hs, Bool.false_eq_true, if_false] at hr ⊢
        rw [Int.toNat_ofNat]
        exact mag_div_bound d (by omega)
    · exact absurd h (by simp)

end Double

end OmniNative

/-! ## Basic facts about the loop -/

namespace OmniNative

namespace VirtualMachine

/-- A `resize` that returns changes `memory` and the host's answers only;
the new memory has the size asked for and is the old one cut or extended
by zero bytes. -/
theorem resize_ok {vm vm1 : VirtualMachine} {n : Nat} (h : resize vm n = .ok vm1) :
    vm1.evalStack = vm.evalStack ∧ vm1.callStack = vm.callStack ∧
      vm1.loopStack = vm.loopStack ∧ vm1.ip = vm.ip ∧ vm1.heapPtr = vm.heapPtr ∧
      vm1.output = vm.output ∧ vm1.maxCycles = vm.maxCycles ∧ vm1.cycles = vm.cycles ∧
      vm1.memory = (if n ≤ vm.memory.length then vm.memory.take n
        else vm.memory ++ List.replicate (n - vm.memory.length) 0) := by
  unfold resize at h
  split at h
  · rename_i hle
    injection h with h
    subst h
    simp only [hle, if_true, and_self]
  · rename_i hle
    split at h
    · exact absurd h (by simp)
    · split at h
      · exact absurd h (by simp)
      · injection h with h
        subst h
        simp only [hle, if_false, and_self]
      · injection h with h
        subst h
        simp only [hle, if_false, and_self]

theorem resize_ok_length {vm vm1 : VirtualMachine} {n : Nat} (h : resize vm n = .ok vm1) :
    vm1.memory.length = n := by
  rw [(resize_ok h).2.2.2.2.2.2.2.2]
  split
  · rw [List.length_take]; omega
  · rw [List.length_append, List.length_replicate]; omega

theorem resize_ok_extends {vm vm1 : VirtualMachine} {n : Nat} (h : resize vm n = .ok vm1)
    (hle : vm.memory.length ≤ n) : vm.memory <+: vm1.memory := by
  rw [(resize_ok h).2.2.2.2.2.2.2.2]
  split
  · rw [List.take_of_length_le (by omega)]
  · exact ⟨_, rfl⟩

/-- A request for a larger buffer that the host grants. -/
theorem resize_granted (vm : VirtualMachine) (n : Nat) (hlt : vm.memory.length < n)
    (hmax : n ≤ maxSize) (hhost : vm.host.head? ≠ some false) :
    resize vm n = .ok { vm with
      memory := vm.memory ++ List.replicate (n - vm.memory.length) 0
      host := vm.host.tail } := by
  obtain ⟨memory, evalStack, callStack, loopStack, ip, heapPtr, output, maxCycles, cycles,
    host⟩ := vm
  simp only at hlt hhost
  have h1 : ¬ n ≤ memory.length := by omega
  have h2 : ¬ maxSize < n := by omega
  simp only [resize, h1, h2, if_false]
  cases host with
  | nil => rfl
  | cons b answers =>
    cases b with
    | true => rfl
    | false => exact absurd rfl hhost

/-- A request for a larger buffer beyond `max_size()`. -/
theorem resize_lengthError (vm : VirtualMachine) (n : Nat) (hlt : vm.memory.length < n)
    (hmax : maxSize < n) : resize vm n = .error .lengthError := by
  have h1 : ¬ n ≤ vm.memory.length := by omega
  unfold resize
  rw [if_neg h1, if_pos hmax]

/-- A request for a larger buffer that the host refuses. -/
theorem resize_refused (vm : VirtualMachine) (n : Nat) (answers : List Bool)
    (hlt : vm.memory.length < n) (hmax : n ≤ maxSize) (hhost : vm.host = false :: answers) :
    resize vm n = .error .badAlloc := by
  have h1 : ¬ n ≤ vm.memory.length := by omega
  have h2 : ¬ maxSize < n := by omega
  unfold resize
  rw [if_neg h1, if_neg h2, hhost]

/-- A size not above the present one cuts the vector, whatever the host. -/
theorem resize_cut (vm : VirtualMachine) (n : Nat) (hle : n ≤ vm.memory.length) :
    resize vm n = .ok { vm with memory := vm.memory.take n } := by
  unfold resize
  rw [if_pos hle]

/-- The case `ALLOC` with a size on the stack. -/
theorem exec_alloc_eq (vm : VirtualMachine) (top i : Double) (rest : List Double)
    (str : List Byte) (n : Nat) (hn : top.toSizeT? = some n) :
    exec ⟨.ALLOC, i, str⟩ { vm with evalStack := top :: rest } =
      if vm.memory.length < (vm.heapPtr + n) % sizeMod then
        Outcome.ofExcept (resize { vm with
            evalStack := Double.ofNat vm.heapPtr :: rest
            heapPtr := (vm.heapPtr + n) % sizeMod }
          (((vm.heapPtr + n) % sizeMod + 4096) % sizeMod))
      else .running { vm with
        evalStack := Double.ofNat vm.heapPtr :: rest
        heapPtr := (vm.heapPtr + n) % sizeMod } := by
  simp only [exec, hn]

/-- An `ALLOC` after which the loop goes on changes the operand stack, the
heap pointer, memory and the host's answers only. -/
theorem exec_alloc_running {instr : Instruction} {vm vm1 : VirtualMachine}
    (hop : instr.op = .ALLOC) (h : exec instr vm = .running vm1) :
    vm1.ip = vm.ip ∧ vm1.cycles = vm.cycles ∧ vm1.maxCycles = vm.maxCycles ∧
      vm1.output = vm.output ∧ vm1.callStack = vm.callStack := by
  unfold exec at h
  rw [hop] at h
  simp only at h
  split at h
  · injection h with h
    subst h
    exact ⟨rfl, rfl, rfl, rfl, rfl⟩
  · split at h
    · exact absurd h (by simp)
    · split at h
      · unfold Outcome.ofExcept at h
        split at h
        · rename_i hr
          injection h with h
          subst h
          have hk := resize_ok hr
          exact ⟨hk.2.2.2.1, hk.2.2.2.2.2.2.2.1, hk.2.2.2.2.2.2.1, hk.2.2.2.2.2.1, hk.2.1⟩
        · exact absurd h (by simp)
      · injection h with h
        subst h
        exact ⟨rfl, rfl, rfl, rfl, rfl⟩

theorem exec_running_cycles {instr : Instruction} {vm vm1 : VirtualMachine}
    (h : exec instr vm = .running vm1) :
    vm1.cycles = vm.cycles ∧ vm1.maxCycles = vm.maxCycles := by
  by_cases hal : instr.op = .ALLOC
  · exact ⟨(exec_alloc_running hal h).2.1, (exec_alloc_running hal h).2.2.1⟩
  · unfold exec at h
    split at h
    all_goals (try (rename_i hop; exact absurd hop hal))
    all_goals
      (try simp only [binaryOp, compareOp, bitOp, shiftOp, loadOp, jumpTo] at h)
      (repeat' split at h) <;>
      first
        | (injection h with h; subst h; exact ⟨rfl, rfl⟩)
        | (exact absurd h (by simp))

/-- An `ALLOC` does not set `running = false`. -/
theorem exec_alloc_not_halted {instr : Instruction} {vm vm1 : VirtualMachine}
    (hop : instr.op = .ALLOC) : exec instr vm ≠ .halted vm1 := by
  intro h
  unfold exec at h
  rw [hop] at h
  simp only at h
  split at h
  · exact absurd h (by simp)
  · split at h
    · exact absurd h (by simp)
    · split at h
      · unfold Outcome.ofExcept at h
        split at h <;> exact absurd h (by simp)
      · exact absurd h (by simp)

theorem exec_halted_cycles {instr : Instruction} {vm vm1 : VirtualMachine}
    (h : exec instr vm = .halted vm1) :
    vm1.cycles = vm.cycles ∧ vm1.maxCycles = vm.maxCycles := by
  by_cases hal : instr.op = .ALLOC
  · exact absurd h (exec_alloc_not_halted hal)
  · unfold exec at h
    split at h
    all_goals (try (rename_i hop; exact absurd hop hal))
    all_goals
      (try simp only [binaryOp, compareOp, bitOp, shiftOp, loadOp, jumpTo] at h)
      (repeat' split at h) <;>
      first
        | (injection h with h; subst h; exact ⟨rfl, rfl⟩)
        | (exact absurd h (by simp))

theorem step_running_cycles {instr : Instruction} {vm vm1 : VirtualMachine}
    (h : step instr vm = .running vm1) :
    vm1.cycles = vm.cycles + 1 ∧ vm1.maxCycles = vm.maxCycles :=
  exec_running_cycles h

theorem step_halted_cycles {instr : Instruction} {vm vm1 : VirtualMachine}
    (h : step instr vm = .halted vm1) :
    vm1.cycles = vm.cycles + 1 ∧ vm1.maxCycles = vm.maxCycles :=
  exec_halted_cycles h

/-- Unfolding of one iteration of the main loop. -/
theorem loop_succ (prog : Program) (fuel : Nat) (vm : VirtualMachine) :
    loop prog (fuel + 1) vm =
      if vm.cycles < vm.maxCycles then
        if h : vm.ip < prog.instructions.length then
          match step prog.instructions[vm.ip] vm with
          | .running vm1 => loop prog fuel vm1
          | .halted vm1 => .ok vm1
          | .fault f => .error f
        else .ok vm
      else .ok vm := rfl

/-- Fuel beyond `maxCycles - cycles` is never used. -/
theorem loop_fuel_add (prog : Program) :
    ∀ (fuel : Nat) (vm : VirtualMachine) (extra : Nat),
      vm.maxCycles - vm.cycles ≤ fuel → loop prog (fuel + extra) vm = loop prog fuel vm := by
  intro fuel
  induction fuel with
  | zero =>
    intro vm extra hle
    cases extra with
    | zero => rfl
    | succ k =>
      have hnot : ¬ vm.cycles < vm.maxCycles := by omega
      simp [loop, hnot]
  | succ n ih =>
    intro vm extra hle
    have hrw : n + 1 + extra = (n + extra) + 1 := by omega
    rw [hrw, loop_succ, loop_succ]
    by_cases hc : vm.cycles < vm.maxCycles
    · by_cases hip : vm.ip < prog.instructions.length
      · simp only [hc, hip, if_true, dif_pos]
        cases hs : step prog.instructions[vm.ip] vm with
        | running vm1 =>
          have hcy := step_running_cycles hs
          exact ih vm1 extra (by omega)
        | halted vm1 => rfl
        | fault f => rfl
      · simp [hc, hip]
    · simp [hc]

/-- The final state of the loop never has more than `maxCycles` cycles. -/
theorem loop_cycles_le (prog : Program) :
    ∀ (fuel : Nat) (vm vm1 : VirtualMachine),
      vm.cycles ≤ vm.maxCycles → loop prog fuel vm = .ok vm1 →
        vm1.cycles ≤ vm1.maxCycles ∧ vm1.maxCycles = vm.maxCycles := by
  intro fuel
  induction fuel with
  | zero =>
    intro vm vm1 hle h
    simp only [loop, Except.ok.injEq] at h
    subst h
    exact ⟨hle, rfl⟩
  | succ n ih =>
    intro vm vm1 hle h
    rw [loop_succ] at h
    by_cases hc : vm.cycles < vm.maxCycles
    · by_cases hip : vm.ip < prog.instructions.length
      · simp only [hc, hip, if_true, dif_pos] at h
        cases hs : step prog.instructions[vm.ip] vm with
        | running vm2 =>
          rw [hs] at h
          have hcy := step_running_cycles hs
          have := ih vm2 vm1 (by omega) h
          exact ⟨this.1, by omega⟩
        | halted vm2 =>
          rw [hs] at h
          simp only [Except.ok.injEq] at h
          subst h
          have hcy := step_halted_cycles hs
          exact ⟨by omega, hcy.2⟩
        | fault f =>
          rw [hs] at h
          exact absurd h (by simp)
      · simp only [hc, hip, if_true, dif_neg, not_false_eq_true, Except.ok.injEq] at h
        subst h
        exact ⟨hle, rfl⟩
    · simp only [hc, if_false, Except.ok.injEq] at h
      subst h
      exact ⟨hle, rfl⟩

theorem zero_toSizeT : Double.zero.toSizeT? = some 0 := by decide!

/-- The one-instruction program `JMP 0` spins until the budget is used up. -/
theorem loop_jmp_zero (data : List Byte) :
    ∀ (fuel : Nat) (vm : VirtualMachine), vm.ip = 0 → vm.cycles + fuel = vm.maxCycles →
      loop ⟨[⟨.JMP, Double.zero, []⟩], data⟩ fuel vm = .ok { vm with cycles := vm.maxCycles } := by
  intro fuel
  induction fuel with
  | zero =>
    intro vm _ hc
    have hc1 : vm.cycles = vm.maxCycles := by omega
    cases vm
    simp only at hc1
    subst hc1
    rfl
  | succ n ih =>
    intro vm hip hc
    have hlt : vm.cycles < vm.maxCycles := by omega
    rw [loop_succ]
    have hlen : vm.ip < ([⟨.JMP, Double.zero, []⟩] : List Instruction).length := by
      rw [hip]; decide
    simp only [hlt, if_true, hlen, dif_pos]
    have hinstr : ([⟨.JMP, Double.zero, []⟩] : List Instruction)[vm.ip] = ⟨.JMP, Double.zero, []⟩ := by
      simp [hip]
    rw [hinstr]
    simp only [step, exec, jumpTo, zero_toSizeT]
    rw [ih _ rfl (by simp only; omega)]
    cases vm
    simp only at hip
    subst hip
    rfl

/-- The prologue of `run`, when it returns: the machine `vm1` after the
resize, if there was one, and the state built from it. -/
theorem load_ok {prog : Program} {vm vm0 : VirtualMachine} (hl : load prog vm = .ok vm0) :
    ∃ vm1,
      ((vm.memory.length < prog.dataSegment.length ∧
          resize vm ((prog.dataSegment.length + 4096) % sizeMod) = .ok vm1) ∨
        (prog.dataSegment.length ≤ vm.memory.length ∧ vm1 = vm)) ∧
      prog.dataSegment.length ≤ vm1.memory.length ∧
      vm0 = { vm1 with
        ip := 0
        cycles := 0
        memory := prog.dataSegment ++ vm1.memory.drop prog.dataSegment.length
        heapPtr := (prog.dataSegment.length + 8) % sizeMod } := by
  unfold load at hl
  by_cases hlt : vm.memory.length < prog.dataSegment.length
  · rw [if_pos hlt] at hl
    cases hr : resize vm ((prog.dataSegment.length + 4096) % sizeMod) with
    | error f => rw [hr] at hl; exact absurd hl (by simp [Except.bind])
    | ok vm1 =>
      rw [hr] at hl
      change place prog vm1 = .ok vm0 at hl
      unfold place at hl
      split at hl
      · rename_i hle
        injection hl with hl
        exact ⟨vm1, Or.inl ⟨hlt, rfl⟩, hle, hl.symm⟩
      · exact absurd hl (by simp)
  · rw [if_neg hlt] at hl
    unfold place at hl
    split at hl
    · rename_i hle
      injection hl with hl
      exact ⟨vm, Or.inr ⟨by omega, rfl⟩, hle, hl.symm⟩
    · exact absurd hl (by simp)

/-- What the prologue of `run` leaves as it was, and what it sets. -/
theorem load_ok_all {prog : Program} {vm vm0 : VirtualMachine} (hl : load prog vm = .ok vm0) :
    vm0.cycles = 0 ∧ vm0.maxCycles = vm.maxCycles ∧ vm0.ip = 0 ∧
      vm0.evalStack = vm.evalStack ∧ vm0.heapPtr = (prog.dataSegment.length + 8) % sizeMod ∧
      vm0.output = vm.output ∧ vm0.callStack = vm.callStack ∧
      ∃ t, vm0.memory = prog.dataSegment ++ t := by
  obtain ⟨vm1, hcase, _, h0⟩ := load_ok hl
  subst h0
  rcases hcase with ⟨_, hr⟩ | ⟨_, he⟩
  · have h := resize_ok hr
    exact ⟨rfl, h.2.2.2.2.2.2.1, rfl, h.1, rfl, h.2.2.2.2.2.1, h.2.1, _, rfl⟩
  · subst he
    exact ⟨rfl, rfl, rfl, rfl, rfl, rfl, rfl, _, rfl⟩

theorem load_ok_cycles {prog : Program} {vm vm0 : VirtualMachine}
    (hl : load prog vm = .ok vm0) : vm0.cycles = 0 ∧ vm0.maxCycles = vm.maxCycles :=
  ⟨(load_ok_all hl).1, (load_ok_all hl).2.1⟩

/-- Loading a data segment that fits into the present memory. -/
theorem load_of_le (prog : Program) (vm : VirtualMachine)
    (h : prog.dataSegment.length ≤ vm.memory.length) :
    load prog vm = .ok { vm with
      ip := 0
      cycles := 0
      memory := prog.dataSegment ++ vm.memory.drop prog.dataSegment.length
      heapPtr := (prog.dataSegment.length + 8) % sizeMod } := by
  have h1 : ¬ vm.memory.length < prog.dataSegment.length := by omega
  unfold load place
  rw [if_neg h1, if_pos h]

theorem new_memory_length : new.memory.length = initialMemorySize :=
  List.length_replicate _ _

theorem load_new_nil (instrs : List Instruction) :
    load ⟨instrs, []⟩ new = .ok { new with heapPtr := 8 } :=
  load_of_le ⟨instrs, []⟩ new (Nat.zero_le _)

theorem loop_jmp_zero_budget (data : List Byte) (vm : VirtualMachine) (hip : vm.ip = 0)
    (hc : vm.cycles ≤ vm.maxCycles) :
    loop ⟨[⟨.JMP, Double.zero, []⟩], data⟩ (vm.maxCycles - vm.cycles) vm
      = .ok { vm with cycles := vm.maxCycles } :=
  loop_jmp_zero data _ vm hip (by omega)

theorem finish_of_le (vm : VirtualMachine) (h : vm.maxCycles ≤ vm.cycles) :
    finish vm = { vm with output := vm.output ++ budgetDiagnostic } := by
  simp only [finish, h, if_true]

theorem finish_of_lt (vm : VirtualMachine) (h : vm.cycles < vm.maxCycles) :
    finish vm = vm := by
  have h1 : ¬ vm.maxCycles ≤ vm.cycles := by omega
  simp only [finish, h1, if_false]

theorem run_eq_of_load {prog : Program} {vm vm0 vm1 : VirtualMachine}
    (h : load prog vm = .ok vm0)
    (hloop : loop prog (vm0.maxCycles - vm0.cycles) vm0 = .ok vm1) :
    run prog vm = .ok (finish vm1) := by
  unfold run
  rw [h]
  dsimp only
  rw [hloop]

theorem exec_running_ip {instr : Instruction} {vm vm1 : VirtualMachine}
    (hc : isControl instr.op = false) (h : exec instr vm = .running vm1) :
    vm1.ip = vm.ip := by
  by_cases hal : instr.op = .ALLOC
  · exact (exec_alloc_running hal h).1
  · unfold exec at h
    split at h
    all_goals (try (rename_i hop; exact absurd hop hal))
    all_goals (rename_i hop; rw [hop] at hc; cases hc)
    all_goals
      (try simp only [binaryOp, compareOp, bitOp, shiftOp, loadOp] at h)
      (repeat' split at h) <;>
      first
        | (injection h with h; subst h; rfl)
        | (exact absurd h (by simp))

theorem step_running_ip {instr : Instruction} {vm vm1 : VirtualMachine}
    (hc : isControl instr.op = false) (h : step instr vm = .running vm1) :
    vm1.ip = vm.ip + 1 :=
  exec_running_ip hc h

/-- A run of straight-line instructions inside a program is what the main
loop does on them, as long as the cycle budget lasts. -/
theorem loop_stepSeq (prog : Program) :
    ∀ (is pre post : List Instruction) (vm vm1 : VirtualMachine) (fuel : Nat),
      prog.instructions = pre ++ is ++ post →
      (∀ i ∈ is, isControl i.op = false) →
      vm.ip = pre.length →
      vm.cycles + is.length ≤ vm.maxCycles →
      stepSeq is vm = .running vm1 →
      loop prog (fuel + is.length) vm = loop prog fuel vm1 ∧
        vm1.ip = vm.ip + is.length ∧ vm1.cycles = vm.cycles + is.length ∧
        vm1.maxCycles = vm.maxCycles := by
  intro is
  induction is with
  | nil =>
    intro pre post vm vm1 fuel _ _ _ _ hs
    simp only [stepSeq, Outcome.running.injEq] at hs
    subst hs
    exact ⟨rfl, rfl, rfl, rfl⟩
  | cons i rest ih =>
    intro pre post vm vm1 fuel hprog hctl hip hcy hs
    simp only [List.length_cons] at hcy ⊢
    have hlt : vm.cycles < vm.maxCycles := by omega
    have hlen : vm.ip < prog.instructions.length := by
      rw [hprog, hip]; simp
    have hinstr : prog.instructions[vm.ip] = i := by
      have hget : ∀ (l : List Instruction) (n : Nat) (hn : n < l.length),
          l = pre ++ i :: rest ++ post → n = pre.length → l[n] = i := by
        intro l n hn hl hn2
        subst hl hn2
        simp [List.getElem_append_right]
      exact hget _ _ hlen hprog hip
    rw [show fuel + (rest.length + 1) = (fuel + rest.length) + 1 by omega, loop_succ]
    simp only [hlt, if_true, hlen, dif_pos, hinstr]
    simp only [stepSeq] at hs
    cases hst : step i vm with
    | running vm2 =>
      rw [hst] at hs
      simp only at hs ⊢
      have hip2 := step_running_ip (hctl i (List.mem_cons_self _ _)) hst
      have hcy2 := step_running_cycles hst
      have := ih (pre ++ [i]) post vm2 vm1 fuel (by rw [hprog]; simp)
        (fun j hj => hctl j (List.mem_cons_of_mem _ hj))
        (by rw [hip2, hip]; simp) (by omega) hs
      refine ⟨this.1, ?_, ?_, ?_⟩ <;> omega
    | halted vm2 => rw [hst] at hs; exact absurd hs (by simp)
    | fault f => rw [hst] at hs; exact absurd hs (by simp)

theorem loop_of_ip_ge (prog : Program) (fuel : Nat) (vm : VirtualMachine)
    (h : prog.instructions.length ≤ vm.ip) : loop prog fuel vm = .ok vm := by
  cases fuel with
  | zero => rfl
  | succ n =>
    rw [loop_succ]
    have : ¬ vm.ip < prog.instructions.length := by omega
    simp only [this, dif_neg, not_false_eq_true, ite_self]

/-- A program of straight-line instructions shorter than the cycle budget
runs them all and stops by running off the end, without diagnostic. -/
theorem run_straight {prog : Program} {vm vm0 vm1 : VirtualMachine}
    (hload : load prog vm = .ok vm0)
    (hctl : ∀ i ∈ prog.instructions, isControl i.op = false)
    (hlen : prog.instructions.length < vm.maxCycles)
    (hs : stepSeq prog.instructions vm0 = .running vm1) :
    run prog vm = .ok vm1 := by
  have h0 := load_ok_cycles hload
  have hip0 : vm0.ip = 0 := (load_ok_all hload).2.2.1
  have hb := loop_stepSeq prog prog.instructions [] [] vm0 vm1
    (vm0.maxCycles - vm0.cycles - prog.instructions.length) (by simp) hctl (by simp [hip0])
    (by omega) hs
  have hfuel : vm0.maxCycles - vm0.cycles - prog.instructions.length + prog.instructions.length
      = vm0.maxCycles - vm0.cycles := by omega
  rw [hfuel] at hb
  have hloop : loop prog (vm0.maxCycles - vm0.cycles) vm0 = .ok vm1 := by
    rw [hb.1]
    exact loop_of_ip_ge prog _ vm1 (by omega)
  rw [run_eq_of_load hload hloop, finish_of_lt vm1 (by omega)]

theorem run_cycles_le (prog : Program) (vm vm1 : VirtualMachine)
    (h : run prog vm = .ok vm1) : vm1.cycles ≤ vm.maxCycles := by
  unfold run at h
  cases hl : load prog vm with
  | error f => rw [hl] at h; exact absurd h (by simp)
  | ok vm0 =>
    rw [hl] at h
    simp only at h
    have h0 := load_ok_cycles hl
    cases hloop : loop prog (vm0.maxCycles - vm0.cycles) vm0 with
    | error f => rw [hloop] at h; exact absurd h (by simp)
    | ok vm2 =>
      rw [hloop] at h
      simp only [Except.ok.injEq] at h
      have := loop_cycles_le prog _ vm0 vm2 (by omega) hloop
      subst h
      unfold finish
      split
      · simp only; omega
      · omega

/-- The prologue of `run` overwrites `ip`, `cycles` and `heapPtr`, so their
values before the call do not matter. -/
theorem load_reset (prog : Program) (vm : VirtualMachine) (ip hp cyc : Nat) :
    load prog { vm with ip := ip, heapPtr := hp, cycles := cyc } = load prog vm := by
  obtain ⟨memory, evalStack, callStack, loopStack, ip0, heapPtr, output, maxCycles, cycles,
    host⟩ := vm
  unfold load resize
  by_cases hlt : memory.length < prog.dataSegment.length
  · rw [if_pos hlt, if_pos hlt]
    by_cases h1 : (prog.dataSegment.length + 4096) % sizeMod ≤ memory.length
    · rw [if_pos h1, if_pos h1]
      rfl
    · rw [if_neg h1, if_neg h1]
      by_cases h2 : maxSize < (prog.dataSegment.length + 4096) % sizeMod
      · rw [if_pos h2, if_pos h2]
      · rw [if_neg h2, if_neg h2]
        cases host with
        | nil => rfl
        | cons b answers => cases b <;> rfl
  · rw [if_neg hlt, if_neg hlt]
    rfl

theorem run_reset (prog : Program) (vm : VirtualMachine) (ip hp cyc : Nat) :
    run prog { vm with ip := ip, heapPtr := hp, cycles := cyc } = run prog vm := by
  unfold run
  rw [load_reset]

theorem run_jmp_zero :
    run ⟨[⟨.JMP, Double.zero, []⟩], []⟩ new
      = .ok { new with heapPtr := 8, cycles := 10000000,
                       output := ascii "[ERROR] Infinite loop detected\n" } :=
  (run_eq_of_load (load_new_nil _)
    (loop_jmp_zero_budget [] { new with heapPtr := 8 } rfl (Nat.zero_le _))).trans
    (congrArg Except.ok (finish_of_le _ (Nat.le_refl _)))

theorem straight_of_all {is : List Instruction}
    (h : is.all (fun i => !isControl i.op) = true) : ∀ i ∈ is, isControl i.op = false := by
  intro i hi
  have := List.all_eq_true.1 h i hi
  simpa using this

theorem stepSeq_push_add_print (vm : VirtualMachine) (a b : Double) (t : Int)
    (h : (Double.add a b).toInt64? = some t) :
    stepSeq [⟨.PUSH_IMM, a, []⟩, ⟨.PUSH_IMM, b, []⟩, ⟨.ADD, Double.zero, []⟩,
        ⟨.PRINT, Double.zero, []⟩] vm
      = .running { vm with
          ip := vm.ip + 4
          cycles := vm.cycles + 4
          output := vm.output ++ printText (Double.add a b) t } := by
  simp only [stepSeq, step, exec, binaryOp, printValue, h, printText]

theorem new_maxCycles : new.maxCycles = 10000000 := rfl

theorem run_push_add_print (a b : Double) (t : Int)
    (h : (Double.add a b).toInt64? = some t) :
    run ⟨[⟨.PUSH_IMM, a, []⟩, ⟨.PUSH_IMM, b, []⟩, ⟨.ADD, Double.zero, []⟩,
        ⟨.PRINT, Double.zero, []⟩], []⟩ new
      = .ok { new with heapPtr := 8, ip := 4, cycles := 4,
                       output := printText (Double.add a b) t } :=
  run_straight (load_new_nil _) (straight_of_all rfl) (by rw [new_maxCycles]; exact (by decide : 4 < 10000000))
    (stepSeq_push_add_print _ a b t h)

/-! ## Properties of the virtual machine -/

/-- An instruction other than `ALLOC` does not consult the host. -/
theorem exec_observable (instr : Instruction) (vm : VirtualMachine) (hop : instr.op ≠ .ALLOC) :
    (exec instr vm).observable = (exec instr vm.observable).observable := by
  obtain ⟨op, imm, str⟩ := instr
  obtain ⟨memory, evalStack, callStack, loopStack, ip, heapPtr, output, maxCycles, cycles,
    host⟩ := vm
  cases op
  all_goals first | exact absurd rfl hop | skip
  all_goals
    rcases evalStack with _ | ⟨x, _ | ⟨y, rest⟩⟩ <;>
    simp only [exec, binaryOp, compareOp, bitOp, shiftOp, loadOp, jumpTo, observable]
  all_goals (try (repeat' split))
  all_goals (try rfl)

/-- On two hosts `resize` gives the same data members, unless one of the
hosts refuses the buffer. -/
theorem resize_observable (a b : VirtualMachine) (n : Nat)
    (h : a.observable = b.observable) :
    resize a n = .error .badAlloc ∨ resize b n = .error .badAlloc ∨
      (resize a n).map observable = (resize b n).map observable := by
  obtain ⟨memory, evalStack, callStack, loopStack, ip, heapPtr, output, maxCycles, cycles,
    hostA⟩ := a
  obtain ⟨memory2, evalStack2, callStack2, loopStack2, ip2, heapPtr2, output2, maxCycles2,
    cycles2, hostB⟩ := b
  simp only [observable, VirtualMachine.mk.injEq, and_true] at h
  obtain ⟨rfl, rfl, rfl, rfl, rfl, rfl, rfl, rfl, rfl⟩ := h
  unfold resize
  by_cases h1 : n ≤ memory.length
  · rw [if_pos h1, if_pos h1]
    exact Or.inr (Or.inr rfl)
  · rw [if_neg h1, if_neg h1]
    by_cases h2 : maxSize < n
    · rw [if_pos h2, if_pos h2]
      exact Or.inr (Or.inr rfl)
    · rw [if_neg h2, if_neg h2]
      rcases hostA with _ | ⟨_ | _, ta⟩
      · rcases hostB with _ | ⟨_ | _, tb⟩
        · exact Or.inr (Or.inr rfl)
        · exact Or.inr (Or.inl rfl)
        · exact Or.inr (Or.inr rfl)
      · exact Or.inl rfl
      · rcases hostB with _ | ⟨_ | _, tb⟩
        · exact Or.inr (Or.inr rfl)
        · exact Or.inr (Or.inl rfl)
        · exact Or.inr (Or.inr rfl)

theorem ofExcept_observable (ra rb : Except Fault VirtualMachine)
    (h : ra.map observable = rb.map observable) :
    (Outcome.ofExcept ra).observable = (Outcome.ofExcept rb).observable := by
  cases ra with
  | error f =>
    cases rb with
    | error g =>
      simp only [Except.map, Except.error.injEq] at h
      subst h
      rfl
    | ok vb => simp [Except.map] at h
  | ok va =>
    cases rb with
    | error g => simp [Except.map] at h
    | ok vb =>
      simp only [Except.map, Except.ok.injEq] at h
      show Outcome.running va.observable = Outcome.running vb.observable
      rw [h]

/-- On two hosts `ALLOC` gives the same data members, unless one of the
hosts refuses the buffer. -/
theorem exec_alloc_observable (instr : Instruction) (a b : VirtualMachine)
    (hop : instr.op = .ALLOC) (h : a.observable = b.observable) :
    exec instr a = .fault .badAlloc ∨ exec instr b = .fault .badAlloc ∨
      (exec instr a).observable = (exec instr b).observable := by
  obtain ⟨op, imm, str⟩ := instr
  simp only at hop
  subst hop
  obtain ⟨memory, evalStack, callStack, loopStack, ip, heapPtr, output, maxCycles, cycles,
    hostA⟩ := a
  obtain ⟨memory2, evalStack2, callStack2, loopStack2, ip2, heapPtr2, output2, maxCycles2,
    cycles2, hostB⟩ := b
  simp only [observable, VirtualMachine.mk.injEq, and_true] at h
  obtain ⟨rfl, rfl, rfl, rfl, rfl, rfl, rfl, rfl, rfl⟩ := h
  rcases evalStack with _ | ⟨top, rest⟩
  · exact Or.inr (Or.inr rfl)
  · cases htop : top.toSizeT? with
    | none =>
      refine Or.inr (Or.inr ?_)
      simp only [exec, htop]
    | some n =>
      have ha := exec_alloc_eq ⟨memory, [], callStack, loopStack, ip, heapPtr, output, maxCycles,
        cycles, hostA⟩ top imm rest str n htop
      have hb := exec_alloc_eq ⟨memory, [], callStack, loopStack, ip, heapPtr, output, maxCycles,
        cycles, hostB⟩ top imm rest str n htop
      simp only at ha hb
      rw [ha, hb]
      by_cases hlt : memory.length < (heapPtr + n) % sizeMod
      · rw [if_pos hlt, if_pos hlt]
        rcases resize_observable
          ⟨memory, Double.ofNat heapPtr :: rest, callStack, loopStack, ip,
            (heapPtr + n) % sizeMod, output, maxCycles, cycles, hostA⟩
          ⟨memory, Double.ofNat heapPtr :: rest, callStack, loopStack, ip,
            (heapPtr + n) % sizeMod, output, maxCycles, cycles, hostB⟩
          (((heapPtr + n) % sizeMod + 4096) % sizeMod) rfl with hr | hr | hr
        · left; rw [hr]; rfl
        · right; left; rw [hr]; rfl
        · right; right; exact ofExcept_observable _ _ hr
      · rw [if_neg hlt, if_neg hlt]
        exact Or.inr (Or.inr rfl)

theorem observable_update (a b : VirtualMachine) (h : a.observable = b.observable) :
    ({ a with ip := a.ip + 1, cycles := a.cycles + 1 } : VirtualMachine).observable
      = ({ b with ip := b.ip + 1, cycles := b.cycles + 1 } : VirtualMachine).observable := by
  obtain ⟨memory, evalStack, callStack, loopStack, ip, heapPtr, output, maxCycles, cycles,
    hostA⟩ := a
  obtain ⟨memory2, evalStack2, callStack2, loopStack2, ip2, heapPtr2, output2, maxCycles2,
    cycles2, hostB⟩ := b
  simp only [observable, VirtualMachine.mk.injEq, and_true] at h
  obtain ⟨rfl, rfl, rfl, rfl, rfl, rfl, rfl, rfl, rfl⟩ := h
  rfl

theorem observable_observable (vm : VirtualMachine) : vm.observable.observable = vm.observable :=
  rfl

/-- On two hosts an instruction gives the same data members, unless one of
the hosts refuses a buffer. -/
theorem step_observable (instr : Instruction) (a b : VirtualMachine)
    (h : a.observable = b.observable) :
    step instr a = .fault .badAlloc ∨ step instr b = .fault .badAlloc ∨
      (step instr a).observable = (step instr b).observable := by
  have h2 := observable_update a b h
  by_cases hop : instr.op = .ALLOC
  · exact exec_alloc_observable instr _ _ hop h2
  · refine Or.inr (Or.inr ?_)
    unfold step
    rw [exec_observable instr _ hop, h2, ← exec_observable instr _ hop]


/-- On two hosts the main loop gives the same data members, unless one of
the hosts refuses a buffer. -/
theorem loop_observable (prog : Program) :
    ∀ (fuel : Nat) (a b : VirtualMachine), a.observable = b.observable →
      loop prog fuel a = .error .badAlloc ∨ loop prog fuel b = .error .badAlloc ∨
        (loop prog fuel a).map observable = (loop prog fuel b).map observable := by
  intro fuel
  induction fuel with
  | zero =>
    intro a b h
    refine Or.inr (Or.inr ?_)
    show Except.ok a.observable = Except.ok b.observable
    rw [h]
  | succ fuel ih =>
    intro a b h
    have hs : ∀ instr, step instr a = .fault .badAlloc ∨ step instr b = .fault .badAlloc ∨
        (step instr a).observable = (step instr b).observable :=
      fun instr => step_observable instr a b h
    have hcyc : a.cycles = b.cycles :=
      (congrArg VirtualMachine.cycles h : a.observable.cycles = b.observable.cycles)
    have hmax : a.maxCycles = b.maxCycles :=
      (congrArg VirtualMachine.maxCycles h : a.observable.maxCycles = b.observable.maxCycles)
    have hip : a.ip = b.ip :=
      (congrArg VirtualMachine.ip h : a.observable.ip = b.observable.ip)
    rw [loop_succ, loop_succ]
    by_cases hc : a.cycles < a.maxCycles
    · have hc2 : b.cycles < b.maxCycles := by omega
      rw [if_pos hc, if_pos hc2]
      by_cases hlt : a.ip < prog.instructions.length
      · have hlt2 : b.ip < prog.instructions.length := by omega
        rw [dif_pos hlt, dif_pos hlt2]
        have hi : prog.instructions[b.ip] = prog.instructions[a.ip] := by
          congr 1
          exact hip.symm
        rw [hi]
        rcases hs prog.instructions[a.ip] with h1 | h1 | h1
        · left; rw [h1]
        · right; left; rw [h1]
        · cases hsa : step prog.instructions[a.ip] a with
          | running a1 =>
            cases hsb : step prog.instructions[a.ip] b with
            | running b1 =>
              rw [hsa, hsb] at h1
              simp only [Outcome.observable, Outcome.running.injEq] at h1
              exact ih a1 b1 h1
            | halted b1 => rw [hsa, hsb] at h1; simp [Outcome.observable] at h1
            | fault g => rw [hsa, hsb] at h1; simp [Outcome.observable] at h1
          | halted a1 =>
            cases hsb : step prog.instructions[a.ip] b with
            | running b1 => rw [hsa, hsb] at h1; simp [Outcome.observable] at h1
            | halted b1 =>
              rw [hsa, hsb] at h1
              simp only [Outcome.observable, Outcome.halted.injEq] at h1
              refine Or.inr (Or.inr ?_)
              show Except.ok a1.observable = Except.ok b1.observable
              rw [h1]
            | fault g => rw [hsa, hsb] at h1; simp [Outcome.observable] at h1
          | fault f =>
            cases hsb : step prog.instructions[a.ip] b with
            | running b1 => rw [hsa, hsb] at h1; simp [Outcome.observable] at h1
            | halted b1 => rw [hsa, hsb] at h1; simp [Outcome.observable] at h1
            | fault g =>
              rw [hsa, hsb] at h1
              simp only [Outcome.observable, Outcome.fault.injEq] at h1
              subst h1
              exact Or.inr (Or.inr rfl)
      · have hlt2 : ¬ b.ip < prog.instructions.length := by omega
        rw [dif_neg hlt, dif_neg hlt2]
        refine Or.inr (Or.inr ?_)
        show Except.ok a.observable = Except.ok b.observable
        rw [h]
    · have hc2 : ¬ b.cycles < b.maxCycles := by omega
      rw [if_neg hc, if_neg hc2]
      refine Or.inr (Or.inr ?_)
      show Except.ok a.observable = Except.ok b.observable
      rw [h]

theorem place_observable (prog : Program) (a b : VirtualMachine)
    (h : a.observable = b.observable) :
    (place prog a).map observable = (place prog b).map observable := by
  obtain ⟨memory, evalStack, callStack, loopStack, ip, heapPtr, output, maxCycles, cycles,
    hostA⟩ := a
  obtain ⟨memory2, evalStack2, callStack2, loopStack2, ip2, heapPtr2, output2, maxCycles2,
    cycles2, hostB⟩ := b
  simp only [observable, VirtualMachine.mk.injEq, and_true] at h
  obtain ⟨rfl, rfl, rfl, rfl, rfl, rfl, rfl, rfl, rfl⟩ := h
  unfold place
  by_cases hle : prog.dataSegment.length ≤ memory.length
  · rw [if_pos hle, if_pos hle]
    rfl
  · rw [if_neg hle, if_neg hle]

/-- On two hosts the prologue of `run` gives the same data members, unless
one of the hosts refuses the buffer. -/
theorem load_observable (prog : Program) (a b : VirtualMachine)
    (h : a.observable = b.observable) :
    load prog a = .error .badAlloc ∨ load prog b = .error .badAlloc ∨
      (load prog a).map observable = (load prog b).map observable := by
  have hmem : a.memory = b.memory :=
      (congrArg VirtualMachine.memory h : a.observable.memory = b.observable.memory)
  unfold load
  by_cases hlt : a.memory.length < prog.dataSegment.length
  · have hlt2 : b.memory.length < prog.dataSegment.length := by rw [← hmem]; exact hlt
    rw [if_pos hlt, if_pos hlt2]
    rcases resize_observable a b ((prog.dataSegment.length + 4096) % sizeMod) h with hr | hr | hr
    · left; rw [hr]; rfl
    · right; left; rw [hr]; rfl
    · right; right
      cases hra : resize a ((prog.dataSegment.length + 4096) % sizeMod) with
      | error f =>
        cases hrb : resize b ((prog.dataSegment.length + 4096) % sizeMod) with
        | error g =>
          rw [hra, hrb] at hr
          simp only [Except.map, Except.error.injEq] at hr
          subst hr
          rfl
        | ok vb => rw [hra, hrb] at hr; simp [Except.map] at hr
      | ok va =>
        cases hrb : resize b ((prog.dataSegment.length + 4096) % sizeMod) with
        | error g => rw [hra, hrb] at hr; simp [Except.map] at hr
        | ok vb =>
          rw [hra, hrb] at hr
          simp only [Except.map, Except.ok.injEq] at hr
          exact place_observable prog va vb hr
  · have hlt2 : ¬ b.memory.length < prog.dataSegment.length := by rw [← hmem]; exact hlt
    rw [if_neg hlt, if_neg hlt2]
    exact Or.inr (Or.inr (place_observable prog a b h))

theorem finish_observable (a b : VirtualMachine) (h : a.observable = b.observable) :
    (finish a).observable = (finish b).observable := by
  obtain ⟨memory, evalStack, callStack, loopStack, ip, heapPtr, output, maxCycles, cycles,
    hostA⟩ := a
  obtain ⟨memory2, evalStack2, callStack2, loopStack2, ip2, heapPtr2, output2, maxCycles2,
    cycles2, hostB⟩ := b
  simp only [observable, VirtualMachine.mk.injEq, and_true] at h
  obtain ⟨rfl, rfl, rfl, rfl, rfl, rfl, rfl, rfl, rfl⟩ := h
  unfold finish
  split <;> rfl

/-- On two hosts `run` gives the same data members, unless one of the
hosts refuses a buffer. -/
theorem run_observable (prog : Program) (a b : VirtualMachine)
    (h : a.observable = b.observable) :
    run prog a = .error .badAlloc ∨ run prog b = .error .badAlloc ∨
      (run prog a).map observable = (run prog b).map observable := by
  unfold run
  rcases load_observable prog a b h with hl | hl | hl
  · left; rw [hl]
  · right; left; rw [hl]
  · cases hla : load prog a with
    | error f =>
      cases hlb : load prog b with
      | error g =>
        rw [hla, hlb] at hl
        simp only [Except.map, Except.error.injEq] at hl
        subst hl
        exact Or.inr (Or.inr rfl)
      | ok vb => rw [hla, hlb] at hl; simp [Except.map] at hl
    | ok va =>
      cases hlb : load prog b with
      | error g => rw [hla, hlb] at hl; simp [Except.map] at hl
      | ok vb =>
        rw [hla, hlb] at hl
        simp only [Except.map, Except.ok.injEq] at hl
        have hcyc : va.cycles = vb.cycles :=
      (congrArg VirtualMachine.cycles hl : va.observable.cycles = vb.observable.cycles)
        have hmax : va.maxCycles = vb.maxCycles :=
      (congrArg VirtualMachine.maxCycles hl : va.observable.maxCycles = vb.observable.maxCycles)
        simp only
        rw [← hcyc, ← hmax]
        rcases loop_observable prog (va.maxCycles - va.cycles) va vb hl with hp | hp | hp
        · left; rw [hp]
        · right; left; rw [hp]
        · right; right
          cases hpa : loop prog (va.maxCycles - va.cycles) va with
          | error f =>
            cases hpb : loop prog (va.maxCycles - va.cycles) vb with
            | error g =>
              rw [hpa, hpb] at hp
              simp only [Except.map, Except.error.injEq] at hp
              subst hp
              rfl
            | ok wb => rw [hpa, hpb] at hp; simp [Except.map] at hp
          | ok wa =>
            cases hpb : loop prog (va.maxCycles - va.cycles) vb with
            | error g => rw [hpa, hpb] at hp; simp [Except.map] at hp
            | ok wb =>
              rw [hpa, hpb] at hp
              simp only [Except.map, Except.ok.injEq] at hp
              show Except.ok (finish wa).observable = Except.ok (finish wb).observable
              rw [finish_observable wa wb hp]

/-- C1. Determinism. Two executions of `run` on the same program, each on
a freshly constructed machine, on hosts whose allocators may answer
differently: unless one of the two is aborted by `std::bad_alloc`, they end
in the same way, with the same fault or with the same data members. Two
executions that return have the same output text, operand stack, memory,
heap pointer and instruction pointer. -/
theorem run_deterministic (prog : Program) (host1 host2 : List Bool) :
    (run prog { new with host := host1 } = .error .badAlloc ∨
      run prog { new with host := host2 } = .error .badAlloc ∨
      (run prog { new with host := host1 }).map observable
        = (run prog { new with host := host2 }).map observable) ∧
    (∀ r1 r2, run prog { new with host := host1 } = .ok r1 →
      run prog { new with host := host2 } = .ok r2 →
      r1.output = r2.output ∧ r1.evalStack = r2.evalStack ∧ r1.memory = r2.memory ∧
        r1.heapPtr = r2.heapPtr ∧ r1.ip = r2.ip) := by
  have h := run_observable prog { new with host := host1 } { new with host := host2 } rfl
  refine ⟨h, ?_⟩
  intro r1 r2 e1 e2
  rw [e1, e2] at h
  rcases h with h | h | h
  · exact absurd h (by simp)
  · exact absurd h (by simp)
  · simp only [Except.map, Except.ok.injEq] at h
    exact ⟨(congrArg VirtualMachine.output h : r1.observable.output = r2.observable.output),
      (congrArg VirtualMachine.evalStack h : r1.observable.evalStack = r2.observable.evalStack),
      (congrArg VirtualMachine.memory h : r1.observable.memory = r2.observable.memory),
      (congrArg VirtualMachine.heapPtr h : r1.observable.heapPtr = r2.observable.heapPtr),
      (congrArg VirtualMachine.ip h : r1.observable.ip = r2.observable.ip)⟩

/-- C2. The main loop never needs more than `maxCycles - cycles`
iterations; a run that returns has executed at most `maxCycles`
instructions, and `maxCycles` is 10,000,000 on a fresh machine; the
program `JMP 0` on a fresh machine stops after exactly 10,000,000
instructions with the diagnostic line as its output. -/
theorem run_cycle_budget :
    (∀ (prog : Program) (vm : VirtualMachine) (fuel : Nat),
        vm.maxCycles - vm.cycles ≤ fuel →
          loop prog fuel vm = loop prog (vm.maxCycles - vm.cycles) vm) ∧
    (∀ (prog : Program) (vm vm1 : VirtualMachine),
        run prog vm = .ok vm1 → vm1.cycles ≤ vm.maxCycles) ∧
    new.maxCycles = 10000000 ∧
    run ⟨[⟨.JMP, Double.zero, []⟩], []⟩ new
      = .ok { new with heapPtr := 8, cycles := 10000000,
                       output := ascii "[ERROR] Infinite loop detected\n" } := by
  refine ⟨?_, run_cycles_le, rfl, run_jmp_zero⟩
  intro prog vm fuel hle
  have := loop_fuel_add prog (vm.maxCycles - vm.cycles) vm (fuel - (vm.maxCycles - vm.cycles))
    (Nat.le_refl _)
  rw [← this]
  congr 1
  omega

/-- Instance of C2: the run of `JMP 0` stays within the budget of a fresh machine. -/
theorem run_cycle_budget_witness :
    run ⟨[⟨.JMP, Double.zero, []⟩], []⟩ new
      = .ok { new with heapPtr := 8, cycles := 10000000,
                       output := ascii "[ERROR] Infinite loop detected\n" } ∧
    (10000000 : Nat) ≤ new.maxCycles :=
  ⟨run_cycle_budget.2.2.2,
   run_cycle_budget.2.1 _ new _ run_cycle_budget.2.2.2⟩

theorem stepSeq_push_add_print_any (vm : VirtualMachine) (a b : Double) :
    stepSeq [⟨.PUSH_IMM, a, []⟩, ⟨.PUSH_IMM, b, []⟩, ⟨.ADD, Double.zero, []⟩,
        ⟨.PRINT, Double.zero, []⟩] vm
      = .running { vm with
          ip := vm.ip + 4
          cycles := vm.cycles + 4
          output := vm.output ++ printValue (Double.add a b) } := by
  simp only [stepSeq, step, exec, binaryOp]

theorem run_push_add_print_any (a b : Double) :
    run ⟨[⟨.PUSH_IMM, a, []⟩, ⟨.PUSH_IMM, b, []⟩, ⟨.ADD, Double.zero, []⟩,
        ⟨.PRINT, Double.zero, []⟩], []⟩ new
      = .ok { new with heapPtr := 8, ip := 4, cycles := 4,
                       output := printValue (Double.add a b) } :=
  run_straight (load_new_nil _) (straight_of_all rfl)
    (by rw [new_maxCycles]; exact (by decide : 4 < 10000000))
    (stepSeq_push_add_print_any _ a b)

theorem add_two_three :
    (Double.add (Double.ofBits 4611686018427387904) (Double.ofBits 4613937818241073152)).toInt64?
      = some 5 := by decide!

theorem print_two_three :
    printValue (Double.add (Double.ofBits 4611686018427387904) (Double.ofBits 4613937818241073152))
      = ascii "5\n" := by decide!

theorem print_halves :
    printValue (Double.add (Double.ofBits 4612811918334230528) (Double.ofBits 4609434218613702656))
      = ascii "4\n" := by decide!

theorem add_big :
    (Double.add (Double.ofBits 4890909195324358656) (Double.ofBits 4890909195324358656)).toInt64?
      = none := by decide!

theorem add_big_value :
    Double.add (Double.ofBits 4890909195324358656) (Double.ofBits 4890909195324358656)
      = Double.ofNat 18446744073709551616 := by decide!

theorem print_big :
    printValue (Double.ofNat 18446744073709551616) = ascii "1.84467e+19\n" := by decide!

theorem print_inf : printValue Double.inf = ascii "inf\n" := by decide!

theorem print_nan : printValue Double.nan = ascii "nan\n" := by decide!

theorem ofBits_two : Double.ofBits 4611686018427387904 = Double.ofInt 2 := by decide!
theorem ofBits_three : Double.ofBits 4613937818241073152 = Double.ofInt 3 := by decide!
theorem ofBits_big : Double.ofBits 4890909195324358656 = Double.ofNat 9223372036854775808 := by decide!

theorem five_toInt64 : (Double.ofInt 5).toInt64? = some 5 := by decide!
theorem five_integral : Double.eq (Double.ofInt 5) (Double.ofInt 5) = true := by decide!

/-- C3 (the code at the failing input, and what holds). For all doubles `a`
and `b` the program `PUSH_IMM a; PUSH_IMM b; ADD; PRINT` on a fresh machine
outputs one line, the text of `PRINT` for `a + b`: the decimal integer `t`
when the sum equals its truncation `t` and `t` fits `int64_t`, and the
default stream rendering (six significant digits) in every other case.
With 2 and 3 the line is `5`, with 2.5 and 1.5 it is `4`. With
`a = b = 2^63` the sum is the integer `2^64`, and the line is
`1.84467e+19`, not the integer's digits; infinities and NaN print as `inf`
and `nan`. -/
theorem push_add_print :
    (∀ a b : Double,
      run ⟨[⟨.PUSH_IMM, a, []⟩, ⟨.PUSH_IMM, b, []⟩, ⟨.ADD, Double.zero, []⟩,
          ⟨.PRINT, Double.zero, []⟩], []⟩ new
        = .ok { new with heapPtr := 8, ip := 4, cycles := 4,
                         output := printValue (Double.add a b) }) ∧
    (∀ (v : Double) (t : Int), v.toInt64? = some t → Double.eq v (Double.ofInt t) = true →
      printValue v = fmtInt t ++ ascii "\n") ∧
    (∀ (v : Double) (t : Int), v.toInt64? = some t → Double.eq v (Double.ofInt t) = false →
      printValue v = fmtDouble v ++ ascii "\n") ∧
    (∀ v : Double, v.toInt64? = none → printValue v = fmtDouble v ++ ascii "\n") ∧
    printValue (Double.add (Double.ofBits 4611686018427387904) (Double.ofBits 4613937818241073152))
      = ascii "5\n" ∧
    printValue (Double.add (Double.ofBits 4612811918334230528) (Double.ofBits 4609434218613702656))
      = ascii "4\n" ∧
    Double.add (Double.ofBits 4890909195324358656) (Double.ofBits 4890909195324358656)
      = Double.ofNat 18446744073709551616 ∧
    (Double.ofNat 18446744073709551616).toInt64? = none ∧
    printValue (Double.ofNat 18446744073709551616) = ascii "1.84467e+19\n" ∧
    printValue Double.inf = ascii "inf\n" ∧
    printValue Double.nan = ascii "nan\n" := by
  refine ⟨run_push_add_print_any, ?_, ?_, ?_, print_two_three, print_halves, add_big_value,
    ?_, print_big, print_inf, print_nan⟩
  · intro v t h1 h2
    simp only [printValue, h1, h2, if_true]
  · intro v t h1 h2
    simp only [printValue, h1, h2, Bool.false_eq_true, if_false]
  · intro v h1
    simp only [printValue, h1]
  · rw [← add_big_value]
    exact add_big

/-- Instance of C3: the value 5 is printed as the integer `5`. -/
theorem push_add_print_witness :
    (Double.ofInt 5).toInt64? = some 5 ∧
    Double.eq (Double.ofInt 5) (Double.ofInt 5) = true ∧
    printValue (Double.ofInt 5) = fmtInt 5 ++ ascii "\n" :=
  ⟨five_toInt64, five_integral, push_add_print.2.1 _ 5 five_toInt64 five_integral⟩

theorem ne_zero_zero : Double.ne Double.zero Double.zero = false := by decide!
theorem ne_negZero_zero : Double.ne Double.negZero Double.zero = false := by decide!
theorem zero_toInt64 : Double.zero.toInt64? = some 0 := by decide!
theorem print_zero : printText Double.zero 0 = ascii "0\n" := by decide!
theorem printValue_zero : printValue Double.zero = ascii "0\n" := by decide!

/-- The doubles that compare equal to 0 are `+0.0` and `-0.0`. -/
theorem ne_zero_iff (b : Double) :
    Double.ne b Double.zero = false ↔ (b = Double.zero ∨ b = Double.negZero) := by
  constructor
  · intro h
    obtain ⟨bits, hb⟩ := b
    have hz : Double.zero.scaled = 0 := by decide!
    simp only [Double.ne, Double.eq, hz, Bool.not_eq_false', Bool.and_eq_true,
      decide_eq_true_eq] at h
    have hs := h.2
    have hmag : (Double.mk bits hb).mag = 0 := by
      unfold Double.scaled at hs
      split at hs <;> omega
    unfold Double.mag Double.expField Double.fracField at hmag
    simp only at hmag
    have hbits : bits = 0 ∨ bits = 9223372036854775808 := by
      split at hmag
      · omega
      · exfalso
        have hpos : 0 < 2 ^ (bits / 4503599627370496 % 2048 - 1) := by positivity
        have := Nat.mul_pos (show 0 < 4503599627370496 + bits % 4503599627370496 by omega) hpos
        omega
    rcases hbits with h0 | h0
    · left; subst h0; rfl
    · right; subst h0; rfl
  · rintro (h | h)
    · rw [h]; exact ne_zero_zero
    · rw [h]; exact ne_negZero_zero

theorem stepSeq_push_div_print (vm : VirtualMachine) (a b : Double)
    (hb : Double.ne b Double.zero = false) :
    stepSeq [⟨.PUSH_IMM, a, []⟩, ⟨.PUSH_IMM, b, []⟩, ⟨.DIV, Double.zero, []⟩,
        ⟨.PRINT, Double.zero, []⟩] vm
      = .running { vm with
          ip := vm.ip + 4
          cycles := vm.cycles + 4
          output := vm.output ++ ascii "0\n" } := by
  simp only [stepSeq, step, exec, hb, Bool.false_eq_true, if_false, printValue_zero]

theorem stepSeq_push_mod_print (vm : VirtualMachine) (a b : Double)
    (hb : Double.ne b Double.zero = false) :
    stepSeq [⟨.PUSH_IMM, a, []⟩, ⟨.PUSH_IMM, b, []⟩, ⟨.MOD, Double.zero, []⟩,
        ⟨.PRINT, Double.zero, []⟩] vm
      = .running { vm with
          ip := vm.ip + 4
          cycles := vm.cycles + 4
          output := vm.output ++ ascii "0\n" } := by
  simp only [stepSeq, step, exec, hb, Bool.false_eq_true, if_false, printValue_zero]

/-- C4. The divisors that are zero, those with `b != 0` false, are `+0.0`
and `-0.0`. `DIV` and `MOD` with such a divisor on top of the stack replace
the two operands by the sentinel 0 and do not fault; with any other divisor
they push `a / b` and `fmod(a, b)`; the programs
`PUSH_IMM a; PUSH_IMM 0; DIV; PRINT` and the same with `MOD` print the line
`0` for every `a` and either zero. -/
theorem div_mod_zero_sentinel :
    (∀ b : Double, Double.ne b Double.zero = false ↔ (b = Double.zero ∨ b = Double.negZero)) ∧
    (∀ (vm : VirtualMachine) (a b : Double) (rest : List Double) (i : Double) (s : List Byte),
      Double.ne b Double.zero = false →
        exec ⟨.DIV, i, s⟩ { vm with evalStack := b :: a :: rest }
          = .running { vm with evalStack := Double.zero :: rest }) ∧
    (∀ (vm : VirtualMachine) (a b : Double) (rest : List Double) (i : Double) (s : List Byte),
      Double.ne b Double.zero = false →
        exec ⟨.MOD, i, s⟩ { vm with evalStack := b :: a :: rest }
          = .running { vm with evalStack := Double.zero :: rest }) ∧
    (∀ (vm : VirtualMachine) (a b : Double) (rest : List Double) (i : Double) (s : List Byte),
      Double.ne b Double.zero = true →
        exec ⟨.DIV, i, s⟩ { vm with evalStack := b :: a :: rest }
          = .running { vm with evalStack := Double.div a b :: rest }) ∧
    (∀ (vm : VirtualMachine) (a b : Double) (rest : List Double) (i : Double) (s : List Byte),
      Double.ne b Double.zero = true →
        exec ⟨.MOD, i, s⟩ { vm with evalStack := b :: a :: rest }
          = .running { vm with evalStack := Double.fmod a b :: rest }) ∧
    (∀ a b : Double, Double.ne b Double.zero = false →
      run ⟨[⟨.PUSH_IMM, a, []⟩, ⟨.PUSH_IMM, b, []⟩, ⟨.DIV, Double.zero, []⟩,
          ⟨.PRINT, Double.zero, []⟩], []⟩ new
        = .ok { new with heapPtr := 8, ip := 4, cycles := 4, output := ascii "0\n" }) ∧
    (∀ a b : Double, Double.ne b Double.zero = false →
      run ⟨[⟨.PUSH_IMM, a, []⟩, ⟨.PUSH_IMM, b, []⟩, ⟨.MOD, Double.zero, []⟩,
          ⟨.PRINT, Double.zero, []⟩], []⟩ new
        = .ok { new with heapPtr := 8, ip := 4, cycles := 4, output := ascii "0\n" }) := by
  refine ⟨ne_zero_iff, ?_, ?_, ?_, ?_, ?_, ?_⟩
  · intro vm a b rest i s h
    simp only [exec, h, Bool.false_eq_true, if_false]
  · intro vm a b rest i s h
    simp only [exec, h, Bool.false_eq_true, if_false]
  · intro vm a b rest i s h
    simp only [exec, h, if_true]
  · intro vm a b rest i s h
    simp only [exec, h, if_true]
  · intro a b hb
    exact run_straight (load_new_nil _) (straight_of_all rfl)
      (by rw [new_maxCycles]; exact (by decide : 4 < 10000000))
      (stepSeq_push_div_print _ a b hb)
  · intro a b hb
    exact run_straight (load_new_nil _) (straight_of_all rfl)
      (by rw [new_maxCycles]; exact (by decide : 4 < 10000000))
      (stepSeq_push_mod_print _ a b hb)

theorem ne_one_zero : Double.ne Double.one Double.zero = true := by decide!

/-- Instance of C4: `1 / -0.0` gives the sentinel, `1 / 1` the quotient. -/
theorem div_mod_zero_sentinel_witness :
    Double.ne Double.negZero Double.zero = false ∧
    exec ⟨.DIV, Double.zero, []⟩ { new with evalStack := [Double.negZero, Double.one] }
      = .running { new with evalStack := [Double.zero] } ∧
    Double.ne Double.one Double.zero = true ∧
    exec ⟨.DIV, Double.zero, []⟩ { new with evalStack := [Double.one, Double.one] }
      = .running { new with evalStack := [Double.div Double.one Double.one] } :=
  ⟨ne_negZero_zero,
   div_mod_zero_sentinel.2.1 new Double.one Double.negZero [] Double.zero [] ne_negZero_zero,
   ne_one_zero,
   div_mod_zero_sentinel.2.2.2.1 new Double.one Double.one [] Double.zero [] ne_one_zero⟩

/-- C5 (the code at the failing input, and what holds instead). `DIV` and
`MOD` executed with exactly one value on the operand stack pass the guard
`!evalStack.empty()`, pop that value and then read the top of the empty
stack: undefined behaviour. Every other case of an opcode executed with
fewer values than it consumes leaves the whole machine state unchanged. -/
theorem underflow_behaviour :
    (∀ (vm : VirtualMachine) (a i : Double) (s : List Byte),
      exec ⟨.DIV, i, s⟩ { vm with evalStack := [a] } = .fault .emptyStack) ∧
    (∀ (vm : VirtualMachine) (a i : Double) (s : List Byte),
      exec ⟨.MOD, i, s⟩ { vm with evalStack := [a] } = .fault .emptyStack) ∧
    (∀ (instr : Instruction) (vm : VirtualMachine),
      vm.evalStack.length < operands instr.op →
      ¬ ((instr.op = .DIV ∨ instr.op = .MOD) ∧ vm.evalStack.length = 1) →
        exec instr vm = .running vm) := by
  refine ⟨fun _ _ _ _ => rfl, fun _ _ _ _ => rfl, ?_⟩
  intro instr vm hlen hex
  obtain ⟨op, imm, str⟩ := instr
  cases hst : vm.evalStack with
  | nil =>
    cases op <;> simp [operands] at hlen <;>
      simp [exec, binaryOp, compareOp, bitOp, shiftOp, loadOp, hst]
  | cons x rest =>
    cases rest with
    | nil =>
      rw [hst] at hlen hex
      cases op <;> simp [operands] at hlen hex <;>
        simp [exec, binaryOp, compareOp, bitOp, shiftOp, loadOp, hst]
    | cons y rest2 =>
      rw [hst] at hlen
      cases op <;> (simp only [operands, List.length_cons] at hlen; omega)

/-- Instance of C5: `ADD` with one value on the stack changes nothing. -/
theorem underflow_behaviour_witness :
    exec ⟨.ADD, Double.zero, []⟩ { new with evalStack := [Double.one] }
      = .running { new with evalStack := [Double.one] } :=
  underflow_behaviour.2.2 ⟨.ADD, Double.zero, []⟩ { new with evalStack := [Double.one] }
    (by decide) (by decide)

theorem sub_five_three : Double.sub (Double.ofInt 5) (Double.ofInt 3) = Double.ofInt 2 := by
  decide!

theorem lt_three_five :
    Double.lt (Double.ofInt 3) (Double.ofInt 5) = true ∧
      Double.lt (Double.ofInt 5) (Double.ofInt 3) = false := by
  decide!

theorem one_zero_values : Double.one = Double.ofInt 1 ∧ Double.zero = Double.ofInt 0 := by
  decide!

/-- C6. Each of `ADD`, `SUB`, `MUL`, `EQ`, `NEQ`, `LT`, `GT`, `LTE`, `GTE`
executed on a stack `b :: a :: s` (`b` on top) yields the stack `r :: s`
with `r = a op b`; a comparison pushes 1.0 when it holds and 0.0
otherwise; nothing else in the state changes. For instance `5 - 3` is 2
and `3 < 5` holds while `5 < 3` does not. -/
theorem binary_ops_result (vm : VirtualMachine) (a b i : Double) (s : List Double)
    (str : List Byte) :
    exec ⟨.ADD, i, str⟩ { vm with evalStack := b :: a :: s }
      = .running { vm with evalStack := Double.add a b :: s } ∧
    exec ⟨.SUB, i, str⟩ { vm with evalStack := b :: a :: s }
      = .running { vm with evalStack := Double.sub a b :: s } ∧
    exec ⟨.MUL, i, str⟩ { vm with evalStack := b :: a :: s }
      = .running { vm with evalStack := Double.mul a b :: s } ∧
    exec ⟨.EQ, i, str⟩ { vm with evalStack := b :: a :: s }
      = .running { vm with
          evalStack := (if Double.eq a b then Double.one else Double.zero) :: s } ∧
    exec ⟨.NEQ, i, str⟩ { vm with evalStack := b :: a :: s }
      = .running { vm with
          evalStack := (if Double.ne a b then Double.one else Double.zero) :: s } ∧
    exec ⟨.LT, i, str⟩ { vm with evalStack := b :: a :: s }
      = .running { vm with
          evalStack := (if Double.lt a b then Double.one else Double.zero) :: s } ∧
    exec ⟨.GT, i, str⟩ { vm with evalStack := b :: a :: s }
      = .running { vm with
          evalStack := (if Double.gt a b then Double.one else Double.zero) :: s } ∧
    exec ⟨.LTE, i, str⟩ { vm with evalStack := b :: a :: s }
      = .running { vm with
          evalStack := (if Double.le a b then Double.one else Double.zero) :: s } ∧
    exec ⟨.GTE, i, str⟩ { vm with evalStack := b :: a :: s }
      = .running { vm with
          evalStack := (if Double.ge a b then Double.one else Double.zero) :: s } ∧
    Double.one = Double.ofInt 1 ∧ Double.zero = Double.ofInt 0 ∧
    Double.sub (Double.ofInt 5) (Double.ofInt 3) = Double.ofInt 2 ∧
    Double.lt (Double.ofInt 3) (Double.ofInt 5) = true ∧
    Double.lt (Double.ofInt 5) (Double.ofInt 3) = false :=
  ⟨rfl, rfl, rfl, rfl, rfl, rfl, rfl, rfl, rfl, one_zero_values.1, one_zero_values.2, sub_five_three,
    lt_three_five.1, lt_three_five.2⟩

theorem stepSeq_single (instr : Instruction) (vm : VirtualMachine) :
    stepSeq [instr] vm = step instr vm := by
  unfold stepSeq
  cases step instr vm <;> rfl

/-- The instructions `PUSH_IMM n; ALLOC`. -/
theorem stepSeq_push_alloc (vm : VirtualMachine) (top : Double) (n : Nat)
    (hn : top.toSizeT? = some n) :
    stepSeq [⟨.PUSH_IMM, top, []⟩, ⟨.ALLOC, Double.zero, []⟩] vm
      = if vm.memory.length < (vm.heapPtr + n) % sizeMod then
          Outcome.ofExcept (resize { vm with
              ip := vm.ip + 2
              cycles := vm.cycles + 2
              evalStack := Double.ofNat vm.heapPtr :: vm.evalStack
              heapPtr := (vm.heapPtr + n) % sizeMod }
            (((vm.heapPtr + n) % sizeMod + 4096) % sizeMod))
        else .running { vm with
          ip := vm.ip + 2
          cycles := vm.cycles + 2
          evalStack := Double.ofNat vm.heapPtr :: vm.evalStack
          heapPtr := (vm.heapPtr + n) % sizeMod } := by
  have h1 : step ⟨.PUSH_IMM, top, []⟩ vm
      = .running { vm with ip := vm.ip + 1, cycles := vm.cycles + 1,
                           evalStack := top :: vm.evalStack } := rfl
  rw [stepSeq, h1]
  show stepSeq [⟨.ALLOC, Double.zero, []⟩] _ = _
  rw [stepSeq_single]
  exact exec_alloc_eq { vm with ip := vm.ip + 1 + 1, cycles := vm.cycles + 1 + 1 } top
    Double.zero vm.evalStack [] n hn

/-- `PUSH_IMM n; ALLOC` when the resize cuts memory. -/
theorem stepSeq_push_alloc_cut (vm : VirtualMachine) (top : Double) (n hp sz : Nat)
    (hn : top.toSizeT? = some n) (hhp : (vm.heapPtr + n) % sizeMod = hp)
    (hlt : vm.memory.length < hp) (hsz : (hp + 4096) % sizeMod = sz)
    (hle : sz ≤ vm.memory.length) :
    stepSeq [⟨.PUSH_IMM, top, []⟩, ⟨.ALLOC, Double.zero, []⟩] vm
      = .running { vm with
          ip := vm.ip + 2
          cycles := vm.cycles + 2
          evalStack := Double.ofNat vm.heapPtr :: vm.evalStack
          heapPtr := hp
          memory := vm.memory.take sz } := by
  rw [stepSeq_push_alloc vm top n hn, hhp, if_pos hlt, hsz, resize_cut { vm with
      ip := vm.ip + 2
      cycles := vm.cycles + 2
      evalStack := Double.ofNat vm.heapPtr :: vm.evalStack
      heapPtr := hp } sz hle]
  rfl

/-- `PUSH_IMM n; ALLOC` when memory grows and the host grants the buffer. -/
theorem stepSeq_push_alloc_grow (vm : VirtualMachine) (top : Double) (n hp sz : Nat)
    (hn : top.toSizeT? = some n) (hhp : (vm.heapPtr + n) % sizeMod = hp)
    (hlt : vm.memory.length < hp) (hsz : (hp + 4096) % sizeMod = sz)
    (hgt : vm.memory.length < sz) (hmax : sz ≤ maxSize) (hhost : vm.host.head? ≠ some false) :
    stepSeq [⟨.PUSH_IMM, top, []⟩, ⟨.ALLOC, Double.zero, []⟩] vm
      = .running { vm with
          ip := vm.ip + 2
          cycles := vm.cycles + 2
          evalStack := Double.ofNat vm.heapPtr :: vm.evalStack
          heapPtr := hp
          memory := vm.memory ++ List.replicate (sz - vm.memory.length) 0
          host := vm.host.tail } := by
  rw [stepSeq_push_alloc vm top n hn, hhp, if_pos hlt, hsz, resize_granted { vm with
      ip := vm.ip + 2
      cycles := vm.cycles + 2
      evalStack := Double.ofNat vm.heapPtr :: vm.evalStack
      heapPtr := hp } sz hgt hmax hhost]
  rfl

theorem big_toSizeT :
    (Double.ofBits 4895412794951729151).toSizeT? = some 18446744073709549568 := by decide!

theorem initialMemorySize_eq : initialMemorySize = 1048576 := rfl

theorem new_memory_lt : new.memory.length < 18446744073709549576 := by
  rw [new_memory_length, initialMemorySize_eq]
  decide

theorem new_memory_ge : 2056 ≤ new.memory.length := by
  rw [new_memory_length, initialMemorySize_eq]
  decide

theorem sixteen_toSizeT : (Double.ofInt 16).toSizeT? = some 16 := by decide!

/-- `ALLOC` when neither addition wraps around. -/
theorem exec_alloc (vm : VirtualMachine) (top i : Double) (rest : List Double) (str : List Byte)
    (n : Nat) (hn : top.toSizeT? = some n)
    (h1 : vm.heapPtr + n < sizeMod)
    (h2 : vm.memory.length < vm.heapPtr + n →
      vm.heapPtr + n + 4096 ≤ maxSize ∧ vm.host.head? ≠ some false) :
    ∃ vm1, exec ⟨.ALLOC, i, str⟩ { vm with evalStack := top :: rest } = .running vm1 ∧
      vm1.evalStack = Double.ofNat vm.heapPtr :: rest ∧
      vm1.heapPtr = vm.heapPtr + n ∧
      vm1.heapPtr ≤ vm1.memory.length ∧
      vm.memory <+: vm1.memory ∧
      vm1.ip = vm.ip ∧ vm1.cycles = vm.cycles ∧ vm1.maxCycles = vm.maxCycles ∧
      vm1.output = vm.output ∧ vm1.callStack = vm.callStack := by
  rw [exec_alloc_eq vm top i rest str n hn, Nat.mod_eq_of_lt h1]
  by_cases hlt : vm.memory.length < vm.heapPtr + n
  · obtain ⟨hm, hh⟩ := h2 hlt
    have hsz : (vm.heapPtr + n + 4096) % sizeMod = vm.heapPtr + n + 4096 :=
      Nat.mod_eq_of_lt (by unfold maxSize at hm; unfold sizeMod; omega)
    rw [if_pos hlt, hsz, resize_granted { vm with
      evalStack := Double.ofNat vm.heapPtr :: rest
      heapPtr := vm.heapPtr + n } _ (by show vm.memory.length < _; omega) hm hh]
    refine ⟨_, rfl, rfl, rfl, ?_, ⟨_, rfl⟩, rfl, rfl, rfl, rfl, rfl⟩
    show vm.heapPtr + n ≤ (vm.memory ++ List.replicate (vm.heapPtr + n + 4096 - vm.memory.length) 0).length
    rw [List.length_append, List.length_replicate]
    omega
  · rw [if_neg hlt]
    exact ⟨_, rfl, rfl, rfl, by show vm.heapPtr + n ≤ vm.memory.length; omega,
      ⟨[], List.append_nil _⟩, rfl, rfl, rfl, rfl, rfl⟩

/-- `ALLOC` that has to grow memory and fails. -/
theorem exec_alloc_throws (vm : VirtualMachine) (top i : Double) (rest : List Double)
    (str : List Byte) (n : Nat) (hn : top.toSizeT? = some n)
    (h1 : vm.heapPtr + n + 4096 < sizeMod) (hlt : vm.memory.length < vm.heapPtr + n) :
    (maxSize < vm.heapPtr + n + 4096 →
      exec ⟨.ALLOC, i, str⟩ { vm with evalStack := top :: rest } = .fault .lengthError) ∧
    (vm.heapPtr + n + 4096 ≤ maxSize → vm.host.head? = some false →
      exec ⟨.ALLOC, i, str⟩ { vm with evalStack := top :: rest } = .fault .badAlloc) := by
  have hhp : (vm.heapPtr + n) % sizeMod = vm.heapPtr + n := Nat.mod_eq_of_lt (by omega)
  have hsz : (vm.heapPtr + n + 4096) % sizeMod = vm.heapPtr + n + 4096 := Nat.mod_eq_of_lt h1
  rw [exec_alloc_eq vm top i rest str n hn, hhp, if_pos hlt, hsz]
  constructor
  · intro hm
    rw [resize_lengthError { vm with
      evalStack := Double.ofNat vm.heapPtr :: rest
      heapPtr := vm.heapPtr + n } _ (by show vm.memory.length < _; omega) hm]
    rfl
  · intro hm hh
    obtain ⟨answers, ha⟩ : ∃ answers, vm.host = false :: answers := by
      cases hv : vm.host with
      | nil => rw [hv] at hh; exact absurd hh (by simp)
      | cons b t =>
        rw [hv] at hh
        simp only [List.head?_cons, Option.some.injEq] at hh
        subst hh
        exact ⟨t, rfl⟩
    rw [resize_refused { vm with
      evalStack := Double.ofNat vm.heapPtr :: rest
      heapPtr := vm.heapPtr + n } _ answers (by show vm.memory.length < _; omega) hm ha]
    rfl

theorem two_mib_toSizeT : (Double.ofBits 4701758010974797824).toSizeT? = some 2097152 := by
  decide!

/-- C7 (the code at the failing input, and what holds). On a fresh machine
the program `PUSH_IMM 18446744073709549568; ALLOC` (the size is
`2^64 - 2048`, a non-negative double) sets the heap pointer to
`2^64 - 2040`, and the resize argument `heapPtr + 4096` wraps around to
2056: memory is cut from 1048576 to 2056 bytes and ends far below the heap
pointer. When `heapPtr + n` stays below `2^64` and, if memory has to grow,
`heapPtr + n + 4096` stays within `max_size()` and the host grants the
buffer, `ALLOC` replaces the size by the old heap pointer (converted to
double), sets the heap pointer to `heapPtr + n`, leaves memory at least as
large as the new heap pointer with the old memory as a prefix of the new
one, and changes nothing else. When memory has to grow and the buffer
exceeds `max_size()` or is refused by the host, `resize` throws. -/
theorem alloc_result :
    ((Double.ofBits 4895412794951729151).toSizeT? = some 18446744073709549568 ∧
      new.memory.length = 1048576 ∧
      ∃ vm1, run ⟨[⟨.PUSH_IMM, Double.ofBits 4895412794951729151, []⟩,
                   ⟨.ALLOC, Double.zero, []⟩], []⟩ new = .ok vm1 ∧
        vm1.heapPtr = 18446744073709549576 ∧ vm1.memory.length = 2056) ∧
    (∀ (vm : VirtualMachine) (top i : Double) (rest : List Double) (str : List Byte) (n : Nat),
      top.toSizeT? = some n →
      vm.heapPtr + n < 18446744073709551616 →
      (vm.memory.length < vm.heapPtr + n →
        vm.heapPtr + n + 4096 ≤ maxSize ∧ vm.host.head? ≠ some false) →
      ∃ vm1, exec ⟨.ALLOC, i, str⟩ { vm with evalStack := top :: rest } = .running vm1 ∧
        vm1.evalStack = Double.ofNat vm.heapPtr :: rest ∧
        vm1.heapPtr = vm.heapPtr + n ∧
        vm1.heapPtr ≤ vm1.memory.length ∧
        vm.memory <+: vm1.memory ∧
        vm1.ip = vm.ip ∧ vm1.cycles = vm.cycles ∧ vm1.maxCycles = vm.maxCycles ∧
        vm1.output = vm.output ∧ vm1.callStack = vm.callStack) ∧
    (∀ (vm : VirtualMachine) (top i : Double) (rest : List Double) (str : List Byte) (n : Nat),
      top.toSizeT? = some n →
      vm.heapPtr + n + 4096 < 18446744073709551616 →
      vm.memory.length < vm.heapPtr + n →
      (maxSize < vm.heapPtr + n + 4096 →
        exec ⟨.ALLOC, i, str⟩ { vm with evalStack := top :: rest } = .fault .lengthError) ∧
      (vm.heapPtr + n + 4096 ≤ maxSize → vm.host.head? = some false →
        exec ⟨.ALLOC, i, str⟩ { vm with evalStack := top :: rest } = .fault .badAlloc)) := by
  refine ⟨⟨big_toSizeT, new_memory_length.trans initialMemorySize_eq, _,
    run_straight (load_new_nil _) (straight_of_all rfl)
      (by rw [new_maxCycles]; exact (by decide : 2 < 10000000))
      (stepSeq_push_alloc_cut { new with heapPtr := 8 } _ 18446744073709549568
        18446744073709549576 2056 big_toSizeT rfl new_memory_lt rfl new_memory_ge),
    rfl, ?_⟩, exec_alloc, exec_alloc_throws⟩
  show (new.memory.take 2056).length = 2056
  rw [List.length_take, new_memory_length, initialMemorySize_eq]
  rfl

/-- Instance of C7: `ALLOC` of 2097152 bytes on a fresh machine, whose
memory of 1048576 bytes has to grow. -/
theorem alloc_result_witness :
    (Double.ofBits 4701758010974797824).toSizeT? = some 2097152 ∧
    new.memory.length < new.heapPtr + 2097152 ∧
    ∃ vm1, exec ⟨.ALLOC, Double.zero, []⟩
        { new with evalStack := [Double.ofBits 4701758010974797824] } = .running vm1 ∧
      vm1.evalStack = [Double.ofNat new.heapPtr] ∧
      vm1.heapPtr = new.heapPtr + 2097152 ∧
      vm1.heapPtr ≤ vm1.memory.length ∧
      new.memory <+: vm1.memory ∧
      vm1.ip = new.ip ∧ vm1.cycles = new.cycles ∧ vm1.maxCycles = new.maxCycles ∧
      vm1.output = new.output ∧ vm1.callStack = new.callStack :=
  ⟨two_mib_toSizeT,
   by rw [new_memory_length, initialMemorySize_eq]; decide,
   alloc_result.2.1 new (Double.ofBits 4701758010974797824) Double.zero [] [] 2097152
    two_mib_toSizeT (by decide) (fun _ => ⟨by decide, by decide⟩)⟩


/-- `PUSH_IMM 2097152; ALLOC` on a fresh machine whose host grants the
buffer: memory grows to 2101256 bytes, whatever else the host would answer. -/
theorem run_alloc_two_mib (host : List Bool) (hh : host.head? ≠ some false) :
    run ⟨[⟨.PUSH_IMM, Double.ofBits 4701758010974797824, []⟩, ⟨.ALLOC, Double.zero, []⟩], []⟩
        { new with host := host }
      = .ok { new with
          ip := 2
          cycles := 2
          evalStack := [Double.ofNat 8]
          heapPtr := 2097160
          memory := new.memory ++ List.replicate (2101256 - new.memory.length) 0
          host := host.tail } :=
  run_straight (load_of_le ⟨_, []⟩ { new with host := host } (Nat.zero_le _))
    (straight_of_all rfl)
    (by show 2 < new.maxCycles; rw [new_maxCycles]; decide)
    (stepSeq_push_alloc_grow { new with host := host, heapPtr := 8 } _ 2097152 2097160 2101256
      two_mib_toSizeT (by show (8 + 2097152) % sizeMod = 2097160; decide)
      (by show new.memory.length < _; rw [new_memory_length, initialMemorySize_eq]; decide)
      (by show (2097160 + 4096) % sizeMod = 2101256; decide)
      (by show new.memory.length < _; rw [new_memory_length, initialMemorySize_eq]; decide)
      (by decide) hh)

/-- Instance of C1: the program `PUSH_IMM 2097152; ALLOC`, which makes
memory grow, on a host that grants everything and on a host that grants
one buffer and would refuse the next: both executions return, and they
agree on everything but the host. -/
theorem run_deterministic_witness :
    ∃ r1 r2,
      run ⟨[⟨.PUSH_IMM, Double.ofBits 4701758010974797824, []⟩, ⟨.ALLOC, Double.zero, []⟩], []⟩
        { new with host := [] } = .ok r1 ∧
      run ⟨[⟨.PUSH_IMM, Double.ofBits 4701758010974797824, []⟩, ⟨.ALLOC, Double.zero, []⟩], []⟩
        { new with host := [true, false] } = .ok r2 ∧
      r1.host = [] ∧ r2.host = [false] ∧
      r1.output = r2.output ∧ r1.evalStack = r2.evalStack ∧ r1.memory = r2.memory ∧
        r1.heapPtr = r2.heapPtr ∧ r1.ip = r2.ip :=
  ⟨_, _, run_alloc_two_mib [] (by decide), run_alloc_two_mib [true, false] (by decide), rfl, rfl,
    (run_deterministic _ [] [true, false]).2 _ _ (run_alloc_two_mib [] (by decide))
      (run_alloc_two_mib [true, false] (by decide))⟩

/-- `PUSH_IMM n; ALLOC` when neither addition wraps around and the host
grants what is asked. -/
theorem stepSeq_push_alloc_ok (vm : VirtualMachine) (top : Double) (n : Nat)
    (hn : top.toSizeT? = some n)
    (h1 : vm.heapPtr + n + 4096 ≤ maxSize)
    (h2 : vm.host.head? ≠ some false) :
    ∃ vm1, stepSeq [⟨.PUSH_IMM, top, []⟩, ⟨.ALLOC, Double.zero, []⟩] vm = .running vm1 ∧
      vm1.evalStack = Double.ofNat vm.heapPtr :: vm.evalStack ∧
      vm1.heapPtr = vm.heapPtr + n ∧
      (vm1.host = vm.host ∨ vm1.host = vm.host.tail) := by
  have hhp : (vm.heapPtr + n) % sizeMod = vm.heapPtr + n :=
    Nat.mod_eq_of_lt (by unfold maxSize at h1; unfold sizeMod; omega)
  have hsz : (vm.heapPtr + n + 4096) % sizeMod = vm.heapPtr + n + 4096 :=
    Nat.mod_eq_of_lt (by unfold maxSize at h1; unfold sizeMod; omega)
  by_cases hlt : vm.memory.length < vm.heapPtr + n
  · rw [stepSeq_push_alloc_grow vm top n (vm.heapPtr + n) (vm.heapPtr + n + 4096) hn hhp hlt hsz
      (by omega) h1 h2]
    exact ⟨_, rfl, rfl, rfl, Or.inr rfl⟩
  · rw [stepSeq_push_alloc vm top n hn, hhp, if_neg hlt]
    exact ⟨_, rfl, rfl, rfl, Or.inl rfl⟩

theorem stepSeq_append (xs ys : List Instruction) :
    ∀ vm vm1 : VirtualMachine, stepSeq xs vm = .running vm1 →
      stepSeq (xs ++ ys) vm = stepSeq ys vm1 := by
  induction xs with
  | nil =>
    intro vm vm1 h
    simp only [stepSeq, Outcome.running.injEq] at h
    subst h
    rfl
  | cons i rest ih =>
    intro vm vm1 h
    rw [List.cons_append, stepSeq]
    rw [stepSeq] at h
    cases hs : step i vm with
    | running vm2 =>
      rw [hs] at h
      simp only at h ⊢
      exact ih vm2 vm1 h
    | halted vm2 => rw [hs] at h; exact absurd h (by simp)
    | fault f => rw [hs] at h; exact absurd h (by simp)

theorem granted_head (host : List Bool) (k : Nat) (hk : 0 < k)
    (hg : ∀ b ∈ host.take k, b = true) : host.head? ≠ some false := by
  cases host with
  | nil => simp
  | cons b t =>
    cases k with
    | zero => omega
    | succ k =>
      have := hg b (by simp)
      subst this
      simp

theorem granted_tail (host : List Bool) (k : Nat)
    (hg : ∀ b ∈ host.take (k + 1), b = true) : ∀ b ∈ host.tail.take k, b = true := by
  cases host with
  | nil => simp
  | cons c t =>
    intro b hb
    exact hg b (by simp only [List.take_succ_cons, List.mem_cons]; exact Or.inr hb)

theorem granted_le (host : List Bool) (k m : Nat) (hkm : k ≤ m)
    (hg : ∀ b ∈ host.take m, b = true) : ∀ b ∈ host.take k, b = true := by
  intro b hb
  exact hg b ((List.take_sublist_take_left host hkm).subset hb)

/-- The instructions `PUSH_IMM n1; ALLOC; PUSH_IMM n2; ALLOC` when no
addition wraps around and the host grants what is asked. -/
theorem stepSeq_alloc_twice (vm : VirtualMachine) (d1 d2 : Double) (n1 n2 : Nat)
    (h1 : d1.toSizeT? = some n1) (h2 : d2.toSizeT? = some n2)
    (hm : vm.heapPtr + n1 + n2 + 4096 ≤ maxSize)
    (hg : ∀ b ∈ vm.host.take 2, b = true) :
    ∃ vm1, stepSeq [⟨.PUSH_IMM, d1, []⟩, ⟨.ALLOC, Double.zero, []⟩,
        ⟨.PUSH_IMM, d2, []⟩, ⟨.ALLOC, Double.zero, []⟩] vm = .running vm1 ∧
      vm1.evalStack = Double.ofNat (vm.heapPtr + n1) :: Double.ofNat vm.heapPtr ::
        vm.evalStack := by
  obtain ⟨va, hsa, hea, hha, hoa⟩ := stepSeq_push_alloc_ok vm d1 n1 h1 (by omega)
    (granted_head _ 2 (by decide) hg)
  have hg1 : va.host.head? ≠ some false := by
    rcases hoa with ho | ho
    · rw [ho]; exact granted_head _ 2 (by decide) hg
    · rw [ho]; exact granted_head _ 1 (by decide) (granted_tail _ 1 hg)
  obtain ⟨vb, hsb, heb, _, _⟩ := stepSeq_push_alloc_ok va d2 n2 h2 (by rw [hha]; omega) hg1
  refine ⟨vb, ?_, ?_⟩
  · have := stepSeq_append [⟨.PUSH_IMM, d1, []⟩, ⟨.ALLOC, Double.zero, []⟩]
      [⟨.PUSH_IMM, d2, []⟩, ⟨.ALLOC, Double.zero, []⟩] vm va hsa
    exact this.trans hsb
  · rw [heb, hha, hea]

/-- The prologue of `run` when the data segment is within `max_size()` and
the host grants the buffer, if one is asked for. -/
theorem load_granted (prog : Program) (vm : VirtualMachine)
    (hsz : prog.dataSegment.length + 4096 ≤ maxSize)
    (hh : vm.host.head? ≠ some false) :
    ∃ vm0, load prog vm = .ok vm0 ∧ (vm0.host = vm.host ∨ vm0.host = vm.host.tail) ∧
      vm.memory.length ≤ vm0.memory.length := by
  have hmod : (prog.dataSegment.length + 4096) % sizeMod = prog.dataSegment.length + 4096 :=
    Nat.mod_eq_of_lt (by unfold maxSize at hsz; unfold sizeMod; omega)
  unfold load
  by_cases hlt : vm.memory.length < prog.dataSegment.length
  · rw [if_pos hlt, hmod, resize_granted vm _ (by omega) hsz hh]
    show ∃ vm0, place prog _ = .ok vm0 ∧ _
    unfold place
    rw [if_pos (by
      show prog.dataSegment.length ≤
        (vm.memory ++ List.replicate (prog.dataSegment.length + 4096 - vm.memory.length) 0).length
      rw [List.length_append, List.length_replicate]; omega)]
    refine ⟨_, rfl, Or.inr rfl, ?_⟩
    show vm.memory.length ≤ (prog.dataSegment ++ List.drop prog.dataSegment.length
      (vm.memory ++ List.replicate (prog.dataSegment.length + 4096 - vm.memory.length) 0)).length
    simp only [List.length_append, List.length_drop, List.length_replicate]
    omega
  · rw [if_neg hlt]
    unfold place
    rw [if_pos (by omega)]
    refine ⟨_, rfl, Or.inl rfl, ?_⟩
    show vm.memory.length ≤ (prog.dataSegment ++ List.drop prog.dataSegment.length vm.memory).length
    simp only [List.length_append, List.length_drop]
    omega

theorem load_new_ok (prog : Program) (h : prog.dataSegment.length + 4096 ≤ maxSize) :
    ∃ vm0, load prog new = .ok vm0 := by
  obtain ⟨vm0, h0, _⟩ := load_granted prog new h (by decide)
  exact ⟨vm0, h0⟩

theorem load_ok_fields {prog : Program} {vm vm0 : VirtualMachine}
    (hl : load prog vm = .ok vm0) :
    vm0.evalStack = vm.evalStack ∧ vm0.heapPtr = (prog.dataSegment.length + 8) % sizeMod ∧
      vm0.output = vm.output ∧ vm0.callStack = vm.callStack :=
  ⟨(load_ok_all hl).2.2.2.1, (load_ok_all hl).2.2.2.2.1, (load_ok_all hl).2.2.2.2.2.1,
    (load_ok_all hl).2.2.2.2.2.2.1⟩

theorem lt_eight_eight : Double.lt (Double.ofNat 8) (Double.ofNat 8) = false := by decide!

/-- C8 (as amended). For the program
`PUSH_IMM n1; ALLOC; PUSH_IMM n2; ALLOC` with any data segment, run on a
fresh machine, with `h = data size + 8` the initial heap pointer, when
`h + n1 < 2^53`, the sizes stay within `max_size()` and the host grants the
buffers the run asks for (at most three): the two addresses left on the
stack are the doubles `p1` for `h` and `p2` for `h + n1`, both exact, so
the second block begins where the first ends; they are strictly increasing
when `n1 ≥ 1`, and equal when `n1 = 0`. -/
theorem alloc_twice_addresses (data : List Byte) (host : List Bool) (d1 d2 : Double)
    (n1 n2 : Nat)
    (h1 : d1.toSizeT? = some n1) (h2 : d2.toSizeT? = some n2)
    (hb : data.length + 8 + n1 < 9007199254740992)
    (hm : data.length + 8 + n1 + n2 + 4096 ≤ maxSize)
    (hg : ∀ b ∈ host.take 3, b = true) :
    ∃ (vm1 : VirtualMachine) (p1 p2 : Double),
      run ⟨[⟨.PUSH_IMM, d1, []⟩, ⟨.ALLOC, Double.zero, []⟩,
            ⟨.PUSH_IMM, d2, []⟩, ⟨.ALLOC, Double.zero, []⟩], data⟩ { new with host := host }
          = .ok vm1 ∧
      vm1.evalStack = [p2, p1] ∧
      p1.toSizeT? = some (data.length + 8) ∧
      p2.toSizeT? = some (data.length + 8 + n1) ∧
      (0 < n1 → Double.lt p1 p2 = true) ∧
      (n1 = 0 → p1 = p2) := by
  obtain ⟨vm0, hload, hhost, _⟩ := load_granted ⟨[⟨.PUSH_IMM, d1, []⟩, ⟨.ALLOC, Double.zero, []⟩,
    ⟨.PUSH_IMM, d2, []⟩, ⟨.ALLOC, Double.zero, []⟩], data⟩ { new with host := host }
    (by show data.length + 4096 ≤ maxSize; omega)
    (granted_head host 3 (by decide) hg)
  have hf := load_ok_fields hload
  have hhp : vm0.heapPtr = data.length + 8 := by
    rw [hf.2.1]
    exact Nat.mod_eq_of_lt (by simp only [sizeMod]; omega)
  have hg0 : ∀ b ∈ vm0.host.take 2, b = true := by
    rcases hhost with ho | ho
    · rw [ho]; exact granted_le host 2 3 (by decide) hg
    · rw [ho]; exact granted_tail host 2 hg
  obtain ⟨vm1, hs, hst⟩ := stepSeq_alloc_twice vm0 d1 d2 n1 n2 h1 h2 (by rw [hhp]; exact hm) hg0
  have hrun := run_straight hload (straight_of_all rfl)
    (by show 4 < new.maxCycles; rw [new_maxCycles]; decide) hs
  have hst0 : vm0.evalStack = [] := hf.1
  rw [hhp, hst0] at hst
  refine ⟨vm1, Double.ofNat (data.length + 8), Double.ofNat (data.length + 8 + n1), hrun, hst,
    Double.toSizeT_ofNat _ (by omega), Double.toSizeT_ofNat _ hb, ?_, ?_⟩
  · intro hpos
    exact Double.lt_ofNat _ _ (by omega) hb
  · intro hz
    subst hz
    rfl

/-- Instance of C8 (as amended): two allocations of 2097152 bytes and of 16
bytes on a host that grants the first two buffers asked for. -/
theorem alloc_twice_addresses_witness :
    (Double.ofBits 4701758010974797824).toSizeT? = some 2097152 ∧
    (Double.ofInt 16).toSizeT? = some 16 ∧
    ∃ (vm1 : VirtualMachine) (p1 p2 : Double),
      run ⟨[⟨.PUSH_IMM, Double.ofBits 4701758010974797824, []⟩, ⟨.ALLOC, Double.zero, []⟩,
            ⟨.PUSH_IMM, Double.ofInt 16, []⟩, ⟨.ALLOC, Double.zero, []⟩], []⟩
          { new with host := [true, true] } = .ok vm1 ∧
      vm1.evalStack = [p2, p1] ∧
      p1.toSizeT? = some (([] : List Byte).length + 8) ∧
      p2.toSizeT? = some (([] : List Byte).length + 8 + 2097152) ∧
      (0 < 2097152 → Double.lt p1 p2 = true) ∧
      (2097152 = 0 → p1 = p2) :=
  ⟨two_mib_toSizeT, sixteen_toSizeT,
   alloc_twice_addresses [] [true, true] (Double.ofBits 4701758010974797824)
    (Double.ofInt 16) 2097152 16 two_mib_toSizeT sixteen_toSizeT (by decide) (by decide)
    (by decide)⟩

/-- C8 (counterexample). With `n1 = 0` the two allocations return the same
address 8: the addresses are not strictly increasing. -/
theorem alloc_twice_zero_size :
    Double.zero.toSizeT? = some 0 ∧
    ∃ vm1, run ⟨[⟨.PUSH_IMM, Double.zero, []⟩, ⟨.ALLOC, Double.zero, []⟩,
            ⟨.PUSH_IMM, Double.zero, []⟩, ⟨.ALLOC, Double.zero, []⟩], []⟩ new = .ok vm1 ∧
      vm1.evalStack = [Double.ofNat 8, Double.ofNat 8] ∧
      Double.lt (Double.ofNat 8) (Double.ofNat 8) = false := by
  obtain ⟨vm1, hs, hst⟩ := stepSeq_alloc_twice { new with heapPtr := 8 } Double.zero Double.zero
    0 0 zero_toSizeT zero_toSizeT (by decide) (by decide)
  exact ⟨zero_toSizeT, vm1,
    run_straight (load_new_nil _) (straight_of_all rfl)
      (by rw [new_maxCycles]; exact (by decide : 4 < 10000000)) hs,
    hst, lt_eight_eight⟩


theorem cut_length : (new.memory.take 2056).length = 2056 := by
  rw [List.length_take, new_memory_length, initialMemorySize_eq]
  rfl

theorem rounded_address :
    (Double.ofNat 18446744073709549576).toSizeT? = some 18446744073709549568 := by decide!

/-- Beyond `2^53` the address `ALLOC` pushes, `(double)heapPtr`, is not the
heap pointer. After the allocation of `2^64 - 2048` bytes on a fresh
machine the heap pointer is `2^64 - 2040`; a second allocation, of 16
bytes, returns the double `2^64 - 2048`, an address inside the first
block. -/
theorem alloc_address_rounded :
    ∃ vm1, run ⟨[⟨.PUSH_IMM, Double.ofBits 4895412794951729151, []⟩, ⟨.ALLOC, Double.zero, []⟩,
            ⟨.PUSH_IMM, Double.ofInt 16, []⟩, ⟨.ALLOC, Double.zero, []⟩], []⟩ new = .ok vm1 ∧
      vm1.evalStack = [Double.ofNat 18446744073709549576, Double.ofNat 8] ∧
      (Double.ofNat 18446744073709549576).toSizeT? = some 18446744073709549568 ∧
      (Double.ofNat 8).toSizeT? = some 8 := by
  have h1 := stepSeq_push_alloc_cut { new with heapPtr := 8 } _ 18446744073709549568
    18446744073709549576 2056 big_toSizeT rfl new_memory_lt rfl new_memory_ge
  have h2 := stepSeq_push_alloc_grow
    { new with
      heapPtr := 18446744073709549576, ip := 0 + 2, cycles := 0 + 2,
      evalStack := [Double.ofNat 8], memory := new.memory.take 2056 }
    (Double.ofInt 16) 16 18446744073709549592 2072 sixteen_toSizeT rfl
    (by show (new.memory.take 2056).length < _; rw [cut_length]; decide) rfl
    (by show (new.memory.take 2056).length < _; rw [cut_length]; decide)
    (by decide) (by decide)
  have h3 := (stepSeq_append [⟨.PUSH_IMM, Double.ofBits 4895412794951729151, []⟩,
      ⟨.ALLOC, Double.zero, []⟩]
    [⟨.PUSH_IMM, Double.ofInt 16, []⟩, ⟨.ALLOC, Double.zero, []⟩] _ _ h1).trans h2
  exact ⟨_, run_straight (load_new_nil _) (straight_of_all rfl)
      (by rw [new_maxCycles]; exact (by decide : 4 < 10000000)) h3,
    rfl, rounded_address, Double.toSizeT_ofNat 8 (by decide)⟩

theorem bitsOfBytes_bytesOfBits (n : Nat) (h : n < 18446744073709551616) :
    bitsOfBytes (bytesOfBits n) = n := by
  simp only [bytesOfBits, bitsOfBytes]
  omega

theorem ofBits_bits (v : Double) : Double.ofBits v.bits = v := by
  cases v with
  | mk bits isLt =>
    simp only [Double.ofBits, Nat.mod_eq_of_lt isLt]

theorem bytesOfBits_length (n : Nat) : (bytesOfBits n).length = 8 := rfl

theorem loadDouble_storeDouble (memory : List Byte) (addr : Nat) (v : Double)
    (hmod : (addr + 8) % sizeMod = addr + 8) (hin : addr + 8 ≤ memory.length) :
    ∃ m, storeDouble memory addr v = .ok m ∧ loadDouble m addr = .ok v ∧
      m.length = memory.length ∧
      ∀ i, i < addr ∨ addr + 8 ≤ i → m[i]? = memory[i]? := by
  have hlen : (memory.take addr ++ bytesOfBits v.bits ++ memory.drop (addr + 8)).length
      = memory.length := by
    simp only [List.length_append, List.length_take, List.length_drop, bytesOfBits_length]
    omega
  refine ⟨memory.take addr ++ bytesOfBits v.bits ++ memory.drop (addr + 8), ?_, ?_, hlen, ?_⟩
  · simp only [storeDouble, hmod, hin, if_true]
  · have htake : (memory.take addr).length = addr := by
      rw [List.length_take]; omega
    have h1 : ((memory.take addr ++ bytesOfBits v.bits ++ memory.drop (addr + 8)).drop addr).take 8
        = bytesOfBits v.bits := by
      rw [List.append_assoc, List.drop_append_of_le_length (by omega)]
      rw [List.drop_of_length_le (by omega), List.nil_append]
      rw [List.take_append_of_le_length (by rw [bytesOfBits_length])]
      exact List.take_of_length_le (by rw [bytesOfBits_length])
    simp only [loadDouble, hmod, hlen, hin, if_true, h1,
      bitsOfBytes_bytesOfBits v.bits v.isLt, ofBits_bits]
  · intro i hi
    have htake : (memory.take addr).length = addr := by
      rw [List.length_take]; omega
    rcases hi with hi | hi
    · rw [List.append_assoc, List.getElem?_append_left (by omega), List.getElem?_take_of_lt hi]
    · rw [List.getElem?_append_right (by
        rw [List.length_append, htake, bytesOfBits_length]; exact hi)]
      rw [List.length_append, htake, bytesOfBits_length, List.getElem?_drop]
      congr 1
      omega

theorem toSizeT_add8 (d : Double) (n : Nat) (h : d.toSizeT? = some n) :
    (n + 8) % sizeMod = n + 8 := by
  have := Double.toSizeT_bound d n h
  exact Nat.mod_eq_of_lt (by simp only [sizeMod]; omega)

theorem hundred_toSizeT : (Double.ofInt 100).toSizeT? = some 100 := by decide!

/-- C9. Store/load round trip. When the double `aD` converts to the byte
address `addr` and `addr + 8` is at most the memory size, executing
`PUSH_IMM aD; PUSH_IMM v; STORE; PUSH_IMM aD; LOAD` leaves `v` on top of
the otherwise unchanged operand stack; `DEREF` in place of `LOAD` gives the
same state (and `DEREF` equals `LOAD` on every state); the memory keeps
its size and every byte outside `[addr, addr + 8)` keeps its value. -/
theorem store_load_round_trip (vm : VirtualMachine) (aD v : Double) (addr : Nat)
    (ha : aD.toSizeT? = some addr) (hin : addr + 8 ≤ vm.memory.length) :
    ∃ vm1, stepSeq [⟨.PUSH_IMM, aD, []⟩, ⟨.PUSH_IMM, v, []⟩, ⟨.STORE, Double.zero, []⟩,
        ⟨.PUSH_IMM, aD, []⟩, ⟨.LOAD, Double.zero, []⟩] vm = .running vm1 ∧
      stepSeq [⟨.PUSH_IMM, aD, []⟩, ⟨.PUSH_IMM, v, []⟩, ⟨.STORE, Double.zero, []⟩,
        ⟨.PUSH_IMM, aD, []⟩, ⟨.DEREF, Double.zero, []⟩] vm = .running vm1 ∧
      (∀ (s : VirtualMachine) (i : Double) (str : List Byte),
        exec ⟨.DEREF, i, str⟩ s = exec ⟨.LOAD, i, str⟩ s) ∧
      vm1.evalStack = v :: vm.evalStack ∧
      vm1.memory.length = vm.memory.length ∧
      (∀ i, i < addr ∨ addr + 8 ≤ i → vm1.memory[i]? = vm.memory[i]?) ∧
      vm1.heapPtr = vm.heapPtr ∧ vm1.output = vm.output := by
  obtain ⟨m, hst, hld, hlen, hout⟩ :=
    loadDouble_storeDouble vm.memory addr v (toSizeT_add8 aD addr ha) hin
  refine ⟨{ vm with
      ip := vm.ip + 1 + 1 + 1 + 1 + 1
      cycles := vm.cycles + 1 + 1 + 1 + 1 + 1
      evalStack := v :: vm.evalStack
      memory := m }, ?_, ?_, fun _ _ _ => rfl, rfl, hlen, hout, rfl, rfl⟩
  · simp only [stepSeq, step, exec, loadOp, ha, hst, hld]
  · simp only [stepSeq, step, exec, loadOp, ha, hst, hld]

/-- Instance of C9: storing 1.0 at address 100 of a fresh machine. -/
theorem store_load_round_trip_witness :
    (Double.ofInt 100).toSizeT? = some 100 ∧
    ∃ vm1, stepSeq [⟨.PUSH_IMM, Double.ofInt 100, []⟩, ⟨.PUSH_IMM, Double.one, []⟩,
        ⟨.STORE, Double.zero, []⟩, ⟨.PUSH_IMM, Double.ofInt 100, []⟩,
        ⟨.LOAD, Double.zero, []⟩] new = .running vm1 ∧
      stepSeq [⟨.PUSH_IMM, Double.ofInt 100, []⟩, ⟨.PUSH_IMM, Double.one, []⟩,
        ⟨.STORE, Double.zero, []⟩, ⟨.PUSH_IMM, Double.ofInt 100, []⟩,
        ⟨.DEREF, Double.zero, []⟩] new = .running vm1 ∧
      (∀ (s : VirtualMachine) (i : Double) (str : List Byte),
        exec ⟨.DEREF, i, str⟩ s = exec ⟨.LOAD, i, str⟩ s) ∧
      vm1.evalStack = Double.one :: new.evalStack ∧
      vm1.memory.length = new.memory.length ∧
      (∀ i, i < 100 ∨ 100 + 8 ≤ i → vm1.memory[i]? = new.memory[i]?) ∧
      vm1.heapPtr = new.heapPtr ∧ vm1.output = new.output :=
  ⟨hundred_toSizeT,
   store_load_round_trip new (Double.ofInt 100) Double.one 100 hundred_toSizeT
    (by rw [new_memory_length, initialMemorySize_eq]; decide)⟩

theorem loadDouble_out_of_range (memory : List Byte) (addr : Nat)
    (hmod : (addr + 8) % sizeMod = addr + 8) (hout : memory.length < addr + 8) :
    loadDouble memory addr = .ok Double.zero := by
  have : ¬ addr + 8 ≤ memory.length := by omega
  simp only [loadDouble, hmod, this, if_false]

theorem storeDouble_out_of_range (memory : List Byte) (addr : Nat) (v : Double)
    (hmod : (addr + 8) % sizeMod = addr + 8) (hout : memory.length < addr + 8) :
    storeDouble memory addr v = .ok memory := by
  have : ¬ addr + 8 ≤ memory.length := by omega
  simp only [storeDouble, hmod, this, if_false]

theorem stepSeq_load_print_out_of_range (vm : VirtualMachine) (aD : Double) (addr : Nat)
    (ha : aD.toSizeT? = some addr) (hout : vm.memory.length < addr + 8) :
    stepSeq [⟨.PUSH_IMM, aD, []⟩, ⟨.LOAD, Double.zero, []⟩, ⟨.PRINT, Double.zero, []⟩] vm
      = .running { vm with
          ip := vm.ip + 3
          cycles := vm.cycles + 3
          output := vm.output ++ ascii "0\n" } := by
  simp only [stepSeq, step, exec, loadOp, ha,
    loadDouble_out_of_range vm.memory addr (toSizeT_add8 aD addr ha) hout, printValue_zero]

theorem mib_toSizeT : (Double.ofInt 1048576).toSizeT? = some 1048576 := by decide!

theorem new_memory_lt_mib : new.memory.length < 1048576 + 8 := by
  rw [new_memory_length, initialMemorySize_eq]
  decide

theorem minus_eight_toSizeT : (Double.ofInt (-8)).toSizeT? = none := by decide!

/-- The operands `(size_t)` converts: the finite doubles whose truncation
lies in `[0, 2^64)`. -/
theorem toSizeT_iff (d : Double) (addr : Nat) :
    d.toSizeT? = some addr ↔
      (d.isNaN = false ∧ d.isInf = false ∧ 0 ≤ d.trunc ∧ d.trunc < 18446744073709551616 ∧
        addr = d.trunc.toNat) := by
  unfold Double.toSizeT?
  constructor
  · intro h
    split at h
    · exact absurd h (by simp)
    · rename_i hn
      split at h
      · rename_i hr
        simp only [Option.some.injEq] at h
        simp only [Bool.or_eq_true, not_or, Bool.not_eq_true] at hn
        exact ⟨hn.1, hn.2, hr.1, hr.2, h.symm⟩
      · exact absurd h (by simp)
  · rintro ⟨h1, h2, h3, h4, h5⟩
    simp only [h1, h2, Bool.or_self, Bool.false_eq_true, if_false, h3, h4, and_self, if_true, h5]

/-- C10 (as amended). For an address operand that `(size_t)` converts (a
finite double whose truncation `addr` lies in `[0, 2^64)`): a `LOAD` or
`DEREF` whose range `[addr, addr + 8)` does not lie inside memory pushes 0
in place of the address, and such a `STORE` pops its two operands and
writes nothing; in each case the loop goes on with the next instruction
and memory and output are unchanged. An operand outside that range is
converted without a check, which is undefined behaviour. -/
theorem out_of_range_access_continues (vm : VirtualMachine) (aD v i : Double)
    (rest : List Double) (str : List Byte) :
    (∀ addr : Nat, aD.toSizeT? = some addr → vm.memory.length < addr + 8 →
      exec ⟨.LOAD, i, str⟩ { vm with evalStack := aD :: rest }
        = .running { vm with evalStack := Double.zero :: rest } ∧
      exec ⟨.DEREF, i, str⟩ { vm with evalStack := aD :: rest }
        = .running { vm with evalStack := Double.zero :: rest } ∧
      exec ⟨.STORE, i, str⟩ { vm with evalStack := v :: aD :: rest }
        = .running { vm with evalStack := rest }) ∧
    (∀ addr : Nat, aD.toSizeT? = some addr ↔
      (aD.isNaN = false ∧ aD.isInf = false ∧ 0 ≤ aD.trunc ∧
        aD.trunc < 18446744073709551616 ∧ addr = aD.trunc.toNat)) ∧
    (aD.toSizeT? = none →
      exec ⟨.LOAD, i, str⟩ { vm with evalStack := aD :: rest } = .fault .badConversion ∧
      exec ⟨.DEREF, i, str⟩ { vm with evalStack := aD :: rest } = .fault .badConversion ∧
      exec ⟨.STORE, i, str⟩ { vm with evalStack := v :: aD :: rest }
        = .fault .badConversion) := by
  refine ⟨?_, toSizeT_iff aD, ?_⟩
  · intro addr ha hout
    have hmod := toSizeT_add8 aD addr ha
    refine ⟨?_, ?_, ?_⟩
    · simp only [exec, loadOp, ha, loadDouble_out_of_range vm.memory addr hmod hout]
    · simp only [exec, loadOp, ha, loadDouble_out_of_range vm.memory addr hmod hout]
    · simp only [exec, ha, storeDouble_out_of_range vm.memory addr v hmod hout]
  · intro ha
    refine ⟨?_, ?_, ?_⟩
    · simp only [exec, loadOp, ha]
    · simp only [exec, loadOp, ha]
    · simp only [exec, ha]

/-- Instance of C10 (as amended): `LOAD` at address 1048576 of a fresh
machine, and `LOAD` with the operand -8. -/
theorem out_of_range_access_continues_witness :
    (Double.ofInt 1048576).toSizeT? = some 1048576 ∧
    new.memory.length < 1048576 + 8 ∧
    exec ⟨.LOAD, Double.zero, []⟩ { new with evalStack := [Double.ofInt 1048576] }
      = .running { new with evalStack := [Double.zero] } ∧
    (Double.ofInt (-8)).toSizeT? = none ∧
    exec ⟨.LOAD, Double.zero, []⟩ { new with evalStack := [Double.ofInt (-8)] }
      = .fault .badConversion :=
  ⟨mib_toSizeT, new_memory_lt_mib,
   ((out_of_range_access_continues new (Double.ofInt 1048576) Double.zero Double.zero [] []).1
      1048576 mib_toSizeT new_memory_lt_mib).1,
   minus_eight_toSizeT,
   ((out_of_range_access_continues new (Double.ofInt (-8)) Double.zero Double.zero [] []).2.2
      minus_eight_toSizeT).1⟩

/-- C10 (counterexample). On a fresh machine (1048576 bytes of memory) the
program `PUSH_IMM 1048576; LOAD; PRINT` reads outside memory; the run
neither halts at the `LOAD` nor emits a diagnostic: all three instructions
execute and the output is the line `0`. -/
theorem load_out_of_range_prints_zero :
    new.memory.length = 1048576 ∧
    (Double.ofInt 1048576).toSizeT? = some 1048576 ∧
    run ⟨[⟨.PUSH_IMM, Double.ofInt 1048576, []⟩, ⟨.LOAD, Double.zero, []⟩,
          ⟨.PRINT, Double.zero, []⟩], []⟩ new
      = .ok { new with heapPtr := 8, ip := 3, cycles := 3, output := ascii "0\n" } :=
  ⟨new_memory_length.trans initialMemorySize_eq, mib_toSizeT,
   run_straight (load_new_nil _) (straight_of_all rfl)
    (by rw [new_maxCycles]; exact (by decide : 3 < 10000000))
    (stepSeq_load_print_out_of_range { new with heapPtr := 8 } _ 1048576 mib_toSizeT
      new_memory_lt_mib)⟩

theorem five_toSizeT : (Double.ofInt 5).toSizeT? = some 5 := by decide!

/-- C11. With `k` the `size_t` value of the immediate: `JMP` sets the
instruction pointer to `k`; `JMP_IF` and `JMP_IF_NOT` on a stack `c :: rest`
pop `c` and set the instruction pointer to `k` when `c != 0` (respectively
`c == 0`), and otherwise leave it at the next instruction, one past the
jump. Nothing else changes but the cycle counter. -/
theorem jump_targets (vm : VirtualMachine) (imm c : Double) (rest : List Double)
    (str : List Byte) (k : Nat) (hk : imm.toSizeT? = some k) :
    step ⟨.JMP, imm, str⟩ vm
      = .running { vm with ip := k, cycles := vm.cycles + 1 } ∧
    step ⟨.JMP_IF, imm, str⟩ { vm with evalStack := c :: rest }
      = .running { vm with
          evalStack := rest
          ip := if Double.ne c Double.zero then k else vm.ip + 1
          cycles := vm.cycles + 1 } ∧
    step ⟨.JMP_IF_NOT, imm, str⟩ { vm with evalStack := c :: rest }
      = .running { vm with
          evalStack := rest
          ip := if Double.eq c Double.zero then k else vm.ip + 1
          cycles := vm.cycles + 1 } := by
  refine ⟨?_, ?_, ?_⟩
  · simp only [step, exec, jumpTo, hk]
  · simp only [step, exec, jumpTo, hk]
    split <;> rfl
  · simp only [step, exec, jumpTo, hk]
    split <;> rfl

/-- Instance of C11: `JMP 5` on a fresh machine. -/
theorem jump_targets_witness :
    (Double.ofInt 5).toSizeT? = some 5 ∧
    step ⟨.JMP, Double.ofInt 5, []⟩ new
      = .running { new with ip := 5, cycles := new.cycles + 1 } :=
  ⟨five_toSizeT, (jump_targets new (Double.ofInt 5) Double.zero [] [] 5 five_toSizeT).1⟩

theorem load_ok_ip {prog : Program} {vm vm0 : VirtualMachine}
    (hl : load prog vm = .ok vm0) : vm0.ip = 0 :=
  (load_ok_all hl).2.2.1

/-- One iteration of the loop on the instruction found at `ip`. -/
theorem loop_succ_of_fetch (prog : Program) (fuel : Nat) (vm : VirtualMachine)
    (instr : Instruction) (hc : vm.cycles < vm.maxCycles)
    (hf : prog.instructions[vm.ip]? = some instr) :
    loop prog (fuel + 1) vm =
      match step instr vm with
      | .running vm1 => loop prog fuel vm1
      | .halted vm1 => .ok vm1
      | .fault f => .error f := by
  obtain ⟨hlt, hget⟩ := List.getElem?_eq_some_iff.1 hf
  rw [loop_succ]
  simp only [hc, if_true, hlt, dif_pos, hget]

theorem two_toInt64 : (Double.ofInt 2).toInt64? = some 2 := by decide!

theorem fetches_succ (prog : Program) (fuel : Nat) (vm : VirtualMachine) :
    fetches prog (fuel + 1) vm =
      if vm.cycles < vm.maxCycles then
        if h : vm.ip < prog.instructions.length then
          vm.ip ::
            (match step prog.instructions[vm.ip] vm with
             | .running vm1 => fetches prog fuel vm1
             | .halted _ => []
             | .fault _ => [])
        else []
      else [] := rfl

theorem fetches_lt (prog : Program) :
    ∀ (fuel : Nat) (vm : VirtualMachine), ∀ i ∈ fetches prog fuel vm,
      i < prog.instructions.length := by
  intro fuel
  induction fuel with
  | zero => intro vm i hi; simp [fetches] at hi
  | succ n ih =>
    intro vm i hi
    rw [fetches_succ] at hi
    by_cases hc : vm.cycles < vm.maxCycles
    · by_cases hip : vm.ip < prog.instructions.length
      · simp only [hc, if_true, hip, dif_pos, List.mem_cons] at hi
        rcases hi with rfl | hi
        · exact hip
        · cases hs : step prog.instructions[vm.ip] vm with
          | running vm1 => rw [hs] at hi; exact ih vm1 i hi
          | halted vm1 => rw [hs] at hi; simp at hi
          | fault f => rw [hs] at hi; simp at hi
      · simp [hc, hip] at hi
    · simp [hc] at hi

/-- The loop executes one instruction per recorded fetch. -/
theorem loop_cycles_fetches (prog : Program) :
    ∀ (fuel : Nat) (vm vm1 : VirtualMachine), loop prog fuel vm = .ok vm1 →
      vm1.cycles = vm.cycles + (fetches prog fuel vm).length := by
  intro fuel
  induction fuel with
  | zero =>
    intro vm vm1 h
    simp only [loop, Except.ok.injEq] at h
    subst h
    rfl
  | succ n ih =>
    intro vm vm1 h
    rw [loop_succ] at h
    rw [fetches_succ]
    by_cases hc : vm.cycles < vm.maxCycles
    · by_cases hip : vm.ip < prog.instructions.length
      · simp only [hc, if_true, hip, dif_pos] at h ⊢
        cases hs : step prog.instructions[vm.ip] vm with
        | running vm2 =>
          rw [hs] at h
          have := ih vm2 vm1 h
          have hcy := step_running_cycles hs
          simp only [List.length_cons]
          omega
        | halted vm2 =>
          rw [hs] at h
          simp only [Except.ok.injEq] at h
          subst h
          have hcy := step_halted_cycles hs
          simp only [List.length_cons, List.length_nil]
          omega
        | fault f => rw [hs] at h; exact absurd h (by simp)
      · simp only [hc, if_true, hip, dif_neg, not_false_eq_true, Except.ok.injEq] at h ⊢
        subst h
        rfl
    · simp only [hc, if_false, Except.ok.injEq] at h ⊢
      subst h
      rfl

theorem fetches_of_ip_ge (prog : Program) (fuel : Nat) (vm : VirtualMachine)
    (h : prog.instructions.length ≤ vm.ip) : fetches prog fuel vm = [] := by
  cases fuel with
  | zero => rfl
  | succ n =>
    rw [fetches_succ]
    have : ¬ vm.ip < prog.instructions.length := by omega
    simp only [this, dif_neg, not_false_eq_true, ite_self]

/-- C13. Every read of `prog.instructions` by the main loop is at an index
below the number of instructions, whatever the program and the state; a
state whose instruction pointer is out of range ends the loop at once,
without any read and without change; and the loop executes exactly one
instruction per read. -/
theorem fetch_in_bounds (prog : Program) (fuel : Nat) (vm : VirtualMachine) :
    (∀ i ∈ fetches prog fuel vm, i < prog.instructions.length) ∧
    (prog.instructions.length ≤ vm.ip →
      fetches prog fuel vm = [] ∧ loop prog fuel vm = .ok vm) ∧
    (∀ vm1, loop prog fuel vm = .ok vm1 →
      vm1.cycles = vm.cycles + (fetches prog fuel vm).length) :=
  ⟨fetches_lt prog fuel vm,
   fun h => ⟨fetches_of_ip_ge prog fuel vm h, loop_of_ip_ge prog fuel vm h⟩,
   fun vm1 h => loop_cycles_fetches prog fuel vm vm1 h⟩

/-- Instance of C13: after the jump of `JMP 5` nothing more is read. -/
theorem fetch_in_bounds_witness :
    fetches ⟨[⟨.JMP, Double.ofInt 5, []⟩], []⟩ 3 { new with ip := 5 } = [] ∧
    loop ⟨[⟨.JMP, Double.ofInt 5, []⟩], []⟩ 3 { new with ip := 5 }
      = .ok { new with ip := 5 } :=
  (fetch_in_bounds ⟨[⟨.JMP, Double.ofInt 5, []⟩], []⟩ 3 { new with ip := 5 }).2.1 (by decide)

theorem stepSeq_call_push_print (vm : VirtualMachine) (imm v : Double) (t : Int)
    (h : v.toInt64? = some t) :
    stepSeq [⟨.CALL, imm, []⟩, ⟨.PUSH_IMM, v, []⟩, ⟨.PRINT, Double.zero, []⟩] vm
      = .running { vm with
          ip := vm.ip + 3
          cycles := vm.cycles + 3
          callStack := (vm.ip + 1) :: vm.callStack
          output := vm.output ++ printText v t } := by
  simp only [stepSeq, step, exec, printValue, h, printText]

theorem run_call_push_print (imm v : Double) (t : Int) (h : v.toInt64? = some t) :
    run ⟨[⟨.CALL, imm, []⟩, ⟨.PUSH_IMM, v, []⟩, ⟨.PRINT, Double.zero, []⟩], []⟩ new
      = .ok { new with
          heapPtr := 8, ip := 3, cycles := 3, callStack := [1], output := printText v t } :=
  run_straight (load_new_nil _) (straight_of_all rfl)
    (by rw [new_maxCycles]; exact (by decide : 3 < 10000000))
    (stepSeq_call_push_print { new with heapPtr := 8 } imm v t h)

theorem seven_toInt64 : (Double.ofInt 7).toInt64? = some 7 := by decide!

theorem print_seven : printText (Double.ofInt 7) 7 = ascii "7\n" := by decide!

theorem three_toSizeT : (Double.ofInt 3).toSizeT? = some 3 := by decide!

/-- C14 (the code at the failing input, and what holds). `CALL` pushes the
already incremented instruction pointer, the index of the instruction
after the `CALL`, on the call stack, and does not transfer control: for
every immediate and name the next instruction executed is the one after
the `CALL`. `RET` pops the call stack and resumes at the popped index, and
halts on an empty call stack. In the program `CALL 3; PUSH_IMM 7; PRINT`
the callee entry 3 is past the end, yet the two instructions after the
`CALL` run and print the line `7`. -/
theorem call_does_not_transfer :
    (∀ (vm : VirtualMachine) (imm : Double) (str : List Byte),
      step ⟨.CALL, imm, str⟩ vm
        = .running { vm with
            ip := vm.ip + 1
            cycles := vm.cycles + 1
            callStack := (vm.ip + 1) :: vm.callStack }) ∧
    (∀ (vm : VirtualMachine) (imm : Double) (str : List Byte) (ret : Nat) (rest : List Nat),
      step ⟨.RET, imm, str⟩ { vm with callStack := ret :: rest }
        = .running { vm with ip := ret, cycles := vm.cycles + 1, callStack := rest }) ∧
    (∀ (vm : VirtualMachine) (imm : Double) (str : List Byte),
      step ⟨.RET, imm, str⟩ { vm with callStack := [] }
        = .halted { vm with ip := vm.ip + 1, cycles := vm.cycles + 1, callStack := [] }) ∧
    (Double.ofInt 3).toSizeT? = some 3 ∧
    run ⟨[⟨.CALL, Double.ofInt 3, []⟩, ⟨.PUSH_IMM, Double.ofInt 7, []⟩,
          ⟨.PRINT, Double.zero, []⟩], []⟩ new
      = .ok { new with
          heapPtr := 8, ip := 3, cycles := 3, callStack := [1], output := ascii "7\n" } := by
  refine ⟨fun _ _ _ => rfl, fun _ _ _ _ _ => rfl, fun _ _ _ => rfl, three_toSizeT, ?_⟩
  exact (run_call_push_print (Double.ofInt 3) (Double.ofInt 7) 7 seven_toInt64).trans
    (congrArg
      (fun o => Except.ok { new with
        heapPtr := 8, ip := 3, cycles := 3, callStack := [1], output := o })
      print_seven)

theorem takeWhile_until_zero (s rest : List Byte) (hs : ∀ b ∈ s, b ≠ 0) :
    (s ++ 0 :: rest).takeWhile (fun b => b != 0) = s := by
  induction s with
  | nil => simp
  | cons x xs ih =>
    have hx : x ≠ 0 := hs x (List.mem_cons_self _ _)
    have hx2 : (x != 0) = true := by simpa using hx
    have := ih (fun b hb => hs b (List.mem_cons_of_mem _ hb))
    rw [List.cons_append, List.takeWhile_cons, hx2, if_pos rfl, this]

theorem cString_of_layout (pre s post : List Byte) (hs : ∀ b ∈ s, b ≠ 0) :
    cString (pre ++ s ++ 0 :: post) pre.length = s := by
  unfold cString
  rw [List.append_assoc, List.drop_left]
  exact takeWhile_until_zero s post hs

theorem load_ok_memory {prog : Program} {vm vm0 : VirtualMachine}
    (hl : load prog vm = .ok vm0) : ∃ t, vm0.memory = prog.dataSegment ++ t :=
  (load_ok_all hl).2.2.2.2.2.2.2

theorem stepSeq_push_print_str (vm : VirtualMachine) (kD : Double) (k : Nat)
    (hk : kD.toSizeT? = some k) :
    stepSeq [⟨.PUSH_IMM, kD, []⟩, ⟨.PRINT_STR, Double.zero, []⟩] vm
      = .running { vm with
          ip := vm.ip + 2
          cycles := vm.cycles + 2
          output := vm.output ++ cString vm.memory k } := by
  simp only [stepSeq, step, exec, hk]

/-- What `PRINT_STR` emits from any address: consecutive bytes of memory
starting at `addr`, all nonzero, ending before a zero byte or at the end
of memory. -/
theorem cString_spec (memory : List Byte) (addr : Nat) :
    (∀ i, i < (cString memory addr).length →
      (cString memory addr)[i]? = memory[addr + i]? ∧ addr + i < memory.length) ∧
    (∀ b ∈ cString memory addr, b ≠ 0) ∧
    (memory[addr + (cString memory addr).length]? = none ∨
      memory[addr + (cString memory addr).length]? = some 0) := by
  unfold cString
  have key : ∀ (l : List Byte),
      (∀ i, i < (l.takeWhile (fun b => b != 0)).length →
        (l.takeWhile (fun b => b != 0))[i]? = l[i]? ∧ i < l.length) ∧
      (∀ b ∈ l.takeWhile (fun b => b != 0), b ≠ 0) ∧
      (l[(l.takeWhile (fun b => b != 0)).length]? = none ∨
        l[(l.takeWhile (fun b => b != 0)).length]? = some 0) := by
    intro l
    induction l with
    | nil => simp
    | cons x xs ih =>
      by_cases hx : x = 0
      · subst hx
        simp [List.takeWhile]
      · have hx2 : (x != 0) = true := by simpa using hx
        simp only [List.takeWhile, hx2, List.length_cons]
        refine ⟨?_, ?_, ?_⟩
        · intro i hi
          cases i with
          | zero => simp
          | succ j =>
            have := ih.1 j (by omega)
            simp only [List.getElem?_cons_succ]
            exact ⟨this.1, by omega⟩
        · intro b hb
          rcases List.mem_cons.1 hb with rfl | hb
          · exact hx
          · exact ih.2.1 b hb
        · simpa only [List.getElem?_cons_succ] using ih.2.2
  have h := key (memory.drop addr)
  simp only [List.getElem?_drop, List.length_drop] at h
  refine ⟨fun i hi => ⟨(h.1 i hi).1, ?_⟩, h.2.1, h.2.2⟩
  have := (h.1 i hi).2
  omega

theorem hi_nonzero : ∀ b ∈ ([104, 105] : List Byte), b ≠ 0 := by
  intro b hb
  simp only [List.mem_cons, List.mem_singleton, List.not_mem_nil, or_false] at hb
  rcases hb with rfl | rfl <;> decide

theorem hi_small : ([] ++ ([104, 105] : List Byte) ++ 0 :: []).length + 4096 ≤ maxSize := by
  simp only [List.nil_append, List.length_append, List.length_cons, List.length_nil]
  decide

/-- C15. For a byte string `s` without zero byte placed in the data
segment at offset `k` and followed by a zero byte (the data segment, with
the 4096 bytes added when memory has to grow, being within `max_size()`),
the program `PUSH_IMM k; PRINT_STR` on a fresh machine outputs exactly `s`; with the
data segment `hi\0` and offset 0 the output is `hi`. From any address
`PRINT_STR` appends consecutive memory bytes starting there, each at an
address below the memory size and nonzero, and stops in front of the
first zero byte or at the end of memory. -/
theorem print_str_output :
    (∀ (pre s post : List Byte) (kD : Double),
      kD.toSizeT? = some pre.length → (∀ b ∈ s, b ≠ 0) →
      (pre ++ s ++ 0 :: post).length + 4096 ≤ maxSize →
      ∃ vm1, run ⟨[⟨.PUSH_IMM, kD, []⟩, ⟨.PRINT_STR, Double.zero, []⟩],
                  pre ++ s ++ 0 :: post⟩ new = .ok vm1 ∧ vm1.output = s) ∧
    (∃ vm1, run ⟨[⟨.PUSH_IMM, Double.zero, []⟩, ⟨.PRINT_STR, Double.zero, []⟩],
                 [104, 105, 0]⟩ new = .ok vm1 ∧ vm1.output = ascii "hi") ∧
    (∀ (vm : VirtualMachine) (aD i : Double) (rest : List Double) (str : List Byte)
        (addr : Nat), aD.toSizeT? = some addr →
      exec ⟨.PRINT_STR, i, str⟩ { vm with evalStack := aD :: rest }
        = .running { vm with
            evalStack := rest, output := vm.output ++ cString vm.memory addr }) ∧
    (∀ (memory : List Byte) (addr : Nat),
      (∀ i, i < (cString memory addr).length →
        (cString memory addr)[i]? = memory[addr + i]? ∧ addr + i < memory.length) ∧
      (∀ b ∈ cString memory addr, b ≠ 0) ∧
      (memory[addr + (cString memory addr).length]? = none ∨
        memory[addr + (cString memory addr).length]? = some 0)) := by
  have main : ∀ (pre s post : List Byte) (kD : Double),
      kD.toSizeT? = some pre.length → (∀ b ∈ s, b ≠ 0) →
      (pre ++ s ++ 0 :: post).length + 4096 ≤ maxSize →
      ∃ vm1, run ⟨[⟨.PUSH_IMM, kD, []⟩, ⟨.PRINT_STR, Double.zero, []⟩],
                  pre ++ s ++ 0 :: post⟩ new = .ok vm1 ∧ vm1.output = s := by
    intro pre s post kD hk hs hsz
    obtain ⟨vm0, hload⟩ := load_new_ok
      ⟨[⟨.PUSH_IMM, kD, []⟩, ⟨.PRINT_STR, Double.zero, []⟩], pre ++ s ++ 0 :: post⟩ hsz
    obtain ⟨t, hmem⟩ := load_ok_memory hload
    have hf := load_ok_fields hload
    have hrun := run_straight hload (straight_of_all rfl)
      (by rw [new_maxCycles]; exact (by decide : 2 < 10000000))
      (stepSeq_push_print_str vm0 kD pre.length hk)
    refine ⟨_, hrun, ?_⟩
    have hout : vm0.output = [] := hf.2.2.1
    have hlay : vm0.memory = pre ++ s ++ 0 :: (post ++ t) := by
      rw [hmem]
      simp only [List.append_assoc, List.cons_append]
    show vm0.output ++ cString vm0.memory pre.length = s
    rw [hout, hlay, cString_of_layout pre s (post ++ t) hs, List.nil_append]
  refine ⟨main, ?_, ?_, cString_spec⟩
  · exact main [] [104, 105] [] Double.zero zero_toSizeT hi_nonzero hi_small
  · intro vm aD i rest str addr ha
    simp only [exec, ha]

/-- Instance of C15: the data segment `hi\0` printed from offset 0. -/
theorem print_str_output_witness :
    Double.zero.toSizeT? = some ([] : List Byte).length ∧
    ∃ vm1, run ⟨[⟨.PUSH_IMM, Double.zero, []⟩, ⟨.PRINT_STR, Double.zero, []⟩],
                 [] ++ [104, 105] ++ 0 :: []⟩ new = .ok vm1 ∧
      vm1.output = [104, 105] :=
  ⟨zero_toSizeT,
   print_str_output.1 [] [104, 105] [] Double.zero zero_toSizeT hi_nonzero hi_small⟩

end VirtualMachine

end OmniNative

/-! ## Properties of the text interpreter -/

namespace OmniNative

namespace CInterpreter

theorem grow_length (memory : List Double) (n : Nat) :
    n + 1 ≤ (grow memory n).length ∧ memory.length ≤ (grow memory n).length := by
  unfold grow
  rw [List.length_append, List.length_replicate]
  omega

theorem lookup_cons (name k : List Char) (v : VarInfo) (rest : List (List Char × VarInfo)) :
    lookup name ((k, v) :: rest) = if k = name then some v else lookup name rest := rfl

/-- The first assignment to a name. -/
theorem assign_new (st st1 : State) (name : List Char) (value : Double)
    (hnew : lookup name st.locals = none) (h : assign st name value = .ok st1) :
    st1.locals = (name, ⟨st.nextLocalAddr, false, false⟩) :: st.locals ∧
    st1.nextLocalAddr = st.nextLocalAddr + 1 ∧
    st1.memory.length = (grow st.memory (st.nextLocalAddr + 1)).length := by
  unfold assign at h
  simp only [hnew, lookup_cons, if_true] at h
  split at h
  · split at h <;>
      (injection h with h
       subst h
       exact ⟨rfl, rfl, List.length_set _ _ _⟩)
  · exact absurd h (by simp)

/-- A later assignment to a name. -/
theorem assign_old (st st1 : State) (name : List Char) (value : Double) (info : VarInfo)
    (hold : lookup name st.locals = some info) (h : assign st name value = .ok st1) :
    st1.locals = st.locals ∧ st1.nextLocalAddr = st.nextLocalAddr ∧
    st1.memory.length = st.memory.length := by
  unfold assign at h
  simp only [hold] at h
  split at h
  · split at h <;>
      (injection h with h
       subst h
       exact ⟨rfl, rfl, List.length_set _ _ _⟩)
  · exact absurd h (by simp)

theorem assign_wellFormed (st st1 : State) (name : List Char) (value : Double)
    (hwf : WellFormed st) (h : assign st name value = .ok st1) : WellFormed st1 := by
  obtain ⟨hinj, hlt, hmem⟩ := hwf
  cases hl : lookup name st.locals with
  | none =>
    obtain ⟨h1, h2, h3⟩ := assign_new st st1 name value hl h
    have hg := grow_length st.memory (st.nextLocalAddr + 1)
    refine ⟨?_, ?_, ?_⟩
    · intro n1 n2 i1 i2 l1 l2 ha
      rw [h1, lookup_cons] at l1 l2
      by_cases e1 : name = n1
      · by_cases e2 : name = n2
        · rw [← e1, ← e2]
        · rw [if_pos e1] at l1
          rw [if_neg e2] at l2
          injection l1 with l1
          have := hlt n2 i2 l2
          rw [← l1] at ha
          simp only at ha
          omega
      · by_cases e2 : name = n2
        · rw [if_neg e1] at l1
          rw [if_pos e2] at l2
          injection l2 with l2
          have := hlt n1 i1 l1
          rw [← l2] at ha
          simp only at ha
          omega
        · rw [if_neg e1] at l1
          rw [if_neg e2] at l2
          exact hinj n1 n2 i1 i2 l1 l2 ha
    · intro n i l
      rw [h1, lookup_cons] at l
      rw [h2]
      by_cases e : name = n
      · rw [if_pos e] at l
        injection l with l
        rw [← l]
        exact Nat.lt_succ_self _
      · rw [if_neg e] at l
        exact Nat.lt_succ_of_lt (hlt n i l)
    · rw [h2, h3]
      omega
  | some info =>
    obtain ⟨h1, h2, h3⟩ := assign_old st st1 name value info hl h
    refine ⟨?_, ?_, ?_⟩
    · rw [h1]; exact hinj
    · rw [h1, h2]; exact hlt
    · rw [h2, h3]; exact hmem

theorem executeStatement_wellFormed (st st1 : State) (code : List Char)
    (hwf : WellFormed st) (h : executeStatement st code = .ok st1) : WellFormed st1 := by
  unfold executeStatement at h
  split at h
  · have hsame : st1.locals = st.locals ∧ st1.nextLocalAddr = st.nextLocalAddr ∧
        st1.memory = st.memory := by
      split at h
      · split at h <;> (injection h with h; subst h; exact ⟨rfl, rfl, rfl⟩)
      · injection h with h; subst h; exact ⟨rfl, rfl, rfl⟩
    obtain ⟨h1, h2, h3⟩ := hsame
    unfold WellFormed
    rw [h1, h2, h3]
    exact hwf
  · split at h
    · injection h with h; subst h; exact hwf
    · split at h
      · exact absurd h (by simp)
      · exact assign_wellFormed st st1 _ _ hwf h

theorem executeAll_wellFormed :
    ∀ (stmts : List (List Char)) (st st1 : State),
      WellFormed st → executeAll st stmts = .ok st1 → WellFormed st1 := by
  intro stmts
  induction stmts with
  | nil =>
    intro st st1 hwf h
    simp only [executeAll, Except.ok.injEq] at h
    subst h
    exact hwf
  | cons stmt rest ih =>
    intro st st1 hwf h
    unfold executeAll at h
    split at h
    · exact ih st st1 hwf h
    · cases hs : executeStatement st stmt with
      | error f => rw [hs] at h; exact absurd h (by simp)
      | ok st2 =>
        rw [hs] at h
        exact ih st2 st1 (executeStatement_wellFormed st st2 stmt hwf hs) h

theorem init_wellFormed : WellFormed { State.init with output := [] } := by
  refine ⟨?_, ?_, ?_⟩
  · intro n1 n2 i1 i2 l1; exact absurd l1 (by simp [State.init, lookup])
  · intro n i l; exact absurd l (by simp [State.init, lookup])
  · exact Nat.zero_le _


/-- With a consistent table, an expression has a value: the lookup of a
variable stays inside the variable memory. -/
theorem evaluateExpression_returns (st : State) (expr : List Char) (hwf : WellFormed st) :
    ∃ v, evaluateExpression st expr = .ok v := by
  unfold evaluateExpression
  split
  · exact ⟨_, rfl⟩
  · simp only
    split
    · exact ⟨_, rfl⟩
    · split
      · rename_i info hinfo
        have hlt : info.address < st.memory.length :=
          Nat.lt_of_lt_of_le (hwf.2.1 _ _ hinfo) hwf.2.2
        rw [List.getElem?_eq_getElem hlt]
        exact ⟨_, rfl⟩
      · exact ⟨_, rfl⟩

/-- With a consistent table, the store of any value returns, and echoes the
line `name = t` for the `int` that the conversion gives. -/
theorem assign_echo (st : State) (name : List Char) (value : Double) (hwf : WellFormed st) :
    ∃ st1, assign st name value = .ok st1 ∧
      st1.output = st.output ++ name ++ " = ".toList
        ++ intChars (value.toInt?.getD (-2147483648)) ++ ['\n'] := by
  unfold assign
  cases hl : lookup name st.locals with
  | none =>
    have hg := grow_length st.memory (st.nextLocalAddr + 1)
    have hlt : st.nextLocalAddr < (grow st.memory (st.nextLocalAddr + 1)).length := by omega
    cases ht : value.toInt? with
    | none =>
      simp only [lookup_cons, if_true, hlt]
      exact ⟨_, rfl, rfl⟩
    | some t =>
      simp only [lookup_cons, if_true, hlt]
      exact ⟨_, rfl, rfl⟩
  | some info =>
    have hlt : info.address < st.memory.length :=
      Nat.lt_of_lt_of_le (hwf.2.1 _ _ hl) hwf.2.2
    cases ht : value.toInt? with
    | none =>
      simp only [hl, if_true, hlt]
      exact ⟨_, rfl, rfl⟩
    | some t =>
      simp only [hl, if_true, hlt]
      exact ⟨_, rfl, rfl⟩

theorem executeStatement_returns (st : State) (code : List Char) (hwf : WellFormed st) :
    ∃ st1, executeStatement st code = .ok st1 := by
  unfold executeStatement
  split
  · split
    · split
      · exact ⟨_, rfl⟩
      · exact ⟨_, rfl⟩
    · exact ⟨_, rfl⟩
  · split
    · exact ⟨_, rfl⟩
    · rename_i varName expr hpa
      obtain ⟨v, hev⟩ := evaluateExpression_returns st expr hwf
      rw [hev]
      obtain ⟨st1, h1, _⟩ := assign_echo st varName v hwf
      exact ⟨st1, h1⟩

theorem executeAll_returns :
    ∀ (stmts : List (List Char)) (st : State), WellFormed st →
      ∃ st1, executeAll st stmts = .ok st1 := by
  intro stmts
  induction stmts with
  | nil => intro st _; exact ⟨st, rfl⟩
  | cons stmt rest ih =>
    intro st hwf
    unfold executeAll
    split
    · exact ih st hwf
    · obtain ⟨st1, h1⟩ := executeStatement_returns st stmt hwf
      rw [h1]
      exact ih st1 (executeStatement_wellFormed st st1 stmt hwf h1)

/-- The lines `execute` returns from a final state. -/
theorem execute_lines (source : List Char) (st : State)
    (h : executeAll { State.init with output := [] }
      (splitStatements none source false false [] []) = .ok st) :
    ∃ lines, execute source = .ok lines ∧ lines ≠ [] ∧ (∀ l ∈ lines, l ≠ []) ∧
      ((splitLines st.output []).filter (fun line => !line.isEmpty) = [] →
        lines = ["Program finished successfully.".toList]) := by
  unfold execute
  rw [h]
  simp only
  split
  · rename_i he
    refine ⟨_, rfl, by simp, ?_, fun _ => rfl⟩
    intro l hl
    rw [List.mem_singleton] at hl
    rw [hl]
    decide
  · rename_i he
    refine ⟨_, rfl, ?_, ?_, ?_⟩
    · intro h0; rw [h0] at he; exact he rfl
    · intro l hl
      have := (List.mem_filter.1 hl).2
      intro h0
      rw [h0] at this
      exact absurd this (by decide)
    · intro h0; rw [h0] at he; exact absurd rfl he

theorem joinResults_ne_nil (r : List Char) (rest : List (List Char)) :
    joinResults (r :: rest) ≠ [] := by
  cases rest with
  | nil => simp [joinResults]
  | cons r2 rest2 => simp [joinResults]

theorem compile_and_run_ok (source : List Char) (lines : List (List Char))
    (h : executeSource source = .ok lines) (hne : lines ≠ []) :
    compile_and_run source = .ok (joinResults lines) ∧ joinResults lines ≠ [] := by
  cases lines with
  | nil => exact absurd rfl hne
  | cons r rest =>
    have hj := joinResults_ne_nil r rest
    unfold compile_and_run
    rw [h]
    simp only
    rw [if_neg]
    · exact ⟨rfl, hj⟩
    · intro he
      exact hj (List.isEmpty_iff.1 he)


theorem assign_returns (st : State) (name : List Char) (value : Double)
    (hwf : WellFormed st) (hv : value.toInt?.isSome = true) :
    ∃ st1, assign st name value = .ok st1 := by
  obtain ⟨t, ht⟩ := Option.isSome_iff_exists.1 hv
  unfold assign
  cases hl : lookup name st.locals with
  | none =>
    have hg := grow_length st.memory (st.nextLocalAddr + 1)
    have hlt : st.nextLocalAddr < (grow st.memory (st.nextLocalAddr + 1)).length := by omega
    simp only [lookup_cons, if_true, hlt, ht]
    exact ⟨_, rfl⟩
  | some info =>
    have hlt : info.address < st.memory.length :=
      Nat.lt_of_lt_of_le (hwf.2.1 _ _ hl) hwf.2.2
    simp only [hl, if_true, hlt, ht]
    exact ⟨_, rfl⟩

theorem executeStatement_assign (st : State) (code name expr : List Char) (value : Double)
    (hp : containsSub "printf".toList code = false)
    (hpa : parseAssignment code = some (name, expr))
    (hev : evaluateExpression st expr = .ok value) :
    executeStatement st code = assign st name value := by
  unfold executeStatement
  rw [hp, hpa]
  simp only [Bool.false_eq_true, if_false, hev]

/-- C19. In the interpreter's symbol table the first assignment to a name
takes the current value of the address counter and increments the counter
by one, leaving the other names as they were; a later assignment to the
name keeps the table and the counter; an assignment statement is the store
of the value of its right-hand side; and from the initial state, through
every statement and every sequence of statements, distinct names hold
distinct addresses, every address is below the counter, and the counter
does not exceed the size of the variable memory. -/
theorem address_allocation :
    (∀ (st : State) (name : List Char) (value : Double),
      WellFormed st → value.toInt?.isSome = true → lookup name st.locals = none →
      ∃ st1, assign st name value = .ok st1 ∧
        lookup name st1.locals = some ⟨st.nextLocalAddr, false, false⟩ ∧
        st1.nextLocalAddr = st.nextLocalAddr + 1 ∧
        ∀ other, other ≠ name → lookup other st1.locals = lookup other st.locals) ∧
    (∀ (st : State) (name : List Char) (value : Double) (info : VarInfo),
      WellFormed st → value.toInt?.isSome = true → lookup name st.locals = some info →
      ∃ st1, assign st name value = .ok st1 ∧
        st1.locals = st.locals ∧ st1.nextLocalAddr = st.nextLocalAddr) ∧
    (∀ (st : State) (code name expr : List Char) (value : Double),
      containsSub "printf".toList code = false → parseAssignment code = some (name, expr) →
      evaluateExpression st expr = .ok value →
      executeStatement st code = assign st name value) ∧
    WellFormed { State.init with output := [] } ∧
    (∀ (st st1 : State) (code : List Char),
      WellFormed st → executeStatement st code = .ok st1 → WellFormed st1) ∧
    (∀ (stmts : List (List Char)) (st st1 : State),
      WellFormed st → executeAll st stmts = .ok st1 → WellFormed st1) := by
  refine ⟨?_, ?_, executeStatement_assign, init_wellFormed, executeStatement_wellFormed,
    executeAll_wellFormed⟩
  · intro st name value hwf hv hl
    obtain ⟨st1, h⟩ := assign_returns st name value hwf hv
    obtain ⟨h1, h2, _⟩ := assign_new st st1 name value hl h
    refine ⟨st1, h, ?_, h2, ?_⟩
    · rw [h1, lookup_cons, if_pos rfl]
    · intro other ho
      rw [h1, lookup_cons, if_neg (fun e => ho e.symm)]
  · intro st name value info hwf hv hl
    obtain ⟨st1, h⟩ := assign_returns st name value hwf hv
    obtain ⟨h1, h2, _⟩ := assign_old st st1 name value info hl h
    exact ⟨st1, h, h1, h2⟩

theorem one_intSafe : Double.one.toInt?.isSome = true := by decide!

/-- The first assignment to `x` in the initial state takes address 0. -/
theorem address_allocation_witness :
    ∃ st1, assign { State.init with output := [] } "x".toList Double.one = .ok st1 ∧
      lookup "x".toList st1.locals = some ⟨0, false, false⟩ ∧
      st1.nextLocalAddr = 0 + 1 ∧
      ∀ other, other ≠ "x".toList →
        lookup other st1.locals = lookup other ({ State.init with output := [] } : State).locals :=
  address_allocation.1 { State.init with output := [] } "x".toList Double.one
    init_wellFormed one_intSafe rfl

theorem evaluateExpression_literal (st : State) (expr : List Char) (v : Double)
    (h1 : expr.isEmpty = false)
    (h2 : (if (expr.takeWhile (fun c => c.isDigit || c == '.')).isEmpty then none
      else stod (expr.takeWhile (fun c => c.isDigit || c == '.'))) = some v) :
    evaluateExpression st expr = .ok v := by
  unfold evaluateExpression
  rw [h1]
  simp only [Bool.false_eq_true, if_false]
  rw [h2]

theorem executeStatement_skip (st : State) (code : List Char)
    (h1 : containsSub "printf".toList code = false) (h2 : parseAssignment code = none) :
    executeStatement st code = .ok st := by
  unfold executeStatement
  rw [h1, h2]
  simp only [Bool.false_eq_true, if_false]

theorem evaluateExpression_unknown (st : State) (expr : List Char)
    (h1 : (expr.takeWhile (fun c => c.isDigit || c == '.')).isEmpty = true)
    (h2 : lookup expr st.locals = none) :
    evaluateExpression st expr = .ok Double.zero := by
  unfold evaluateExpression
  split
  · rfl
  · simp only [h1, if_true, h2]

theorem executeAll_cons (st st1 : State) (stmt : List Char) (rest : List (List Char))
    (hne : stmt.isEmpty = false) (h : executeStatement st stmt = .ok st1) :
    executeAll st (stmt :: rest) = executeAll st1 rest := by
  rw [executeAll, hne, h]
  simp only [Bool.false_eq_true, if_false]

/-- The store of a value that converts to the `int` `t` appends the line
`name = t` to the output. -/
theorem assign_output (st : State) (name : List Char) (value : Double) (t : Int)
    (hwf : WellFormed st) (ht : value.toInt? = some t) :
    ∃ st1, assign st name value = .ok st1 ∧ WellFormed st1 ∧
      st1.output = st.output ++ name ++ " = ".toList ++ intChars t ++ ['\n'] := by
  have key : ∃ st1, assign st name value = .ok st1 ∧
      st1.output = st.output ++ name ++ " = ".toList ++ intChars t ++ ['\n'] := by
    unfold assign
    cases hl : lookup name st.locals with
    | none =>
      have hg := grow_length st.memory (st.nextLocalAddr + 1)
      have hlt : st.nextLocalAddr < (grow st.memory (st.nextLocalAddr + 1)).length := by omega
      simp only [lookup_cons, if_true, hlt, ht]
      exact ⟨_, rfl, rfl⟩
    | some info =>
      have hlt : info.address < st.memory.length :=
        Nat.lt_of_lt_of_le (hwf.2.1 _ _ hl) hwf.2.2
      simp only [hl, if_true, hlt, ht]
      exact ⟨_, rfl, rfl⟩
  obtain ⟨st1, h, ho⟩ := key
  exact ⟨st1, h, assign_wellFormed st st1 name value hwf h, ho⟩

/-- The result of `execute` from the final state of the statements. -/
theorem execute_eq (source : List Char) (st : State)
    (h : executeAll { State.init with output := [] }
      (splitStatements none source false false [] []) = .ok st) :
    execute source = .ok
      (if ((splitLines st.output []).filter (fun line => !line.isEmpty)).isEmpty
        then ["Program finished successfully.".toList]
        else (splitLines st.output []).filter (fun line => !line.isEmpty)) := by
  unfold execute
  rw [h]
  simp only
  split <;> rfl

/-- A source of one assignment statement whose right-hand side has the
value `value`, convertible to the `int` `t`, returns the line `name = t`. -/
theorem execute_one_assignment (source code name expr : List Char) (rest : List (List Char))
    (value : Double) (t : Int) (lines : List (List Char))
    (hsplit : splitStatements none source false false [] [] = code :: rest)
    (hne : code.isEmpty = false)
    (hp : containsSub "printf".toList code = false)
    (hpa : parseAssignment code = some (name, expr))
    (hev : ∀ st : State, st.locals = [] → evaluateExpression st expr = .ok value)
    (ht : value.toInt? = some t)
    (hrest : ∀ st : State, executeAll st rest = .ok st)
    (hlines : (if ((splitLines (name ++ " = ".toList ++ intChars t ++ ['\n']) []).filter
          (fun line => !line.isEmpty)).isEmpty
        then ["Program finished successfully.".toList]
        else (splitLines (name ++ " = ".toList ++ intChars t ++ ['\n']) []).filter
          (fun line => !line.isEmpty)) = lines) :
    executeSource source = .ok lines := by
  obtain ⟨st1, h1, _, ho⟩ := assign_output { State.init with output := [] } name value t
    init_wellFormed ht
  have hst : executeStatement { State.init with output := [] } code = .ok st1 :=
    (executeStatement_assign _ code name expr value hp hpa (hev _ rfl)).trans h1
  have hall : executeAll { State.init with output := [] }
      (splitStatements none source false false [] []) = .ok st1 := by
    rw [hsplit, executeAll_cons _ _ _ _ hne hst]
    exact hrest st1
  have ho2 : st1.output = name ++ " = ".toList ++ intChars t ++ ['\n'] := by
    rw [ho]; rfl
  unfold executeSource
  rw [execute_eq source st1 hall, ho2, hlines]

/-- A source of one assignment statement whose right-hand side has a value
that does not convert to `int` returns the line `name = -2147483648`. -/
theorem execute_wide_assignment (source code name expr : List Char) (rest : List (List Char))
    (value : Double) (lines : List (List Char))
    (hsplit : splitStatements none source false false [] [] = code :: rest)
    (hne : code.isEmpty = false)
    (hp : containsSub "printf".toList code = false)
    (hpa : parseAssignment code = some (name, expr))
    (hev : ∀ st : State, st.locals = [] → evaluateExpression st expr = .ok value)
    (ht : value.toInt? = none)
    (hrest : ∀ st : State, executeAll st rest = .ok st)
    (hlines : (if ((splitLines (name ++ " = ".toList ++ intChars (-2147483648) ++ ['\n']) []).filter
          (fun line => !line.isEmpty)).isEmpty
        then ["Program finished successfully.".toList]
        else (splitLines (name ++ " = ".toList ++ intChars (-2147483648) ++ ['\n']) []).filter
          (fun line => !line.isEmpty)) = lines) :
    executeSource source = .ok lines := by
  obtain ⟨st1, h1, ho⟩ := assign_echo { State.init with output := [] } name value
    init_wellFormed
  rw [ht] at ho
  have hst : executeStatement { State.init with output := [] } code = .ok st1 :=
    (executeStatement_assign _ code name expr value hp hpa (hev _ rfl)).trans h1
  have hall : executeAll { State.init with output := [] }
      (splitStatements none source false false [] []) = .ok st1 := by
    rw [hsplit, executeAll_cons _ _ _ _ hne hst]
    exact hrest st1
  have ho2 : st1.output = name ++ " = ".toList ++ intChars (-2147483648) ++ ['\n'] := by
    rw [ho]; rfl
  unfold executeSource
  rw [execute_eq source st1 hall, ho2, hlines]

theorem compile_and_run_eq (source : List Char) (lines : List (List Char)) (text : List Char)
    (h : executeSource source = .ok lines) (hne : lines ≠ [])
    (ht : joinResults lines = text) : compile_and_run source = .ok text :=
  ht ▸ (compile_and_run_ok source lines h hne).1

theorem executeAll_skip (st : State) (code : List Char)
    (hne : code.isEmpty = false)
    (h1 : containsSub "printf".toList code = false) (h2 : parseAssignment code = none) :
    executeAll st [code] = .ok st :=
  (executeAll_cons st st code [] hne (executeStatement_skip st code h1 h2)).trans rfl

theorem x23_source :
    executeSource "x = 2 + 3; print(x);".toList = .ok ["x = 2".toList] :=
  execute_one_assignment _ "x = 2 + 3;".toList "x".toList "2 + 3;".toList
    [" print(x);".toList] (Double.ofNat 2) 2 _
    (by decide!) (by decide) (by decide) (by decide!)
    (fun st _ => evaluateExpression_literal st _ _ (by decide) (by decide!))
    (by decide!)
    (fun st => executeAll_skip st _ (by decide) (by decide) (by decide))
    (by decide!)

/-- C16 (the code at the failing input). For the source text
`x = 2 + 3; print(x);` the interpreter returns the single line `x = 2`, and
the entry point the text `> x = 2`: in every state the right-hand side
`2 + 3;` evaluates to its leading literal 2, and the statement ` print(x);`
leaves the state as it is. -/
theorem assignment_takes_leading_literal :
    executeSource "x = 2 + 3; print(x);".toList = .ok ["x = 2".toList] ∧
    compile_and_run "x = 2 + 3; print(x);".toList = .ok "> x = 2".toList ∧
    (∀ st : State, evaluateExpression st "2 + 3;".toList = .ok (Double.ofNat 2)) ∧
    (∀ st : State, executeStatement st " print(x);".toList = .ok st) :=
  ⟨x23_source,
    compile_and_run_eq _ _ _ x23_source (by simp) (by decide!),
    fun st => evaluateExpression_literal st _ _ (by decide) (by decide!),
    fun st => executeStatement_skip st _ (by decide) (by decide)⟩

theorem yx_source : executeSource "y = x;".toList = .ok ["y = 0".toList] :=
  execute_one_assignment _ "y = x;".toList "y".toList "x;".toList [] Double.zero 0 _
    (by decide!) (by decide) (by decide) (by decide!)
    (fun st h => evaluateExpression_unknown st _ (by decide) (by rw [h]; rfl))
    (by decide!)
    (fun _ => rfl)
    (by decide!)

/-- C18 (counterexample). The call of the undeclared function `foo` is a
normal run that returns the success message, and the read of the unassigned
variable `x` stores and prints the value 0. -/
theorem unknown_names_accepted :
    executeSource "foo();".toList = .ok ["Program finished successfully.".toList] ∧
    compile_and_run "foo();".toList = .ok "> Program finished successfully.".toList ∧
    executeSource "y = x;".toList = .ok ["y = 0".toList] ∧
    compile_and_run "y = x;".toList = .ok "> y = 0".toList :=
  ⟨by decide!, by decide!, yx_source,
    compile_and_run_eq _ _ _ yx_source (by simp) (by decide!)⟩

/-- C18 (as amended). A statement that names nothing the interpreter knows
is not a fault: a statement without `printf` that does not have the
assignment pattern leaves the state as it is, and a right-hand side that
does not start with a digit or a dot and is not a name of the symbol table
evaluates to 0. -/
theorem unknown_names_are_ignored (st : State) :
    (∀ code : List Char, containsSub "printf".toList code = false →
      parseAssignment code = none → executeStatement st code = .ok st) ∧
    (∀ expr : List Char,
      (expr.takeWhile (fun c => c.isDigit || c == '.')).isEmpty = true →
      lookup expr st.locals = none → evaluateExpression st expr = .ok Double.zero) :=
  ⟨executeStatement_skip st, evaluateExpression_unknown st⟩

/-- In the initial state the statement `foo();` changes nothing and the
right-hand side `x;` has the value 0. -/
theorem unknown_names_are_ignored_witness :
    executeStatement { State.init with output := [] } "foo();".toList
      = .ok { State.init with output := [] } ∧
    evaluateExpression { State.init with output := [] } "x;".toList = .ok Double.zero :=
  ⟨(unknown_names_are_ignored { State.init with output := [] }).1 "foo();".toList
      (by decide) (by decide),
   (unknown_names_are_ignored { State.init with output := [] }).2 "x;".toList
      (by decide) rfl⟩

theorem large_source :
    executeSource "x = 3000000000;".toList = .ok ["x = -2147483648".toList] :=
  execute_wide_assignment _ "x = 3000000000;".toList "x".toList "3000000000;".toList []
    (Double.ofNat 3000000000) _
    (by decide!) (by decide) (by decide) (by decide!)
    (fun st _ => evaluateExpression_literal st _ _ (by decide) (by decide!))
    (by decide!)
    (fun _ => rfl)
    (by decide!)

/-- The empty source returns the success message. -/
theorem empty_source_message :
    executeSource [] = .ok ["Program finished successfully.".toList] ∧
    compile_and_run [] = .ok "> Program finished successfully.".toList :=
  ⟨by decide!, by decide!⟩

/-- C17. For every source text the interpreter returns: the statements run
to a final state, `executeSource` gives a non-empty list of non-empty
lines, which is the one line `Program finished successfully.` when the
statements produce no output line, and `compile_and_run` gives the
non-empty text that joins these lines, each after `> `. The empty source
gives the success message; the source `x = 3000000000;`, whose literal is
beyond the range of `int`, gives the line `x = -2147483648`. -/
theorem returns_text :
    (∀ source : List Char, ∃ st lines,
      executeAll { State.init with output := [] }
        (splitStatements none source false false [] []) = .ok st ∧
      executeSource source = .ok lines ∧ lines ≠ [] ∧ (∀ l ∈ lines, l ≠ []) ∧
      ((splitLines st.output []).filter (fun line => !line.isEmpty) = [] →
        lines = ["Program finished successfully.".toList]) ∧
      compile_and_run source = .ok (joinResults lines) ∧ joinResults lines ≠ []) ∧
    executeSource [] = .ok ["Program finished successfully.".toList] ∧
    compile_and_run [] = .ok "> Program finished successfully.".toList ∧
    executeSource "x = 3000000000;".toList = .ok ["x = -2147483648".toList] ∧
    compile_and_run "x = 3000000000;".toList = .ok "> x = -2147483648".toList := by
  refine ⟨?_, empty_source_message.1, empty_source_message.2, large_source,
    compile_and_run_eq _ _ _ large_source (by simp) (by decide!)⟩
  intro source
  obtain ⟨st, hst⟩ := executeAll_returns (splitStatements none source false false [] []) _
    init_wellFormed
  obtain ⟨lines, h1, h2, h3, h4⟩ := execute_lines source st hst
  obtain ⟨h5, h6⟩ := compile_and_run_ok source lines h1 h2
  exact ⟨st, lines, hst, h1, h2, h3, h4, h5, h6⟩

/-- Instance of C17: the source `x = 7;`. -/
theorem returns_text_witness :
    ∃ st lines,
      executeAll { State.init with output := [] }
        (splitStatements none "x = 7;".toList false false [] []) = .ok st ∧
      executeSource "x = 7;".toList = .ok lines ∧ lines ≠ [] ∧ (∀ l ∈ lines, l ≠ []) ∧
      ((splitLines st.output []).filter (fun line => !line.isEmpty) = [] →
        lines = ["Program finished successfully.".toList]) ∧
      compile_and_run "x = 7;".toList = .ok (joinResults lines) ∧ joinResults lines ≠ [] :=
  returns_text.1 "x = 7;".toList

end CInterpreter

/-! ## Properties of the type descriptor -/

namespace CType

theorem equals_mk (k : TypeKind) (b : Option CType) (c : Bool) (s : Int)
    (k2 : TypeKind) (b2 : Option CType) (c2 : Bool) (s2 : Int) :
    equals (mk k b c s) (mk k2 b2 c2 s2) =
      if k ≠ k2 then some false
      else if k = TypeKind.TYPE_PTR then
        match b, b2 with
        | some x, some y => equals x y
        | _, _ => none
      else some true := by
  cases b <;> cases b2 <;> simp [equals]

theorem Defined_mk (k : TypeKind) (b : Option CType) (c : Bool) (s : Int) :
    Defined (mk k b c s) =
      if k = TypeKind.TYPE_PTR then
        match b with
        | some x => Defined x
        | none => false
      else true := by
  cases b <;> simp [Defined]

theorem arrayFree_mk (k : TypeKind) (b : Option CType) (c : Bool) (s : Int) :
    arrayFree (mk k b c s) =
      if k = TypeKind.TYPE_PTR then
        match b with
        | some x => arrayFree x
        | none => true
      else decide (k ≠ TypeKind.TYPE_ARRAY) := by
  cases b <;> simp [arrayFree]

theorem structEq_mk (k : TypeKind) (b : Option CType) (c : Bool) (s : Int)
    (k2 : TypeKind) (b2 : Option CType) (c2 : Bool) (s2 : Int) :
    structEq (mk k b c s) (mk k2 b2 c2 s2) =
      (decide (k = k2) &&
        (if k = TypeKind.TYPE_PTR ∨ k = TypeKind.TYPE_ARRAY then
          match b, b2 with
          | some x, some y => structEq x y
          | _, _ => false
        else true)) := by
  cases b <;> cases b2 <;> simp [structEq]

theorem equals_comm : ∀ a b : CType, equals a b = equals b a
  | mk k b c s, mk k2 b2 c2 s2 => by
    rw [equals_mk, equals_mk]
    by_cases hk : k = k2
    · subst hk
      by_cases hp : k = TypeKind.TYPE_PTR
      · subst hp
        cases b with
        | none => cases b2 <;> simp
        | some x =>
          cases b2 with
          | none => simp
          | some y => simp only [ne_eq, not_true_eq_false, if_false, if_true]; exact equals_comm x y
      · simp [hp]
    · have hk2 : ¬ k2 = k := fun h => hk h.symm
      simp [hk, hk2]

theorem equals_refl : ∀ a : CType, Defined a = true → equals a a = some true
  | mk k b c s => by
    intro h
    rw [Defined_mk] at h
    rw [equals_mk]
    by_cases hp : k = TypeKind.TYPE_PTR
    · subst hp
      cases b with
      | none => simp at h
      | some x =>
        simp only [if_true] at h
        simp only [ne_eq, not_true_eq_false, if_false, if_true]
        exact equals_refl x h
    · simp [hp]

theorem equals_structEq : ∀ a b : CType, Defined a = true → Defined b = true →
    arrayFree a = true → equals a b = some (structEq a b)
  | mk k b c s, mk k2 b2 c2 s2 => by
    intro ha hb hf
    rw [Defined_mk] at ha hb
    rw [arrayFree_mk] at hf
    rw [equals_mk, structEq_mk]
    by_cases hk : k = k2
    · subst hk
      by_cases hp : k = TypeKind.TYPE_PTR
      · subst hp
        cases b with
        | none => simp at ha
        | some x =>
          cases b2 with
          | none => simp at hb
          | some y =>
            simp only [if_true] at ha hb hf
            simp only [ne_eq, not_true_eq_false, if_false, if_true, true_or,
              decide_True, Bool.true_and]
            exact equals_structEq x y ha hb hf
      · have hnarr : ¬ k = TypeKind.TYPE_ARRAY := by
          simpa [hp] using hf
        simp [hp, hnarr]
    · simp [hk]

/-- C20 (the code at the failing input, and what holds). The function
`equals` answers true for array-of-int against array-of-char, where
structural equality answers false: two array types are equal whatever their
bases are. Pointer-to-int differs from pointer-to-char; on types whose
pointer bases are present and whose pointee is not an array, `equals` is
structural equality; it is reflexive on types whose pointer bases are
present, and symmetric. -/
theorem equals_ignores_array_base :
    (equals (mk .TYPE_ARRAY (some (mk .TYPE_INT none false 0)) false 4)
        (mk .TYPE_ARRAY (some (mk .TYPE_CHAR none false 0)) false 4) = some true ∧
      structEq (mk .TYPE_ARRAY (some (mk .TYPE_INT none false 0)) false 4)
        (mk .TYPE_ARRAY (some (mk .TYPE_CHAR none false 0)) false 4) = false) ∧
    (∀ (b : Option CType) (c : Bool) (s : Int) (b2 : Option CType) (c2 : Bool) (s2 : Int),
      equals (mk .TYPE_ARRAY b c s) (mk .TYPE_ARRAY b2 c2 s2) = some true) ∧
    equals (mk .TYPE_PTR (some (mk .TYPE_INT none false 0)) false 0)
      (mk .TYPE_PTR (some (mk .TYPE_CHAR none false 0)) false 0) = some false ∧
    (∀ a b : CType, Defined a = true → Defined b = true → arrayFree a = true →
      equals a b = some (structEq a b)) ∧
    (∀ a : CType, Defined a = true → equals a a = some true) ∧
    (∀ a b : CType, equals a b = equals b a) := by
  refine ⟨⟨by decide, by decide⟩, ?_, by decide, equals_structEq, equals_refl, equals_comm⟩
  intro b c s b2 c2 s2
  rw [equals_mk]
  simp

/-- Pointer-to-int equals itself and, structurally, differs from
pointer-to-char. -/
theorem equals_ignores_array_base_witness :
    equals (mk .TYPE_PTR (some (mk .TYPE_INT none false 0)) false 0)
      (mk .TYPE_PTR (some (mk .TYPE_INT none false 0)) false 0) = some true ∧
    equals (mk .TYPE_PTR (some (mk .TYPE_INT none false 0)) false 0)
      (mk .TYPE_PTR (some (mk .TYPE_CHAR none false 0)) true 0)
      = some (structEq (mk .TYPE_PTR (some (mk .TYPE_INT none false 0)) false 0)
          (mk .TYPE_PTR (some (mk .TYPE_CHAR none false 0)) true 0)) :=
  ⟨equals_ignores_array_base.2.2.2.2.1 _ (by decide),
   equals_ignores_array_base.2.2.2.1 _ _ (by decide) (by decide) (by decide)⟩

end CType

end OmniNative

/-! ## Properties of the line diff -/

namespace OmniDiff

/-! ### Lines -/

theorem splitNl_ne_nil (s : List Char) : splitNl s ≠ [] := by
  cases s with
  | nil => simp [splitNl]
  | cons c rest =>
    rw [splitNl]
    split
    · simp
    · split <;> simp

theorem splitNl_cons_of_ne (c : Char) (rest : List Char) (hc : c ≠ '\n') :
    splitNl (c :: rest) = (c :: (splitNl rest).headD []) :: (splitNl rest).tail := by
  rw [splitNl, if_neg hc]
  cases h : splitNl rest with
  | nil => exact absurd h (splitNl_ne_nil rest)
  | cons line lines => rfl

theorem splitNl_of_no_nl (s : List Char) (h : '\n' ∉ s) : splitNl s = [s] := by
  induction s with
  | nil => rfl
  | cons c rest ih =>
    have hc : c ≠ '\n' := fun e => h (by rw [e]; exact List.mem_cons_self _ _)
    have hr : '\n' ∉ rest := fun e => h (List.mem_cons_of_mem _ e)
    rw [splitNl_cons_of_ne c rest hc, ih hr]
    rfl

theorem splitNl_append_nl (a b : List Char) :
    splitNl (a ++ '\n' :: b) = splitNl a ++ splitNl b := by
  induction a with
  | nil => simp [splitNl]
  | cons c rest ih =>
    by_cases hc : c = '\n'
    · subst hc
      rw [List.cons_append, splitNl, if_pos rfl, ih, splitNl, if_pos rfl]
      rfl
    · rw [List.cons_append, splitNl_cons_of_ne c _ hc, splitNl_cons_of_ne c rest hc, ih]
      cases h : splitNl rest with
      | nil => exact absurd h (splitNl_ne_nil rest)
      | cons line lines => rfl

theorem splitNl_append_of_no_nl (p t : List Char) (h : '\n' ∉ p) :
    splitNl (p ++ t) = (p ++ (splitNl t).headD []) :: (splitNl t).tail := by
  induction p with
  | nil =>
    cases ht : splitNl t with
    | nil => exact absurd ht (splitNl_ne_nil t)
    | cons line lines => simp [ht]
  | cons c rest ih =>
    have hc : c ≠ '\n' := fun e => h (by rw [e]; exact List.mem_cons_self _ _)
    have hr : '\n' ∉ rest := fun e => h (List.mem_cons_of_mem _ e)
    rw [List.cons_append, splitNl_cons_of_ne c _ hc, ih hr]
    rfl

theorem getlines_cons_of_ne (c : Char) (rest : List Char) (hc : c ≠ '\n') :
    getlines (c :: rest) =
      match getlines rest with
      | [] => [[c]]
      | line :: lines => (c :: line) :: lines := by
  rw [getlines, if_neg hc]

/-- The lines of a text that continues after a newline. -/
theorem getlines_append_nl (t rest : List Char) :
    getlines (t ++ '\n' :: rest) = splitNl t ++ getlines rest := by
  induction t with
  | nil => simp [getlines, splitNl]
  | cons c t ih =>
    by_cases hc : c = '\n'
    · subst hc
      rw [List.cons_append, getlines, if_pos rfl, ih, splitNl, if_pos rfl]
      rfl
    · rw [List.cons_append, getlines_cons_of_ne c _ hc, ih, splitNl_cons_of_ne c t hc]
      cases h : splitNl t with
      | nil => exact absurd h (splitNl_ne_nil t)
      | cons line lines => rfl

/-- No line read by `getline` holds a newline character. -/
theorem getlines_no_nl (s : List Char) : ∀ line ∈ getlines s, '\n' ∉ line := by
  induction s with
  | nil => intro line h; simp [getlines] at h
  | cons c rest ih =>
    intro line h
    by_cases hc : c = '\n'
    · subst hc
      simp only [getlines, if_true, List.mem_cons] at h
      rcases h with h | h
      · rw [h]; simp
      · exact ih line h
    · rw [getlines_cons_of_ne c rest hc] at h
      cases hg : getlines rest with
      | nil =>
        rw [hg] at h
        simp only [List.mem_singleton] at h
        rw [h]
        simpa using Ne.symm hc
      | cons l ls =>
        rw [hg] at h ih
        simp only [List.mem_cons] at h
        rcases h with h | h
        · rw [h]
          have := ih l (List.mem_cons_self _ _)
          simp only [List.mem_cons, not_or]
          exact ⟨Ne.symm hc, this⟩
        · exact ih line (List.mem_cons_of_mem _ h)

end OmniDiff

namespace OmniDiff

/-! ### The table -/

theorem lcs_nil_left (ys : List (List Char)) : lcs [] ys = 0 := by
  rw [lcs]

theorem lcs_nil_right (xs : List (List Char)) : lcs xs [] = 0 := by
  cases xs with
  | nil => rw [lcs]
  | cons a as => rw [lcs]

theorem lcs_cons_cons (a b : List Char) (as bs : List (List Char)) :
    lcs (a :: as) (b :: bs) =
      if a = b then lcs as bs + 1 else max (lcs as (b :: bs)) (lcs (a :: as) bs) := by
  rw [lcs]

/-- No common subsequence is longer than `lcs`. -/
theorem lcs_upper : ∀ (xs ys s : List (List Char)),
    List.Sublist s xs → List.Sublist s ys → s.length ≤ lcs xs ys := by
  intro xs
  induction xs with
  | nil =>
    intro ys s h1 _
    rw [List.sublist_nil.1 h1]
    exact Nat.zero_le _
  | cons a as iho =>
    intro ys
    induction ys with
    | nil =>
      intro s _ h2
      rw [List.sublist_nil.1 h2]
      exact Nat.zero_le _
    | cons b bs ihi =>
      intro s h1 h2
      rw [lcs_cons_cons]
      cases s with
      | nil => exact Nat.zero_le _
      | cons c s1 =>
        by_cases hab : a = b
        · rw [if_pos hab]
          have t1 : List.Sublist s1 as := by
            cases h1 with
            | cons _ h => exact (List.sublist_cons_self c s1).trans h
            | cons₂ _ h => exact h
          have t2 : List.Sublist s1 bs := by
            cases h2 with
            | cons _ h => exact (List.sublist_cons_self c s1).trans h
            | cons₂ _ h => exact h
          have := iho bs s1 t1 t2
          simp only [List.length_cons]
          omega
        · rw [if_neg hab]
          cases h1 with
          | cons _ h =>
            have := iho (b :: bs) _ h h2
            exact Nat.le_trans this (Nat.le_max_left _ _)
          | cons₂ _ h =>
            cases h2 with
            | cons _ h' =>
              have := ihi _ (List.Sublist.cons₂ _ h) h'
              exact Nat.le_trans this (Nat.le_max_right _ _)
            | cons₂ _ h' => exact absurd rfl hab

theorem chain_eq_cons {β γ : Type} (h : List β → γ) (acc rest : List β) :
    chain h acc rest = h acc :: (chain h acc rest).tail := by
  cases rest <;> rfl

theorem chain_length {β γ : Type} (h : List β → γ) :
    ∀ (rest acc : List β), (chain h acc rest).length = rest.length + 1 := by
  intro rest
  induction rest with
  | nil => intro acc; rfl
  | cons b rest ih => intro acc; simp only [chain, List.length_cons, ih]

/-- The entry `k` of a chain is the value at the `k` first elements. -/
theorem chain_getElem {β γ : Type} (h : List β → γ) :
    ∀ (rest acc : List β) (k : Nat), k ≤ rest.length →
      (chain h acc rest)[k]? = some (h ((rest.take k).reverse ++ acc)) := by
  intro rest
  induction rest with
  | nil =>
    intro acc k hk
    have : k = 0 := by simpa using hk
    subst this
    rfl
  | cons b rest ih =>
    intro acc k hk
    cases k with
    | zero => simp [chain]
    | succ k =>
      have hk2 : k ≤ rest.length := by simpa using hk
      simp only [chain, List.getElem?_cons_succ, ih (b :: acc) k hk2, List.take_succ_cons,
        List.reverse_cons, List.append_assoc, List.singleton_append]

/-- One pass of the inner loop computes the next row of `lcs` values. -/
theorem fillRow_eq (a : List Char) (xs : List (List Char)) :
    ∀ (rest ys : List (List Char)),
      fillRow a rest (chain (lcs xs) ys rest).tail (lcs xs ys) (lcs (a :: xs) ys)
        = (chain (lcs (a :: xs)) ys rest).tail := by
  intro rest
  induction rest with
  | nil => intro ys; rfl
  | cons b rest ih =>
    intro ys
    have hup : (chain (lcs xs) ys (b :: rest)).tail
        = lcs xs (b :: ys) :: (chain (lcs xs) (b :: ys) rest).tail := by
      show chain (lcs xs) (b :: ys) rest = _
      exact chain_eq_cons _ _ _
    have hnew : (chain (lcs (a :: xs)) ys (b :: rest)).tail
        = lcs (a :: xs) (b :: ys) :: (chain (lcs (a :: xs)) (b :: ys) rest).tail := by
      show chain (lcs (a :: xs)) (b :: ys) rest = _
      exact chain_eq_cons _ _ _
    rw [hup, hnew, fillRow]
    simp only [List.headD_cons, List.tail_cons]
    have hv : (if a = b then lcs xs ys + 1 else max (lcs xs (b :: ys)) (lcs (a :: xs) ys))
        = lcs (a :: xs) (b :: ys) := (lcs_cons_cons a b xs ys).symm
    rw [hv, ih (b :: ys)]

theorem nextRow_eq (a : List Char) (xs newLines : List (List Char)) :
    nextRow a newLines (chain (lcs xs) [] newLines) = chain (lcs (a :: xs)) [] newLines := by
  unfold nextRow
  rw [chain_eq_cons (lcs (a :: xs)) [] newLines, lcs_nil_right (a :: xs)]
  have h0 : (chain (lcs xs) [] newLines).headD 0 = lcs xs [] := by
    rw [chain_eq_cons]; rfl
  rw [h0]
  have := fillRow_eq a xs newLines []
  rw [lcs_nil_right (a :: xs)] at this
  rw [this]

theorem chain_lcs_nil (newLines : List (List Char)) :
    ∀ acc, chain (lcs []) acc newLines = List.replicate (newLines.length + 1) 0 := by
  induction newLines with
  | nil => intro acc; simp [chain, lcs_nil_left]
  | cons b rest ih =>
    intro acc
    simp only [chain, ih, lcs_nil_left, List.length_cons, List.replicate_succ]

theorem lcsRows_eq (newLines : List (List Char)) :
    ∀ (rest xs : List (List Char)),
      lcsRows rest newLines (chain (lcs xs) [] newLines)
        = chain (fun zs => chain (lcs zs) [] newLines) xs rest := by
  intro rest
  induction rest with
  | nil => intro xs; rfl
  | cons o rest ih =>
    intro xs
    simp only [lcsRows, chain, nextRow_eq, ih]

theorem lcsTable_eq (oldLines newLines : List (List Char)) :
    lcsTable oldLines newLines
      = chain (fun zs => chain (lcs zs) [] newLines) [] oldLines := by
  unfold lcsTable
  rw [← chain_lcs_nil newLines [], lcsRows_eq]

/-- Every entry of the table is in range and is the `lcs` value of the
two reversed beginnings. -/
theorem dpAt_lcsTable (oldLines newLines : List (List Char)) (i j : Nat)
    (hi : i ≤ oldLines.length) (hj : j ≤ newLines.length) :
    dpAt (lcsTable oldLines newLines) i j
      = some (lcs (oldLines.take i).reverse (newLines.take j).reverse) := by
  unfold dpAt
  rw [lcsTable_eq, chain_getElem _ oldLines [] i hi]
  simp only [List.append_nil]
  rw [chain_getElem _ newLines [] j hj, List.append_nil]

end OmniDiff

namespace OmniDiff

/-! ### The backtracking loop -/

theorem take_reverse_pred {α : Type} (l : List α) (i : Nat) (h0 : 0 < i) (hi : i ≤ l.length) :
    ∃ a, l[i - 1]? = some a ∧ a ∈ l ∧ (l.take i).reverse = a :: (l.take (i - 1)).reverse := by
  obtain ⟨k, rfl⟩ : ∃ k, i = k + 1 := ⟨i - 1, by omega⟩
  have hk : k < l.length := by omega
  refine ⟨l[k], ?_, List.getElem_mem _, ?_⟩
  · simp only [Nat.add_sub_cancel]
    exact List.getElem?_eq_getElem hk
  · simp only [Nat.add_sub_cancel]
    rw [List.take_succ, List.getElem?_eq_getElem hk]
    simp

theorem lineTexts_cons (keep : DiffType → Bool) (op : DiffOp) (ops : List DiffOp) :
    lineTexts keep (op :: ops)
      = if keep op.type then op.text :: lineTexts keep ops else lineTexts keep ops := by
  unfold lineTexts
  rw [List.filter_cons]
  split <;> rfl

theorem lineTexts_append (keep : DiffType → Bool) (a b : List DiffOp) :
    lineTexts keep (a ++ b) = lineTexts keep a ++ lineTexts keep b := by
  unfold lineTexts
  rw [List.filter_append, List.map_append]

theorem lineTexts_reverse (keep : DiffType → Bool) (a : List DiffOp) :
    lineTexts keep a.reverse = (lineTexts keep a).reverse := by
  unfold lineTexts
  rw [List.filter_reverse, List.map_reverse]

/-- One iteration of the backtracking loop: exactly one operation is
appended, all reads are in range, and `i + j` decreases. -/
theorem backtrackStep_spec (oldLines newLines : List (List Char)) (i j : Nat)
    (reversed : List DiffOp) (hi : i ≤ oldLines.length) (hj : j ≤ newLines.length)
    (hpos : 0 < i ∨ 0 < j) :
    ∃ i1 j1 op,
      backtrackStep oldLines newLines (lcsTable oldLines newLines) i j reversed
        = .ok (i1, j1, reversed ++ [op]) ∧
      (op.text ∈ oldLines ∨ op.text ∈ newLines) ∧
      ((op.type = .EQUAL ∧ i1 + 1 = i ∧ j1 + 1 = j ∧
          (oldLines.take i).reverse = op.text :: (oldLines.take i1).reverse ∧
          (newLines.take j).reverse = op.text :: (newLines.take j1).reverse ∧
          lcs (oldLines.take i).reverse (newLines.take j).reverse
            = lcs (oldLines.take i1).reverse (newLines.take j1).reverse + 1) ∨
       (op.type = .INSERT ∧ i1 = i ∧ j1 + 1 = j ∧
          (newLines.take j).reverse = op.text :: (newLines.take j1).reverse ∧
          lcs (oldLines.take i).reverse (newLines.take j).reverse
            = lcs (oldLines.take i1).reverse (newLines.take j1).reverse) ∨
       (op.type = .DELETE ∧ i1 + 1 = i ∧ j1 = j ∧
          (oldLines.take i).reverse = op.text :: (oldLines.take i1).reverse ∧
          lcs (oldLines.take i).reverse (newLines.take j).reverse
            = lcs (oldLines.take i1).reverse (newLines.take j1).reverse)) := by
  by_cases hi0 : i = 0
  · -- only new lines are left
    subst hi0
    have hj0 : 0 < j := by omega
    obtain ⟨b, hb, hbm, hbr⟩ := take_reverse_pred newLines j hj0 hj
    refine ⟨0, j - 1, ⟨.INSERT, b⟩, ?_, Or.inr hbm, Or.inr (Or.inl ⟨rfl, rfl, by omega, hbr, ?_⟩)⟩
    · simp only [backtrackStep, linesMatch, takesInsert, hj0, hb, Nat.lt_irrefl, false_and,
        if_false, if_true]
    · simp only [List.take_zero, List.reverse_nil, lcs_nil_left]
  · have hi1 : 0 < i := Nat.pos_of_ne_zero hi0
    obtain ⟨a, ha, ham, har⟩ := take_reverse_pred oldLines i hi1 hi
    by_cases hj0 : j = 0
    · -- only old lines are left
      subst hj0
      refine ⟨i - 1, 0, ⟨.DELETE, a⟩, ?_, Or.inl ham,
        Or.inr (Or.inr ⟨rfl, by omega, rfl, har, ?_⟩)⟩
      · simp only [backtrackStep, linesMatch, takesInsert, takesDelete, hi1, ha, Nat.lt_irrefl,
          and_false, if_false, if_true]
      · simp only [List.take_zero, List.reverse_nil, lcs_nil_right]
    · have hj1 : 0 < j := Nat.pos_of_ne_zero hj0
      obtain ⟨b, hb, hbm, hbr⟩ := take_reverse_pred newLines j hj1 hj
      have hd1 := dpAt_lcsTable oldLines newLines i (j - 1) hi (by omega)
      have hd2 := dpAt_lcsTable oldLines newLines (i - 1) j (by omega) hj
      have hl : lcs (oldLines.take i).reverse (newLines.take j).reverse
          = if a = b then lcs (oldLines.take (i - 1)).reverse (newLines.take (j - 1)).reverse + 1
            else max (lcs (oldLines.take (i - 1)).reverse (newLines.take j).reverse)
              (lcs (oldLines.take i).reverse (newLines.take (j - 1)).reverse) := by
        rw [har, hbr, lcs_cons_cons, ← har, ← hbr]
      by_cases hab : a = b
      · refine ⟨i - 1, j - 1, ⟨.EQUAL, a⟩, ?_, Or.inl ham,
          Or.inl ⟨rfl, by omega, by omega, har, ?_, ?_⟩⟩
        · simp only [backtrackStep, linesMatch, hi1, hj1, ha, hb, hab, and_self, if_true,
            decide_True]
        · rw [hbr, hab]
        · rw [hl, if_pos hab]
      · rw [if_neg hab] at hl
        by_cases hge : lcs (oldLines.take (i - 1)).reverse (newLines.take j).reverse
            ≤ lcs (oldLines.take i).reverse (newLines.take (j - 1)).reverse
        · refine ⟨i, j - 1, ⟨.INSERT, b⟩, ?_, Or.inr hbm,
            Or.inr (Or.inl ⟨rfl, rfl, by omega, hbr, ?_⟩)⟩
          · simp only [backtrackStep, linesMatch, takesInsert, hi1, hj1, ha, hb, hab, hi0, hd1,
              hd2, hge, and_self, if_true, if_false, decide_True, decide_False]
          · rw [hl]; exact Nat.max_eq_right hge
        · refine ⟨i - 1, j, ⟨.DELETE, a⟩, ?_, Or.inl ham,
            Or.inr (Or.inr ⟨rfl, by omega, rfl, har, ?_⟩)⟩
          · have hlt : lcs (oldLines.take i).reverse (newLines.take (j - 1)).reverse
                < lcs (oldLines.take (i - 1)).reverse (newLines.take j).reverse := by omega
            simp only [backtrackStep, linesMatch, takesInsert, takesDelete, hi1, hj1, ha, hb, hab,
              hi0, hj0, hd1, hd2, hge, hlt, and_self, if_true, if_false, decide_True,
              decide_False]
          · rw [hl]; exact Nat.max_eq_left (by omega)

/-- The backtracking loop ends within `i + j` iterations; the operations
it appends carry the old lines, the new lines and as many matched pairs as
the table says, last line first. -/
theorem backtrack_spec (oldLines newLines : List (List Char)) :
    ∀ (fuel i j : Nat) (reversed : List DiffOp),
      i ≤ oldLines.length → j ≤ newLines.length → i + j ≤ fuel →
      ∃ ops, backtrack oldLines newLines (lcsTable oldLines newLines) fuel i j reversed
          = .ok (reversed ++ ops) ∧
        lineTexts inOld ops = (oldLines.take i).reverse ∧
        lineTexts inNew ops = (newLines.take j).reverse ∧
        (lineTexts isEqual ops).length
          = lcs (oldLines.take i).reverse (newLines.take j).reverse ∧
        (∀ op ∈ ops, op.text ∈ oldLines ∨ op.text ∈ newLines) := by
  intro fuel
  induction fuel with
  | zero =>
    intro i j reversed _ _ hf
    have hi0 : i = 0 := by omega
    have hj0 : j = 0 := by omega
    subst hi0; subst hj0
    refine ⟨[], ?_, rfl, rfl, ?_, fun op h => absurd h (List.not_mem_nil _)⟩
    · simp [backtrack]
    · simp [lineTexts, lcs_nil_left]
  | succ fuel ih =>
    intro i j reversed hi hj hf
    by_cases hpos : 0 < i ∨ 0 < j
    · obtain ⟨i1, j1, op, hstep, hmem, hcase⟩ :=
        backtrackStep_spec oldLines newLines i j reversed hi hj hpos
      have hi1 : i1 ≤ oldLines.length := by rcases hcase with h | h | h <;> omega
      have hj1 : j1 ≤ newLines.length := by rcases hcase with h | h | h <;> omega
      have hf1 : i1 + j1 ≤ fuel := by rcases hcase with h | h | h <;> omega
      obtain ⟨ops, hb, h1, h2, h3, h4⟩ := ih i1 j1 (reversed ++ [op]) hi1 hj1 hf1
      refine ⟨op :: ops, ?_, ?_, ?_, ?_, ?_⟩
      · rw [backtrack, if_pos hpos, hstep]
        simp only [hb, List.append_assoc, List.singleton_append]
      · rw [lineTexts_cons, h1]
        rcases hcase with ⟨ht, _, _, hx, _, _⟩ | ⟨ht, hii, _, _, _⟩ | ⟨ht, _, _, hx, _⟩
        · rw [ht, hx]; rfl
        · rw [ht, hii]; rfl
        · rw [ht, hx]; rfl
      · rw [lineTexts_cons, h2]
        rcases hcase with ⟨ht, _, _, _, hy, _⟩ | ⟨ht, _, _, hy, _⟩ | ⟨ht, _, hjj, _, _⟩
        · rw [ht, hy]; rfl
        · rw [ht, hy]; rfl
        · rw [ht, hjj]; rfl
      · rw [lineTexts_cons]
        rcases hcase with ⟨ht, _, _, _, _, hl⟩ | ⟨ht, _, _, _, hl⟩ | ⟨ht, _, _, _, hl⟩
        · rw [ht, hl]
          simp only [isEqual, if_true, List.length_cons, h3]
        · rw [ht, hl]
          simp only [isEqual, Bool.false_eq_true, if_false, h3]
        · rw [ht, hl]
          simp only [isEqual, Bool.false_eq_true, if_false, h3]
      · intro o ho
        rcases List.mem_cons.1 ho with h | h
        · rw [h]; exact hmem
        · exact h4 o h
    · have hi0 : i = 0 := by omega
      have hj0 : j = 0 := by omega
      subst hi0; subst hj0
      refine ⟨[], ?_, rfl, rfl, ?_, fun op h => absurd h (List.not_mem_nil _)⟩
      · simp [backtrack]
      · simp [lineTexts, lcs_nil_left]

end OmniDiff

namespace OmniDiff

/-! ### Merging and rendering -/

theorem unmerge_append (a b : List DiffOp) : unmerge (a ++ b) = unmerge a ++ unmerge b := by
  induction a with
  | nil => rfl
  | cons op rest ih =>
    rw [List.cons_append, unmerge, ih, unmerge, List.append_assoc]

theorem unmerge_single (op : DiffOp) (h : '\n' ∉ op.text) : unmerge [op] = [op] := by
  rw [unmerge, splitNl_of_no_nl op.text h]
  rfl

/-- Splitting the texts back into lines undoes one step of the merge. -/
theorem unmerge_mergeOp (result : List DiffOp) (op : DiffOp) (h : '\n' ∉ op.text) :
    unmerge (mergeOp result op) = unmerge result ++ [op] := by
  rcases List.eq_nil_or_concat result with hr | ⟨init, back, hr⟩
  · subst hr
    show unmerge ([] ++ [op]) = unmerge [] ++ [op]
    rw [List.nil_append, unmerge_single op h]
    rfl
  · rw [List.concat_eq_append] at hr
    subst hr
    have hl : (init ++ [back]).getLast? = some back := by simp
    unfold mergeOp
    rw [hl]
    simp only [List.dropLast_concat]
    split
    · rw [unmerge_append, unmerge_single op h]
    · rename_i hty
      have hty2 : back.type = op.type := by simpa using hty
      rw [unmerge_append, unmerge_append]
      simp only [unmerge, splitNl_append_nl, splitNl_of_no_nl op.text h, List.map_append,
        List.map_cons, List.map_nil, List.append_nil, List.append_assoc, hty2]

theorem unmerge_foldl : ∀ (ops result : List DiffOp), (∀ op ∈ ops, '\n' ∉ op.text) →
    unmerge (ops.foldl mergeOp result) = unmerge result ++ ops := by
  intro ops
  induction ops with
  | nil => intro result _; simp
  | cons op rest ih =>
    intro result h
    rw [List.foldl_cons, ih _ (fun o ho => h o (List.mem_cons_of_mem _ ho)),
      unmerge_mergeOp result op (h op (List.mem_cons_self _ _))]
    simp

theorem sideLines_eq (keep : DiffType → Bool) :
    ∀ ops : List DiffOp, sideLines keep ops = lineTexts keep (unmerge ops) := by
  intro ops
  induction ops with
  | nil => rfl
  | cons op rest ih =>
    rw [sideLines, unmerge, lineTexts_append, ← ih]
    have : lineTexts keep ((splitNl op.text).map (fun line => (⟨op.type, line⟩ : DiffOp)))
        = if keep op.type then splitNl op.text else [] := by
      unfold lineTexts
      by_cases hk : keep op.type = true
      · rw [if_pos hk, List.filter_eq_self.2 (by
          intro o ho
          obtain ⟨l, _, rfl⟩ := List.mem_map.1 ho
          simpa using hk)]
        rw [List.map_map]
        exact List.map_id _
      · rw [if_neg hk, List.filter_eq_nil_iff.2 (by
          intro o ho
          obtain ⟨l, _, rfl⟩ := List.mem_map.1 ho
          simpa using hk)]
        rfl
    rw [this]
    split <;> simp

/-- The text written for a list of operations. -/
theorem diffToString_cons (op : DiffOp) (rest : List DiffOp) :
    diffToString (op :: rest) = (marker op.type ++ op.text) ++ '\n' :: diffToString rest := by
  have key : ∀ (ops : List DiffOp) (acc : List Char),
      ops.foldl (fun output o => output ++ marker o.type ++ o.text ++ ['\n']) acc
        = acc ++ ops.foldl (fun output o => output ++ marker o.type ++ o.text ++ ['\n']) [] := by
    intro ops
    induction ops with
    | nil => intro acc; simp
    | cons o os ih =>
      intro acc
      rw [List.foldl_cons, ih, List.foldl_cons, ih ([] ++ marker o.type ++ o.text ++ ['\n'])]
      simp
  unfold diffToString
  rw [List.foldl_cons, key]
  simp

theorem marker_no_nl (t : DiffType) : '\n' ∉ marker t := by
  cases t <;> decide

/-- The lines of the written text: the marker stands in front of the first
line of every operation only. -/
theorem getlines_diffToString : ∀ diffs : List DiffOp,
    getlines (diffToString diffs) = markedLines diffs := by
  intro diffs
  induction diffs with
  | nil => rfl
  | cons op rest ih =>
    rw [diffToString_cons, getlines_append_nl, ih, markedLines,
      splitNl_append_of_no_nl _ _ (marker_no_nl op.type)]
    cases h : splitNl op.text with
    | nil => exact absurd h (splitNl_ne_nil _)
    | cons first more => rfl

theorem markedLines_of_no_nl : ∀ diffs : List DiffOp, (∀ op ∈ diffs, '\n' ∉ op.text) →
    ∀ line ∈ markedLines diffs, ∃ t rest, line = marker t ++ rest := by
  intro diffs
  induction diffs with
  | nil => intro _ line h; simp [markedLines] at h
  | cons op rest ih =>
    intro hno line h
    rw [markedLines, splitNl_of_no_nl _ (hno op (List.mem_cons_self _ _))] at h
    simp only [List.singleton_append, List.mem_cons] at h
    rcases h with h | h
    · exact ⟨op.type, op.text, h⟩
    · exact ih (fun o ho => hno o (List.mem_cons_of_mem _ ho)) line h

/-! ### The result of `computeDiff` -/

/-- The function `computeDiff` returns for all texts; the operations split
back into lines are the operations found by the backtracking loop, in the
order of the texts. -/
theorem computeDiff_spec (oldText newText : List Char) :
    ∃ ops, computeDiff oldText newText = .ok ops ∧
      lineTexts inOld (unmerge ops) = getlines oldText ∧
      lineTexts inNew (unmerge ops) = getlines newText ∧
      (lineTexts isEqual (unmerge ops)).length
        = lcs (getlines oldText).reverse (getlines newText).reverse := by
  obtain ⟨rev, hb, h1, h2, h3, h4⟩ := backtrack_spec (getlines oldText) (getlines newText)
    ((getlines oldText).length + (getlines newText).length)
    (getlines oldText).length (getlines newText).length [] (Nat.le_refl _) (Nat.le_refl _)
    (Nat.le_refl _)
  rw [List.nil_append] at hb
  simp only [List.take_length] at h1 h2 h3
  have hno : ∀ op ∈ rev.reverse, '\n' ∉ op.text := by
    intro op hop
    rcases h4 op (List.mem_reverse.1 hop) with h | h
    · exact getlines_no_nl oldText _ h
    · exact getlines_no_nl newText _ h
  have hun : unmerge (rev.reverse.foldl mergeOp []) = rev.reverse := by
    rw [unmerge_foldl _ _ hno]; rfl
  refine ⟨rev.reverse.foldl mergeOp [], ?_, ?_, ?_, ?_⟩
  · unfold computeDiff
    simp only [hb]
  · rw [hun, lineTexts_reverse, h1, List.reverse_reverse]
  · rw [hun, lineTexts_reverse, h2, List.reverse_reverse]
  · rw [hun, lineTexts_reverse, List.length_reverse, h3]

theorem lineTexts_sublist (p q : DiffType → Bool) (hpq : ∀ t, p t = true → q t = true)
    (ops : List DiffOp) : List.Sublist (lineTexts p ops) (lineTexts q ops) := by
  unfold lineTexts
  apply List.Sublist.map
  induction ops with
  | nil => exact List.Sublist.slnil
  | cons op rest ih =>
    rw [List.filter_cons, List.filter_cons]
    by_cases hp : p op.type = true
    · rw [if_pos hp, if_pos (hpq _ hp)]
      exact List.Sublist.cons₂ _ ih
    · rw [if_neg hp]
      split
      · exact List.Sublist.cons _ ih
      · exact ih

theorem isEqual_inOld (t : DiffType) (h : isEqual t = true) : inOld t = true := by
  cases t <;> simp_all [isEqual, inOld]

theorem isEqual_inNew (t : DiffType) (h : isEqual t = true) : inNew t = true := by
  cases t <;> simp_all [isEqual, inNew]

/-- Every line operation is counted once on each side it belongs to. -/
theorem lineTexts_count (ops : List DiffOp) :
    (lineTexts inOld ops).length + (lineTexts inNew ops).length
      = 2 * (lineTexts isEqual ops).length + (lineTexts isChange ops).length := by
  induction ops with
  | nil => rfl
  | cons op rest ih =>
    simp only [lineTexts_cons]
    cases h : op.type <;>
      simp only [inOld, inNew, isEqual, isChange, if_true, Bool.false_eq_true, if_false,
        List.length_cons] <;> omega

end OmniDiff

namespace OmniDiff

theorem length_eq_equal_add_change (ops : List DiffOp) :
    ops.length = (lineTexts isEqual ops).length + (lineTexts isChange ops).length := by
  induction ops with
  | nil => rfl
  | cons op rest ih =>
    simp only [lineTexts_cons, List.length_cons]
    cases h : op.type <;>
      simp only [isEqual, isChange, if_true, Bool.false_eq_true, if_false,
        List.length_cons] <;> omega

/-- C22. For all texts the list returned by `computeDiff` is a valid edit
script: with the texts of the operations split back into lines, the lines
of the `EQUAL` and `DELETE` operations, in order, are the lines of the old
text, and the lines of the `EQUAL` and `INSERT` operations are the lines of
the new text. -/
theorem diff_is_edit_script (oldText newText : List Char) :
    ∃ ops, computeDiff oldText newText = .ok ops ∧
      sideLines inOld ops = getlines oldText ∧
      sideLines inNew ops = getlines newText := by
  obtain ⟨ops, h, h1, h2, _⟩ := computeDiff_spec oldText newText
  exact ⟨ops, h, (sideLines_eq inOld ops).trans h1, (sideLines_eq inNew ops).trans h2⟩

/-- C23. For all texts the lines of the `EQUAL` operations are a common
subsequence of the old and the new lines, as long as any common
subsequence, and their number is the table entry `dp[m][n]`; when the two
texts have the same lines there are only `EQUAL` lines; and no edit script
for the two texts has fewer inserted and deleted lines. -/
theorem equal_lines_are_lcs (oldText newText : List Char) :
    ∃ ops, computeDiff oldText newText = .ok ops ∧
      List.Sublist (sideLines isEqual ops) (getlines oldText) ∧
      List.Sublist (sideLines isEqual ops) (getlines newText) ∧
      (∀ t, List.Sublist t (getlines oldText) → List.Sublist t (getlines newText) →
        t.length ≤ (sideLines isEqual ops).length) ∧
      dpAt (lcsTable (getlines oldText) (getlines newText))
        (getlines oldText).length (getlines newText).length
          = some (sideLines isEqual ops).length ∧
      (getlines oldText = getlines newText →
        sideLines isEqual ops = getlines oldText ∧ sideLines isChange ops = []) ∧
      (∀ script : List DiffOp,
        lineTexts inOld script = getlines oldText →
        lineTexts inNew script = getlines newText →
        (sideLines isChange ops).length ≤ (lineTexts isChange script).length) := by
  obtain ⟨ops, h, h1, h2, h3⟩ := computeDiff_spec oldText newText
  have hcount := lineTexts_count (unmerge ops)
  rw [h1, h2] at hcount
  have hsub1 : List.Sublist (sideLines isEqual ops) (getlines oldText) := by
    rw [sideLines_eq, ← h1]
    exact lineTexts_sublist isEqual inOld isEqual_inOld _
  have hsub2 : List.Sublist (sideLines isEqual ops) (getlines newText) := by
    rw [sideLines_eq, ← h2]
    exact lineTexts_sublist isEqual inNew isEqual_inNew _
  have hupper : ∀ t, List.Sublist t (getlines oldText) → List.Sublist t (getlines newText) →
      t.length ≤ (sideLines isEqual ops).length := by
    intro t t1 t2
    rw [sideLines_eq, h3, ← List.length_reverse t]
    exact lcs_upper _ _ _ (List.reverse_sublist.2 t1) (List.reverse_sublist.2 t2)
  refine ⟨ops, h, hsub1, hsub2, hupper, ?_, ?_, ?_⟩
  · have := dpAt_lcsTable (getlines oldText) (getlines newText) (getlines oldText).length
      (getlines newText).length (Nat.le_refl _) (Nat.le_refl _)
    simp only [List.take_length] at this
    rw [this, sideLines_eq, h3]
  · intro hsame
    have hlen := hupper (getlines oldText) (List.Sublist.refl _) (hsame ▸ List.Sublist.refl _)
    have heq : sideLines isEqual ops = getlines oldText := hsub1.eq_of_length_le hlen
    refine ⟨heq, ?_⟩
    have h4 : (sideLines isEqual ops).length = (getlines oldText).length := by rw [heq]
    rw [sideLines_eq] at h4
    rw [sideLines_eq, ← List.length_eq_zero]
    rw [← hsame] at hcount
    omega
  · intro script s1 s2
    have e1 : List.Sublist (lineTexts isEqual script) (getlines oldText) := by
      rw [← s1]; exact lineTexts_sublist isEqual inOld isEqual_inOld _
    have e2 : List.Sublist (lineTexts isEqual script) (getlines newText) := by
      rw [← s2]; exact lineTexts_sublist isEqual inNew isEqual_inNew _
    have hle := hupper _ e1 e2
    have hc2 := lineTexts_count script
    rw [s1, s2] at hc2
    rw [sideLines_eq] at hle ⊢
    omega

/-- Instance of C23: the diff of `a b c` against `b c d` keeps the two
lines `b`, `c`. -/
theorem equal_lines_are_lcs_witness :
    ∃ ops, computeDiff "a\nb\nc".toList "b\nc\nd".toList = .ok ops ∧
      List.Sublist (sideLines isEqual ops) (getlines "a\nb\nc".toList) ∧
      List.Sublist (sideLines isEqual ops) (getlines "b\nc\nd".toList) ∧
      (∀ t, List.Sublist t (getlines "a\nb\nc".toList) →
        List.Sublist t (getlines "b\nc\nd".toList) →
        t.length ≤ (sideLines isEqual ops).length) ∧
      dpAt (lcsTable (getlines "a\nb\nc".toList) (getlines "b\nc\nd".toList))
        (getlines "a\nb\nc".toList).length (getlines "b\nc\nd".toList).length
          = some (sideLines isEqual ops).length ∧
      (getlines "a\nb\nc".toList = getlines "b\nc\nd".toList →
        sideLines isEqual ops = getlines "a\nb\nc".toList ∧ sideLines isChange ops = []) ∧
      (∀ script : List DiffOp,
        lineTexts inOld script = getlines "a\nb\nc".toList →
        lineTexts inNew script = getlines "b\nc\nd".toList →
        (sideLines isChange ops).length ≤ (lineTexts isChange script).length) :=
  equal_lines_are_lcs "a\nb\nc".toList "b\nc\nd".toList

/-- C30. In every iteration of the backtracking loop with `i > 0` or
`j > 0` one branch fires: all reads are in range, one operation is appended
and `i + j` decreases by one or two. For all line lists the loop ends
within `m + n` iterations, whatever larger bound is given, and its
operations carry every old line and every new line once, last line first:
one operation for a matched pair, one for an old-only line, one for a
new-only line. -/
theorem backtrack_terminates (oldLines newLines : List (List Char)) :
    (∀ (i j : Nat) (reversed : List DiffOp),
      i ≤ oldLines.length → j ≤ newLines.length → 0 < i ∨ 0 < j →
      ∃ i1 j1 op,
        backtrackStep oldLines newLines (lcsTable oldLines newLines) i j reversed
          = .ok (i1, j1, reversed ++ [op]) ∧
        i1 + j1 < i + j ∧
        ((op.type = .EQUAL ∧ i1 + 1 = i ∧ j1 + 1 = j) ∨
         (op.type = .INSERT ∧ i1 = i ∧ j1 + 1 = j) ∨
         (op.type = .DELETE ∧ i1 + 1 = i ∧ j1 = j))) ∧
    (∀ fuel, oldLines.length + newLines.length ≤ fuel →
      ∃ ops,
        backtrack oldLines newLines (lcsTable oldLines newLines) fuel
          oldLines.length newLines.length [] = .ok ops ∧
        lineTexts inOld ops = oldLines.reverse ∧
        lineTexts inNew ops = newLines.reverse ∧
        ops.length + (lineTexts isEqual ops).length = oldLines.length + newLines.length) := by
  constructor
  · intro i j reversed hi hj hpos
    obtain ⟨i1, j1, op, h, _, hc⟩ := backtrackStep_spec oldLines newLines i j reversed hi hj hpos
    refine ⟨i1, j1, op, h, ?_, ?_⟩
    · rcases hc with c | c | c <;> omega
    · rcases hc with ⟨a, b, c, _⟩ | ⟨a, b, c, _⟩ | ⟨a, b, c, _⟩
      · exact Or.inl ⟨a, b, c⟩
      · exact Or.inr (Or.inl ⟨a, b, c⟩)
      · exact Or.inr (Or.inr ⟨a, b, c⟩)
  · intro fuel hf
    obtain ⟨ops, hb, h1, h2, _, _⟩ := backtrack_spec oldLines newLines fuel oldLines.length
      newLines.length [] (Nat.le_refl _) (Nat.le_refl _) hf
    rw [List.nil_append] at hb
    simp only [List.take_length] at h1 h2
    refine ⟨ops, hb, h1, h2, ?_⟩
    have hc := lineTexts_count ops
    rw [h1, h2, List.length_reverse, List.length_reverse] at hc
    have hl := length_eq_equal_add_change ops
    omega

/-- Instance of C30: the first iteration and the whole loop for the lines
`a`, `b` against `b`. -/
theorem backtrack_terminates_witness :
    (∃ i1 j1 op,
      backtrackStep ["a".toList, "b".toList] ["b".toList]
          (lcsTable ["a".toList, "b".toList] ["b".toList]) 2 1 []
        = .ok (i1, j1, [] ++ [op]) ∧
      i1 + j1 < 2 + 1 ∧
      ((op.type = .EQUAL ∧ i1 + 1 = 2 ∧ j1 + 1 = 1) ∨
       (op.type = .INSERT ∧ i1 = 2 ∧ j1 + 1 = 1) ∨
       (op.type = .DELETE ∧ i1 + 1 = 2 ∧ j1 = 1))) ∧
    ∃ ops,
      backtrack ["a".toList, "b".toList] ["b".toList]
          (lcsTable ["a".toList, "b".toList] ["b".toList]) 5 2 1 [] = .ok ops ∧
      lineTexts inOld ops = ["a".toList, "b".toList].reverse ∧
      lineTexts inNew ops = ["b".toList].reverse ∧
      ops.length + (lineTexts isEqual ops).length = 2 + 1 :=
  ⟨(backtrack_terminates ["a".toList, "b".toList] ["b".toList]).1 2 1 []
      (by decide) (by decide) (by decide),
   (backtrack_terminates ["a".toList, "b".toList] ["b".toList]).2 5 (by decide)⟩

/-- C21 (counterexample). The diff of the empty text against the two lines
`a`, `b` is one merged `INSERT` operation; the written text has the lines
`+ a` and `b`, and the line `b` begins with none of the three markers. -/
theorem merged_lines_lack_marker :
    computeDiff [] "a\nb".toList = .ok [⟨.INSERT, "a\nb".toList⟩] ∧
    diffToString [⟨.INSERT, "a\nb".toList⟩] = "+ a\nb\n".toList ∧
    getlines "+ a\nb\n".toList = ["+ a".toList, "b".toList] ∧
    ¬ ∃ t rest, "b".toList = marker t ++ rest := by
  refine ⟨by decide, by decide, by decide, ?_⟩
  rintro ⟨t, rest, h⟩
  cases t <;> simp [marker] at h

/-- C21 (as amended). The text written for the operations is, operation by
operation, the marker, the operation's text and a newline, so that of the
lines of an operation only the first one begins with the marker; this is
so for the list `computeDiff` returns for any two texts. When no
operation's text holds a newline, every line of the written text begins
with one of the three markers. -/
theorem diff_text_lines :
    (∀ oldText newText : List Char, ∃ ops, computeDiff oldText newText = .ok ops ∧
      getlines (diffToString ops) = markedLines ops) ∧
    (∀ (op : DiffOp) (rest : List DiffOp),
      diffToString (op :: rest) = (marker op.type ++ op.text) ++ '\n' :: diffToString rest) ∧
    (∀ diffs : List DiffOp, (∀ op ∈ diffs, '\n' ∉ op.text) →
      ∀ line ∈ getlines (diffToString diffs), ∃ t rest, line = marker t ++ rest) := by
  refine ⟨?_, diffToString_cons, ?_⟩
  · intro oldText newText
    obtain ⟨ops, h, _⟩ := computeDiff_spec oldText newText
    exact ⟨ops, h, getlines_diffToString ops⟩
  · intro diffs hno line hl
    rw [getlines_diffToString] at hl
    exact markedLines_of_no_nl diffs hno line hl

/-- Instance of C21 (as amended): a deleted line followed by an inserted
line. -/
theorem diff_text_lines_witness :
    ∀ line ∈ getlines (diffToString [⟨.DELETE, "a".toList⟩, ⟨.INSERT, "b".toList⟩]),
      ∃ t rest, line = marker t ++ rest :=
  diff_text_lines.2.2 [⟨.DELETE, "a".toList⟩, ⟨.INSERT, "b".toList⟩] (by decide)

end OmniDiff

/-! ## Further properties of the virtual machine -/

namespace OmniNative

namespace VirtualMachine

theorem stepSeq_noops (imm : Double) (str : List Byte) :
    ∀ (n : Nat) (vm : VirtualMachine),
      stepSeq (List.replicate n ⟨.NOOP, imm, str⟩) vm
        = .running { vm with ip := vm.ip + n, cycles := vm.cycles + n } := by
  intro n
  induction n with
  | zero => intro vm; rfl
  | succ n ih =>
    intro vm
    rw [List.replicate_succ, stepSeq]
    show stepSeq _ { vm with ip := vm.ip + 1, cycles := vm.cycles + 1 } = _
    rw [ih]
    simp only [Nat.add_assoc, Nat.add_comm 1 n]

theorem stepSeq_noops_halt (imm : Double) (str : List Byte) :
    ∀ (n : Nat) (vm : VirtualMachine),
      stepSeq (List.replicate n ⟨.NOOP, imm, str⟩ ++ [⟨.HALT, imm, str⟩]) vm
        = .halted { vm with ip := vm.ip + (n + 1), cycles := vm.cycles + (n + 1) } := by
  intro n
  induction n with
  | zero => intro vm; rfl
  | succ n ih =>
    intro vm
    rw [List.replicate_succ, List.cons_append, stepSeq]
    show stepSeq _ { vm with ip := vm.ip + 1, cycles := vm.cycles + 1 } = _
    rw [ih]
    simp only [Nat.add_assoc, Nat.add_comm 1 (n + 1)]

/-- A program of `n` `NOOP`s followed by `HALT`, run with a budget of
exactly `n + 1` cycles: the loop ends by the `HALT`. -/
theorem loop_noops_halt (n : Nat) (data : List Byte) (vm0 : VirtualMachine)
    (hip : vm0.ip = 0) (hcyc : vm0.cycles = 0) (hmax : vm0.maxCycles = n + 1) :
    loop ⟨List.replicate n ⟨.NOOP, Double.zero, []⟩ ++ [⟨.HALT, Double.zero, []⟩], data⟩
        (n + 1) vm0
      = .ok { vm0 with ip := n + 1, cycles := n + 1 } := by
  have hs := stepSeq_noops Double.zero [] n vm0
  have hb := loop_stepSeq
    ⟨List.replicate n ⟨.NOOP, Double.zero, []⟩ ++ [⟨.HALT, Double.zero, []⟩], data⟩
    (List.replicate n ⟨.NOOP, Double.zero, []⟩) [] [⟨.HALT, Double.zero, []⟩] vm0 _ 1
    (by simp)
    (by intro i hi; rw [List.eq_of_mem_replicate hi]; rfl)
    (by rw [hip]; rfl)
    (by rw [hcyc, hmax, List.length_replicate]; omega)
    hs
  rw [List.length_replicate, Nat.add_comm 1 n] at hb
  rw [hb.1]
  have hf : (List.replicate n (⟨.NOOP, Double.zero, []⟩ : Instruction)
      ++ [⟨.HALT, Double.zero, []⟩])[vm0.ip + n]? = some ⟨.HALT, Double.zero, []⟩ := by
    rw [hip, Nat.zero_add, List.getElem?_append_right (by rw [List.length_replicate])]
    simp
  rw [loop_succ_of_fetch _ 0 _ ⟨.HALT, Double.zero, []⟩
    (by show vm0.cycles + n < vm0.maxCycles; omega) hf]
  show Except.ok _ = _
  rw [hip, hcyc]
  simp only [Nat.zero_add]

/-- The run of `n` `NOOP`s followed by `HALT` on a machine whose budget is
`n + 1` cycles. -/
theorem run_noops_halt (vm vm0 : VirtualMachine) (n m : Nat) (data : List Byte)
    (hload : load
      ⟨List.replicate n ⟨.NOOP, Double.zero, []⟩ ++ [⟨.HALT, Double.zero, []⟩], data⟩ vm
        = .ok vm0)
    (hm : vm.maxCycles = m) (hnm : n + 1 = m) :
    run ⟨List.replicate n ⟨.NOOP, Double.zero, []⟩ ++ [⟨.HALT, Double.zero, []⟩], data⟩ vm
      = .ok { vm0 with ip := m, cycles := m, output := vm0.output ++ budgetDiagnostic } := by
  have h0 := load_ok_cycles hload
  have hip := load_ok_ip hload
  subst hnm
  have hloop := loop_noops_halt n data vm0 hip h0.1 (by rw [h0.2, hm])
  have hfuel : vm0.maxCycles - vm0.cycles = n + 1 := by rw [h0.1, h0.2, hm]; rfl
  rw [← hfuel] at hloop
  rw [run_eq_of_load hload (by rw [hfuel] at hloop ⊢; exact hloop)]
  rw [finish_of_le _ (by show vm0.maxCycles ≤ n + 1; rw [h0.2, hm])]

/-- C28 (the code at the failing input, and what holds). The diagnostic is
appended exactly when the loop leaves the cycle counter at the budget,
whatever ended the loop; a run that ends with cycles to spare has no
diagnostic. On a fresh machine the program of 9999999 `NOOP`s followed by
`HALT` stops by its `HALT` (executed in sequence, without any budget, its
instructions end in the halted state), which is the 10000000th instruction
executed, and the output of the run is the diagnostic. -/
theorem halt_on_last_cycle_is_reported :
    (∀ (prog : Program) (vm vm0 vm1 : VirtualMachine),
      load prog vm = .ok vm0 →
      loop prog (vm0.maxCycles - vm0.cycles) vm0 = .ok vm1 →
      run prog vm = .ok
        (if vm1.maxCycles ≤ vm1.cycles
          then { vm1 with output := vm1.output ++ budgetDiagnostic } else vm1)) ∧
    (∀ (vm : VirtualMachine) (imm : Double) (str : List Byte),
      step ⟨.HALT, imm, str⟩ vm
        = .halted { vm with ip := vm.ip + 1, cycles := vm.cycles + 1 }) ∧
    new.maxCycles = 10000000 ∧
    stepSeq (List.replicate 9999999 ⟨.NOOP, Double.zero, []⟩ ++ [⟨.HALT, Double.zero, []⟩])
        { new with heapPtr := 8 }
      = .halted { new with heapPtr := 8, ip := 0 + (9999999 + 1), cycles := 0 + (9999999 + 1) } ∧
    loop ⟨List.replicate 9999999 ⟨.NOOP, Double.zero, []⟩ ++ [⟨.HALT, Double.zero, []⟩], []⟩
        (9999999 + 1) { new with heapPtr := 8 }
      = .ok { new with heapPtr := 8, ip := 9999999 + 1, cycles := 9999999 + 1 } ∧
    run ⟨List.replicate 9999999 ⟨.NOOP, Double.zero, []⟩ ++ [⟨.HALT, Double.zero, []⟩], []⟩ new
      = .ok { new with
          heapPtr := 8, ip := 10000000, cycles := 10000000,
          output := new.output ++ budgetDiagnostic } :=
  ⟨fun _ _ _ _ hload hloop => run_eq_of_load hload hloop,
   fun _ _ _ => rfl,
   new_maxCycles,
   stepSeq_noops_halt Double.zero [] 9999999 { new with heapPtr := 8 },
   loop_noops_halt 9999999 [] { new with heapPtr := 8 } rfl rfl new_maxCycles,
   run_noops_halt new { new with heapPtr := 8 } 9999999 10000000 [] (load_new_nil _)
     new_maxCycles rfl⟩

/-- Instance of C28: the empty program on a fresh machine ends at once,
with cycles to spare. -/
theorem halt_on_last_cycle_is_reported_witness :
    run ⟨[], []⟩ new = .ok
      (if ({ new with heapPtr := 8 } : VirtualMachine).maxCycles
            ≤ ({ new with heapPtr := 8 } : VirtualMachine).cycles
        then { new with heapPtr := 8, output := new.output ++ budgetDiagnostic }
        else { new with heapPtr := 8 }) :=
  halt_on_last_cycle_is_reported.1 ⟨[], []⟩ new { new with heapPtr := 8 }
    { new with heapPtr := 8 } (load_new_nil _) (loop_of_ip_ge _ _ _ (Nat.zero_le _))

end VirtualMachine

end OmniNative

namespace OmniNative

namespace VirtualMachine

theorem wrap_toSizeT :
    (Double.ofBits 4895412794951729150).toSizeT? = some 18446744073709547520 := by decide!

theorem new_memory_lt_wrap : new.memory.length < 18446744073709547528 := by
  rw [new_memory_length, initialMemorySize_eq]
  decide

theorem new_memory_ge_eight : 8 ≤ new.memory.length := by
  rw [new_memory_length, initialMemorySize_eq]
  decide

/-- On a fresh machine the program `PUSH_IMM 18446744073709547520; ALLOC`
cuts memory to 8 bytes. -/
theorem alloc_truncates_memory :
    (Double.ofBits 4895412794951729150).toSizeT? = some 18446744073709547520 ∧
    new.memory.length = 1048576 ∧
    ∃ vm1, run ⟨[⟨.PUSH_IMM, Double.ofBits 4895412794951729150, []⟩,
                 ⟨.ALLOC, Double.zero, []⟩], []⟩ new = .ok vm1 ∧
      vm1.heapPtr = 18446744073709547528 ∧ vm1.memory.length = 8 ∧ vm1.output = [] := by
  refine ⟨wrap_toSizeT, new_memory_length.trans initialMemorySize_eq, _,
    run_straight (load_new_nil _) (straight_of_all rfl)
      (by rw [new_maxCycles]; exact (by decide : 2 < 10000000))
      (stepSeq_push_alloc_cut { new with heapPtr := 8 } _ 18446744073709547520
        18446744073709547528 8 wrap_toSizeT
        (by show (8 + 18446744073709547520) % sizeMod = 18446744073709547528; decide)
        new_memory_lt_wrap
        (by show (18446744073709547528 + 4096) % sizeMod = 8; decide)
        new_memory_ge_eight),
    rfl, ?_, rfl⟩
  show (new.memory.take 8).length = 8
  rw [List.length_take, new_memory_length, initialMemorySize_eq]
  rfl

theorem storeDouble_length {memory m : List Byte} {addr : Nat} {val : Double}
    (h : storeDouble memory addr val = .ok m) : m.length = memory.length := by
  unfold storeDouble at h
  split at h
  · split at h
    · rename_i h2
      injection h with h
      subst h
      have hb : (bytesOfBits val.bits).length = 8 := rfl
      simp only [List.length_append, List.length_take, List.length_drop, hb]
      omega
    · exact absurd h (by simp)
  · injection h with h
    subst h
    rfl

/-- Instructions other than `STORE` and `ALLOC` leave memory as it is. -/
theorem exec_memory {instr : Instruction} {vm vm1 : VirtualMachine}
    (h : exec instr vm = .running vm1 ∨ exec instr vm = .halted vm1)
    (h1 : instr.op ≠ .STORE) (h2 : instr.op ≠ .ALLOC) : vm1.memory = vm.memory := by
  rcases h with h | h
  all_goals
    unfold exec at h
    split at h
  all_goals (try (rename_i hop; first | exact absurd hop h1 | exact absurd hop h2))
  all_goals
    (try simp only [binaryOp, compareOp, bitOp, shiftOp, loadOp, jumpTo] at h)
    (repeat' split at h) <;>
    first
      | (injection h with h; subst h; rfl)
      | (exact absurd h (by simp))

/-- A `STORE` keeps the memory size, and does not stop the loop. -/
theorem exec_store_length {instr : Instruction} {vm vm1 : VirtualMachine}
    (h : exec instr vm = .running vm1) (hop : instr.op = .STORE) :
    vm1.memory.length = vm.memory.length := by
  unfold exec at h
  rw [hop] at h
  simp only at h
  split at h
  · split at h
    · exact absurd h (by simp)
    · split at h
      · rename_i hst
        injection h with h
        subst h
        exact storeDouble_length hst
      · exact absurd h (by simp)
  · injection h with h
    subst h
    rfl

/-- The memory an `ALLOC` leaves: the old one, or the result of the one
call `memory.resize(heapPtr + 4096)` made with the new heap pointer. -/
theorem exec_alloc_memory {instr : Instruction} {vm vm1 : VirtualMachine}
    (hop : instr.op = .ALLOC) (h : exec instr vm = .running vm1) :
    vm1.memory = vm.memory ∨
      (vm.memory.length < vm1.heapPtr ∧
        ∃ vm0, resize vm0 ((vm1.heapPtr + 4096) % sizeMod) = .ok vm1 ∧
          vm0.memory = vm.memory) := by
  unfold exec at h
  rw [hop] at h
  simp only at h
  split at h
  · injection h with h
    subst h
    exact Or.inl rfl
  · split at h
    · exact absurd h (by simp)
    · split at h
      · rename_i hlt
        unfold Outcome.ofExcept at h
        split at h
        · rename_i hr
          injection h with h
          subst h
          have hk := resize_ok hr
          have hhp : _ = (vm.heapPtr + _) % sizeMod := hk.2.2.2.2.1
          rw [← hhp] at hr hlt
          exact Or.inr ⟨hlt, _, hr, rfl⟩
        · exact absurd h (by simp)
      · injection h with h
        subst h
        exact Or.inl rfl

/-- An `ALLOC` whose resize argument does not wrap around extends memory. -/
theorem exec_alloc_extends {instr : Instruction} {vm vm1 : VirtualMachine}
    (h : exec instr vm = .running vm1) (hop : instr.op = .ALLOC)
    (hw : vm1.heapPtr + 4096 < sizeMod) : vm.memory <+: vm1.memory := by
  rcases exec_alloc_memory hop h with he | ⟨hlt, vm0, hr, h0⟩
  · rw [he]
  · rw [Nat.mod_eq_of_lt hw] at hr
    rw [← h0]
    exact resize_ok_extends hr (by rw [h0]; omega)

/-- The memory the prologue of `run` leaves: the data segment, followed by
the bytes the memory held behind it, followed by the zero bytes of the
resize if there was one. -/
theorem load_ok_tail {prog : Program} {vm vm0 : VirtualMachine}
    (hl : load prog vm = .ok vm0) :
    ∃ zeros, vm0.memory = prog.dataSegment ++ (vm.memory ++ zeros).drop prog.dataSegment.length ∧
      prog.dataSegment.length ≤ (vm.memory ++ zeros).length ∧
      ((vm.memory ++ zeros).length ≤ maxSize ∨ zeros = []) := by
  obtain ⟨vm1, hcase, hle, h0⟩ := load_ok hl
  subst h0
  rcases hcase with ⟨hlt, hr⟩ | ⟨_, he⟩
  · have hm := (resize_ok hr).2.2.2.2.2.2.2.2
    have hlen := resize_ok_length hr
    by_cases hn : (prog.dataSegment.length + 4096) % sizeMod ≤ vm.memory.length
    · rw [hlen] at hle
      omega
    · rw [if_neg hn] at hm
      refine ⟨List.replicate ((prog.dataSegment.length + 4096) % sizeMod - vm.memory.length) 0,
        ?_, ?_, Or.inl ?_⟩
      · show prog.dataSegment ++ List.drop prog.dataSegment.length vm1.memory = _
        rw [hm]
      · rw [← hm]; exact hle
      · rw [← hm, hlen]
        unfold resize at hr
        rw [if_neg hn] at hr
        split at hr
        · exact absurd hr (by simp)
        · omega
  · subst he
    exact ⟨[], by rw [List.append_nil], by rw [List.append_nil]; exact hle, Or.inr rfl⟩

/-- The prologue of `run` does not shorten memory, puts the data segment at
its start and keeps the bytes behind it. -/
theorem load_keeps {prog : Program} {vm vm0 : VirtualMachine}
    (hl : load prog vm = .ok vm0) :
    vm.memory.length ≤ vm0.memory.length ∧
      vm0.memory.take prog.dataSegment.length = prog.dataSegment ∧
      vm.memory.drop prog.dataSegment.length <+: vm0.memory.drop prog.dataSegment.length := by
  obtain ⟨zeros, hm, hds, _⟩ := load_ok_tail hl
  refine ⟨?_, ?_, ?_⟩
  · rw [hm, List.length_append, List.length_drop]
    rw [List.length_append] at hds ⊢
    omega
  · rw [hm, List.take_left]
  · rw [hm, List.drop_left]
    by_cases hk : prog.dataSegment.length ≤ vm.memory.length
    · rw [List.drop_append_of_le_length hk]
      exact ⟨_, rfl⟩
    · rw [List.drop_eq_nil_of_le (by omega)]
      exact ⟨_, List.nil_append _⟩

/-- The cases of `ALLOC` with a size on the stack. -/
theorem exec_alloc_cases (vm : VirtualMachine) (top i : Double) (rest : List Double)
    (str : List Byte) (n hp sz : Nat) (hn : top.toSizeT? = some n)
    (hhp : (vm.heapPtr + n) % sizeMod = hp) (hsz : (hp + 4096) % sizeMod = sz) :
    (hp ≤ vm.memory.length →
      exec ⟨.ALLOC, i, str⟩ { vm with evalStack := top :: rest }
        = .running { vm with evalStack := Double.ofNat vm.heapPtr :: rest, heapPtr := hp }) ∧
    (vm.memory.length < hp → vm.memory.length < sz → maxSize < sz →
      exec ⟨.ALLOC, i, str⟩ { vm with evalStack := top :: rest } = .fault .lengthError) ∧
    (vm.memory.length < hp → vm.memory.length < sz → sz ≤ maxSize →
      vm.host.head? = some false →
      exec ⟨.ALLOC, i, str⟩ { vm with evalStack := top :: rest } = .fault .badAlloc) ∧
    (vm.memory.length < hp → vm.memory.length < sz → sz ≤ maxSize →
      vm.host.head? ≠ some false →
      exec ⟨.ALLOC, i, str⟩ { vm with evalStack := top :: rest }
        = .running { vm with
            evalStack := Double.ofNat vm.heapPtr :: rest
            heapPtr := hp
            memory := vm.memory ++ List.replicate (sz - vm.memory.length) 0
            host := vm.host.tail }) ∧
    (vm.memory.length < hp → sz ≤ vm.memory.length →
      exec ⟨.ALLOC, i, str⟩ { vm with evalStack := top :: rest }
        = .running { vm with
            evalStack := Double.ofNat vm.heapPtr :: rest
            heapPtr := hp
            memory := vm.memory.take sz }) := by
  rw [exec_alloc_eq vm top i rest str n hn, hhp, hsz]
  refine ⟨?_, ?_, ?_, ?_, ?_⟩
  · intro hle
    rw [if_neg (by omega)]
  · intro hlt hgt hmax
    rw [if_pos hlt, resize_lengthError { vm with
      evalStack := Double.ofNat vm.heapPtr :: rest
      heapPtr := hp } sz hgt hmax]
    rfl
  · intro hlt hgt hmax hh
    obtain ⟨answers, ha⟩ : ∃ answers, vm.host = false :: answers := by
      cases hv : vm.host with
      | nil => rw [hv] at hh; exact absurd hh (by simp)
      | cons b t =>
        rw [hv] at hh
        simp only [List.head?_cons, Option.some.injEq] at hh
        subst hh
        exact ⟨t, rfl⟩
    rw [if_pos hlt, resize_refused { vm with
      evalStack := Double.ofNat vm.heapPtr :: rest
      heapPtr := hp } sz answers hgt hmax ha]
    rfl
  · intro hlt hgt hmax hh
    rw [if_pos hlt, resize_granted { vm with
      evalStack := Double.ofNat vm.heapPtr :: rest
      heapPtr := hp } sz hgt hmax hh]
    rfl
  · intro hlt hle
    rw [if_pos hlt, resize_cut { vm with
      evalStack := Double.ofNat vm.heapPtr :: rest
      heapPtr := hp } sz hle]
    rfl

/-- C27 (the code at the failing input, and what holds). On a fresh machine
the program `PUSH_IMM 18446744073709547520; ALLOC` (the size is
`2^64 - 4096`) moves the heap pointer to `2^64 - 4088`; the resize argument
`heapPtr + 4096` wraps around to 8, and memory shrinks from 1048576 bytes
to 8 bytes, without any output. Apart from a resize argument that wraps
around `2^64`, memory never shrinks: an instruction other than `STORE` and
`ALLOC` leaves memory as it is, `STORE` keeps its size, `ALLOC` with
`heapPtr + 4096 < 2^64` keeps all bytes and may append bytes, and the
prologue of `run` does not shorten memory, puts the data segment at its
start and keeps the bytes behind the data segment. -/
theorem memory_grows_unless_wraparound :
    ((Double.ofBits 4895412794951729150).toSizeT? = some 18446744073709547520 ∧
      new.memory.length = 1048576 ∧
      ∃ vm1, run ⟨[⟨.PUSH_IMM, Double.ofBits 4895412794951729150, []⟩,
                   ⟨.ALLOC, Double.zero, []⟩], []⟩ new = .ok vm1 ∧
        vm1.heapPtr = 18446744073709547528 ∧ vm1.memory.length = 8 ∧ vm1.output = []) ∧
    (∀ (instr : Instruction) (vm vm1 : VirtualMachine),
      exec instr vm = .running vm1 ∨ exec instr vm = .halted vm1 →
      instr.op ≠ .STORE → instr.op ≠ .ALLOC → vm1.memory = vm.memory) ∧
    (∀ (instr : Instruction) (vm vm1 : VirtualMachine),
      exec instr vm = .running vm1 → instr.op = .STORE →
      vm1.memory.length = vm.memory.length) ∧
    (∀ (instr : Instruction) (vm vm1 : VirtualMachine),
      exec instr vm = .running vm1 → instr.op = .ALLOC →
      vm1.heapPtr + 4096 < sizeMod → vm.memory <+: vm1.memory) ∧
    (∀ (prog : Program) (vm vm0 : VirtualMachine),
      load prog vm = .ok vm0 →
      vm.memory.length ≤ vm0.memory.length ∧
      vm0.memory.take prog.dataSegment.length = prog.dataSegment ∧
      vm.memory.drop prog.dataSegment.length <+: vm0.memory.drop prog.dataSegment.length) :=
  ⟨alloc_truncates_memory,
   fun _ _ _ h h1 h2 => exec_memory h h1 h2,
   fun _ _ _ h hop => exec_store_length h hop,
   fun _ _ _ h hop hw => exec_alloc_extends h hop hw,
   fun _ _ _ h => load_keeps h⟩

theorem new_memory_lt_page : new.memory.length < 2101248 := by
  rw [new_memory_length, initialMemorySize_eq]
  decide

/-- The `ALLOC` of 2097152 bytes on a fresh machine. -/
theorem exec_alloc_two_mib :
    exec ⟨.ALLOC, Double.zero, []⟩
        { new with evalStack := [Double.ofBits 4701758010974797824] }
      = .running { new with
          evalStack := [Double.ofNat new.heapPtr]
          heapPtr := 2101248
          memory := new.memory ++ List.replicate (2105344 - new.memory.length) 0
          host := [] } :=
  (exec_alloc_cases new (Double.ofBits 4701758010974797824) Double.zero [] [] 2097152
      2101248 2105344 two_mib_toSizeT
      (by show (4096 + 2097152) % sizeMod = 2101248; decide)
      (by show (2101248 + 4096) % sizeMod = 2105344; decide)).2.2.2.1
      new_memory_lt_page
      (by show new.memory.length < _; rw [new_memory_length, initialMemorySize_eq]; decide)
      (by decide) (by decide)

/-- Instance of C27: the `ALLOC` of 2097152 bytes on a fresh machine, which
makes memory grow, keeps the 1048576 bytes there were; and the prologue of
`run` for the data segment `1, 2` on a fresh machine keeps the size of
memory and the bytes behind the data segment. -/
theorem memory_grows_unless_wraparound_witness :
    new.memory <+: new.memory ++ List.replicate (2105344 - new.memory.length) 0 ∧
    (new.memory.length
        ≤ (([1, 2] : List Byte) ++ new.memory.drop ([1, 2] : List Byte).length).length ∧
      (([1, 2] : List Byte) ++ new.memory.drop ([1, 2] : List Byte).length).take
          ([1, 2] : List Byte).length = [1, 2] ∧
      new.memory.drop ([1, 2] : List Byte).length
        <+: (([1, 2] : List Byte) ++ new.memory.drop ([1, 2] : List Byte).length).drop
          ([1, 2] : List Byte).length) :=
  ⟨memory_grows_unless_wraparound.2.2.2.1 ⟨.ALLOC, Double.zero, []⟩
      { new with evalStack := [Double.ofBits 4701758010974797824] } _
      exec_alloc_two_mib rfl (by decide),
   memory_grows_unless_wraparound.2.2.2.2 ⟨[], [1, 2]⟩ new _
      (load_of_le ⟨[], [1, 2]⟩ new
        (by show 2 ≤ new.memory.length; rw [new_memory_length, initialMemorySize_eq]; decide))⟩

end VirtualMachine

end OmniNative

namespace OmniNative

namespace VirtualMachine

theorem fetches_succ_of_fetch (prog : Program) (fuel : Nat) (vm : VirtualMachine)
    (instr : Instruction) (hc : vm.cycles < vm.maxCycles)
    (hf : prog.instructions[vm.ip]? = some instr) :
    fetches prog (fuel + 1) vm =
      vm.ip ::
        (match step instr vm with
         | .running vm1 => fetches prog fuel vm1
         | .halted _ => []
         | .fault _ => []) := by
  obtain ⟨hlt, hget⟩ := List.getElem?_eq_some_iff.1 hf
  subst hget
  rw [fetches_succ, if_pos hc, dif_pos hlt]

theorem getElem?_middle (pre post : List Instruction) (x : Instruction) :
    (pre ++ x :: post)[pre.length]? = some x := by
  rw [List.getElem?_append_right (Nat.le_refl _), Nat.sub_self]
  simp

/-- The reads of the main loop on a run of straight-line instructions are
their indices, in order. -/
theorem fetches_stepSeq (prog : Program) :
    ∀ (is pre post : List Instruction) (vm vm1 : VirtualMachine) (fuel : Nat),
      prog.instructions = pre ++ is ++ post →
      (∀ i ∈ is, isControl i.op = false) →
      vm.ip = pre.length →
      vm.cycles + is.length ≤ vm.maxCycles →
      stepSeq is vm = .running vm1 →
      fetches prog (fuel + is.length) vm
        = List.range' vm.ip is.length ++ fetches prog fuel vm1 := by
  intro is
  induction is with
  | nil =>
    intro pre post vm vm1 fuel _ _ _ _ hs
    simp only [stepSeq, Outcome.running.injEq] at hs
    subst hs
    rfl
  | cons i rest ih =>
    intro pre post vm vm1 fuel hprog hctl hip hcy hs
    simp only [List.length_cons] at hcy ⊢
    have hlt : vm.cycles < vm.maxCycles := by omega
    have hf : prog.instructions[vm.ip]? = some i := by
      rw [hprog, hip, List.append_assoc, List.cons_append]
      exact getElem?_middle pre (rest ++ post) i
    rw [show fuel + (rest.length + 1) = (fuel + rest.length) + 1 by omega,
      fetches_succ_of_fetch prog _ vm i hlt hf]
    simp only [stepSeq] at hs
    cases hst : step i vm with
    | running vm2 =>
      rw [hst] at hs
      simp only at hs ⊢
      have hip2 := step_running_ip (hctl i (List.mem_cons_self _ _)) hst
      have hcy2 := step_running_cycles hst
      rw [ih (pre ++ [i]) post vm2 vm1 fuel (by rw [hprog]; simp)
        (fun j hj => hctl j (List.mem_cons_of_mem _ hj))
        (by rw [hip2, hip]; simp) (by omega) hs, hip2]
      rfl
    | halted vm2 => rw [hst] at hs; exact absurd hs (by simp)
    | fault f => rw [hst] at hs; exact absurd hs (by simp)

/-- The branch taken when the condition is nonzero. -/
theorem if_else_then (prog : Program) (pre thenB elseB post : List Instruction)
    (elseD endD : Double) (s1 s2 : List Byte) (vm vm2 : VirtualMachine) (c : Double)
    (rest : List Double) (fuel endIdx : Nat)
    (hprog : prog.instructions
      = pre ++ ⟨.JMP_IF_NOT, elseD, s1⟩ :: (thenB ++ ⟨.JMP, endD, s2⟩ :: (elseB ++ post)))
    (hend : endD.toSizeT? = some endIdx)
    (hthen : ∀ i ∈ thenB, isControl i.op = false)
    (hip : vm.ip = pre.length) (hst : vm.evalStack = c :: rest)
    (hbud : vm.cycles + thenB.length + 2 ≤ vm.maxCycles)
    (hc : Double.eq c Double.zero = false)
    (hs : stepSeq thenB { vm with evalStack := rest, ip := vm.ip + 1, cycles := vm.cycles + 1 }
      = .running vm2) :
    loop prog (fuel + (thenB.length + 2)) vm
      = loop prog fuel { vm2 with ip := endIdx, cycles := vm2.cycles + 1 } ∧
    fetches prog (fuel + (thenB.length + 2)) vm
      = List.range' pre.length (thenB.length + 2)
        ++ fetches prog fuel { vm2 with ip := endIdx, cycles := vm2.cycles + 1 } := by
  have hf1 : prog.instructions[vm.ip]? = some ⟨.JMP_IF_NOT, elseD, s1⟩ := by
    rw [hprog, hip]; exact getElem?_middle _ _ _
  have hstep1 : step ⟨.JMP_IF_NOT, elseD, s1⟩ vm
      = .running { vm with evalStack := rest, ip := vm.ip + 1, cycles := vm.cycles + 1 } := by
    simp only [step, exec, hst, hc, Bool.false_eq_true, if_false]
  have hp2 : prog.instructions
      = (pre ++ [⟨.JMP_IF_NOT, elseD, s1⟩]) ++ thenB ++ (⟨.JMP, endD, s2⟩ :: (elseB ++ post)) := by
    rw [hprog]; simp
  have hb := loop_stepSeq prog thenB (pre ++ [⟨.JMP_IF_NOT, elseD, s1⟩])
    (⟨.JMP, endD, s2⟩ :: (elseB ++ post)) _ vm2 (fuel + 1) hp2 hthen
    (by show vm.ip + 1 = _; rw [hip]; simp) (by show vm.cycles + 1 + thenB.length ≤ vm.maxCycles; omega) hs
  have hfb := fetches_stepSeq prog thenB (pre ++ [⟨.JMP_IF_NOT, elseD, s1⟩])
    (⟨.JMP, endD, s2⟩ :: (elseB ++ post)) _ vm2 (fuel + 1) hp2 hthen
    (by show vm.ip + 1 = _; rw [hip]; simp) (by show vm.cycles + 1 + thenB.length ≤ vm.maxCycles; omega) hs
  obtain ⟨hloop, hip2, hcy2, hmax2⟩ := hb
  have hip2' : vm2.ip = pre.length + 1 + thenB.length := by
    have : vm2.ip = vm.ip + 1 + thenB.length := hip2
    omega
  have hcy2' : vm2.cycles = vm.cycles + 1 + thenB.length := hcy2
  have hmax2' : vm2.maxCycles = vm.maxCycles := hmax2
  have hf2 : prog.instructions[vm2.ip]? = some ⟨.JMP, endD, s2⟩ := by
    rw [hp2, hip2']
    have : pre.length + 1 + thenB.length
        = (pre ++ [(⟨.JMP_IF_NOT, elseD, s1⟩ : Instruction)] ++ thenB).length := by
      simp only [List.length_append, List.length_cons, List.length_nil]
    rw [this]
    exact getElem?_middle _ _ _
  have hstep2 : step ⟨.JMP, endD, s2⟩ vm2
      = .running { vm2 with ip := endIdx, cycles := vm2.cycles + 1 } := by
    simp only [step, exec, jumpTo, hend]
  have hfuel : fuel + (thenB.length + 2) = (fuel + 1 + thenB.length) + 1 := by omega
  constructor
  · rw [hfuel, loop_succ_of_fetch prog _ vm _ (by omega) hf1, hstep1]
    simp only
    rw [hloop, loop_succ_of_fetch prog fuel vm2 _ (by omega) hf2, hstep2]
  · rw [hfuel, fetches_succ_of_fetch prog _ vm _ (by omega) hf1, hstep1]
    simp only
    rw [hfb, fetches_succ_of_fetch prog fuel vm2 _ (by omega) hf2, hstep2]
    simp only
    show vm.ip :: (List.range' (vm.ip + 1) thenB.length ++ vm2.ip :: _) = _
    rw [hip2', hip]
    have hr : List.range' pre.length (thenB.length + 2)
        = pre.length :: (List.range' (pre.length + 1) thenB.length
            ++ [pre.length + 1 + thenB.length]) := by
      rw [show thenB.length + 2 = (thenB.length + 1) + 1 by omega, List.range'_succ,
        List.range'_concat]
      simp
    rw [hr]
    simp

/-- The branch taken when the condition is zero. -/
theorem if_else_else (prog : Program) (pre thenB elseB post : List Instruction)
    (elseD endD : Double) (s1 s2 : List Byte) (vm vm3 : VirtualMachine) (c : Double)
    (rest : List Double) (fuel : Nat)
    (hprog : prog.instructions
      = pre ++ ⟨.JMP_IF_NOT, elseD, s1⟩ :: (thenB ++ ⟨.JMP, endD, s2⟩ :: (elseB ++ post)))
    (helse : elseD.toSizeT? = some (pre.length + 1 + thenB.length + 1))
    (helseB : ∀ i ∈ elseB, isControl i.op = false)
    (hip : vm.ip = pre.length) (hst : vm.evalStack = c :: rest)
    (hbud : vm.cycles + elseB.length + 1 ≤ vm.maxCycles)
    (hc : Double.eq c Double.zero = true)
    (hs : stepSeq elseB
        { vm with
          evalStack := rest, ip := pre.length + 1 + thenB.length + 1, cycles := vm.cycles + 1 }
      = .running vm3) :
    loop prog (fuel + (elseB.length + 1)) vm = loop prog fuel vm3 ∧
    vm3.ip = pre.length + 1 + thenB.length + 1 + elseB.length ∧
    fetches prog (fuel + (elseB.length + 1)) vm
      = pre.length :: (List.range' (pre.length + 1 + thenB.length + 1) elseB.length
        ++ fetches prog fuel vm3) := by
  have hf1 : prog.instructions[vm.ip]? = some ⟨.JMP_IF_NOT, elseD, s1⟩ := by
    rw [hprog, hip]; exact getElem?_middle _ _ _
  have hstep1 : step ⟨.JMP_IF_NOT, elseD, s1⟩ vm
      = .running { vm with
          evalStack := rest, ip := pre.length + 1 + thenB.length + 1,
          cycles := vm.cycles + 1 } := by
    simp only [step, exec, hst, hc, if_true, jumpTo, helse]
  have hp2 : prog.instructions
      = (pre ++ ⟨.JMP_IF_NOT, elseD, s1⟩ :: (thenB ++ [⟨.JMP, endD, s2⟩])) ++ elseB ++ post := by
    rw [hprog]; simp
  have hlen : (pre ++ (⟨.JMP_IF_NOT, elseD, s1⟩ : Instruction) :: (thenB ++ [⟨.JMP, endD, s2⟩])).length
      = pre.length + 1 + thenB.length + 1 := by
    simp only [List.length_append, List.length_cons, List.length_nil]; omega
  have hb := loop_stepSeq prog elseB _ post _ vm3 fuel hp2 helseB
    (by show pre.length + 1 + thenB.length + 1 = _; rw [hlen])
    (by show vm.cycles + 1 + elseB.length ≤ vm.maxCycles; omega) hs
  have hfb := fetches_stepSeq prog elseB _ post _ vm3 fuel hp2 helseB
    (by show pre.length + 1 + thenB.length + 1 = _; rw [hlen])
    (by show vm.cycles + 1 + elseB.length ≤ vm.maxCycles; omega) hs
  obtain ⟨hloop, hip3, _, _⟩ := hb
  have hfuel : fuel + (elseB.length + 1) = (fuel + elseB.length) + 1 := by omega
  refine ⟨?_, hip3, ?_⟩
  · rw [hfuel, loop_succ_of_fetch prog _ vm _ (by omega) hf1, hstep1]
    exact hloop
  · rw [hfuel, fetches_succ_of_fetch prog _ vm _ (by omega) hf1, hstep1]
    simp only
    rw [hfb, hip]

/-- C26. In a program that holds the lowering of an if/else (the
instruction `JMP_IF_NOT else_start`, a straight-line then-block, `JMP end`,
a straight-line else-block that starts at `else_start`, the continuation at
`end`), from the state that has the condition value on top of the stack
and the instruction pointer at the `JMP_IF_NOT`: when the condition is
nonzero the loop reads the `JMP_IF_NOT`, every instruction of the
then-block in order and the `JMP`, no instruction of the else-block, and
goes on at `end` with the state the then-block produced; when it is zero
the loop reads the `JMP_IF_NOT` and every instruction of the else-block in
order, no instruction of the then-block, and goes on at `end` with the
state the else-block produced. -/
theorem if_else_one_branch (prog : Program) (pre thenB elseB post : List Instruction)
    (elseD endD : Double) (s1 s2 : List Byte) (vm : VirtualMachine) (c : Double)
    (rest : List Double) (fuel : Nat)
    (hprog : prog.instructions
      = pre ++ ⟨.JMP_IF_NOT, elseD, s1⟩ :: (thenB ++ ⟨.JMP, endD, s2⟩ :: (elseB ++ post)))
    (helse : elseD.toSizeT? = some (pre.length + 1 + thenB.length + 1))
    (hend : endD.toSizeT? = some (pre.length + 1 + thenB.length + 1 + elseB.length))
    (hthen : ∀ i ∈ thenB, isControl i.op = false)
    (helseB : ∀ i ∈ elseB, isControl i.op = false)
    (hip : vm.ip = pre.length) (hst : vm.evalStack = c :: rest)
    (hbud : vm.cycles + thenB.length + elseB.length + 2 ≤ vm.maxCycles) :
    (Double.ne c Double.zero = true → ∀ vm2,
      stepSeq thenB { vm with evalStack := rest, ip := vm.ip + 1, cycles := vm.cycles + 1 }
        = .running vm2 →
      loop prog (fuel + (thenB.length + 2)) vm
        = loop prog fuel
            { vm2 with
              ip := pre.length + 1 + thenB.length + 1 + elseB.length
              cycles := vm2.cycles + 1 } ∧
      fetches prog (fuel + (thenB.length + 2)) vm
        = List.range' pre.length (thenB.length + 2)
          ++ fetches prog fuel
            { vm2 with
              ip := pre.length + 1 + thenB.length + 1 + elseB.length
              cycles := vm2.cycles + 1 }) ∧
    (Double.ne c Double.zero = false → ∀ vm3,
      stepSeq elseB
          { vm with
            evalStack := rest, ip := pre.length + 1 + thenB.length + 1
            cycles := vm.cycles + 1 }
        = .running vm3 →
      loop prog (fuel + (elseB.length + 1)) vm = loop prog fuel vm3 ∧
      vm3.ip = pre.length + 1 + thenB.length + 1 + elseB.length ∧
      fetches prog (fuel + (elseB.length + 1)) vm
        = pre.length :: (List.range' (pre.length + 1 + thenB.length + 1) elseB.length
          ++ fetches prog fuel vm3)) := by
  have hne : Double.ne c Double.zero = !Double.eq c Double.zero := rfl
  constructor
  · intro hc vm2 hs
    exact if_else_then prog pre thenB elseB post elseD endD s1 s2 vm vm2 c rest fuel _ hprog
      hend hthen hip hst (by omega) (by rw [hne] at hc; simpa using hc) hs
  · intro hc vm3 hs
    exact if_else_else prog pre thenB elseB post elseD endD s1 s2 vm vm3 c rest fuel hprog
      helse helseB hip hst (by omega) (by rw [hne] at hc; simpa using hc) hs

theorem four_toSizeT : (Double.ofInt 4).toSizeT? = some 4 := by decide!

/-- Instance of C26: the program `PUSH_IMM 1; JMP_IF_NOT 4; PUSH_IMM 7;
JMP 5; PUSH_IMM 8` after its first instruction, with the condition value 1
on the stack: the loop reads the instructions 1, 2, 3 and goes on at 5. -/
theorem if_else_one_branch_witness :
    loop ⟨[⟨.PUSH_IMM, Double.one, []⟩, ⟨.JMP_IF_NOT, Double.ofInt 4, []⟩,
           ⟨.PUSH_IMM, Double.ofInt 7, []⟩, ⟨.JMP, Double.ofInt 5, []⟩,
           ⟨.PUSH_IMM, Double.ofInt 8, []⟩], []⟩ (0 + (1 + 2))
        ⟨[], [Double.one], [], [], 1, 8, [], 100, 1, []⟩
      = loop ⟨[⟨.PUSH_IMM, Double.one, []⟩, ⟨.JMP_IF_NOT, Double.ofInt 4, []⟩,
           ⟨.PUSH_IMM, Double.ofInt 7, []⟩, ⟨.JMP, Double.ofInt 5, []⟩,
           ⟨.PUSH_IMM, Double.ofInt 8, []⟩], []⟩ 0
        ⟨[], [Double.ofInt 7], [], [], 5, 8, [], 100, 4, []⟩ ∧
    fetches ⟨[⟨.PUSH_IMM, Double.one, []⟩, ⟨.JMP_IF_NOT, Double.ofInt 4, []⟩,
           ⟨.PUSH_IMM, Double.ofInt 7, []⟩, ⟨.JMP, Double.ofInt 5, []⟩,
           ⟨.PUSH_IMM, Double.ofInt 8, []⟩], []⟩ (0 + (1 + 2))
        ⟨[], [Double.one], [], [], 1, 8, [], 100, 1, []⟩
      = List.range' 1 (1 + 2) ++
        fetches ⟨[⟨.PUSH_IMM, Double.one, []⟩, ⟨.JMP_IF_NOT, Double.ofInt 4, []⟩,
           ⟨.PUSH_IMM, Double.ofInt 7, []⟩, ⟨.JMP, Double.ofInt 5, []⟩,
           ⟨.PUSH_IMM, Double.ofInt 8, []⟩], []⟩ 0
        ⟨[], [Double.ofInt 7], [], [], 5, 8, [], 100, 4, []⟩ :=
  (if_else_one_branch
    ⟨[⟨.PUSH_IMM, Double.one, []⟩, ⟨.JMP_IF_NOT, Double.ofInt 4, []⟩,
      ⟨.PUSH_IMM, Double.ofInt 7, []⟩, ⟨.JMP, Double.ofInt 5, []⟩,
      ⟨.PUSH_IMM, Double.ofInt 8, []⟩], []⟩
    [⟨.PUSH_IMM, Double.one, []⟩] [⟨.PUSH_IMM, Double.ofInt 7, []⟩]
    [⟨.PUSH_IMM, Double.ofInt 8, []⟩] [] (Double.ofInt 4) (Double.ofInt 5) [] []
    ⟨[], [Double.one], [], [], 1, 8, [], 100, 1, []⟩ Double.one [] 0
    rfl four_toSizeT five_toSizeT (straight_of_all rfl) (straight_of_all rfl) rfl rfl
    (by decide)).1 ne_one_zero _ rfl

end VirtualMachine

end OmniNative

/-! ## Further properties of the text interpreter -/

namespace OmniNative

namespace CInterpreter

theorem findFirstNotWs_spaces (l : Nat) (a : Char) (rest : List Char) (ha : isWs a = false) :
    findFirstNotWs (List.replicate l ' ' ++ a :: rest) = some l := by
  induction l with
  | zero => simp [findFirstNotWs, ha]
  | succ l ih =>
    rw [List.replicate_succ, List.cons_append, findFirstNotWs, ih]
    simp [isWs]

/-- What the "trim whitespace" lines do to a name between `l` leading and
`k` trailing blanks: the leading blanks go, and of the trailing blanks as
many stay as there were leading ones. -/
theorem trim_blanks (n : List Char) (l k : Nat) (hne : n ≠ [])
    (hn : ∀ c ∈ n, isWs c = false) :
    trim (List.replicate l ' ' ++ n ++ List.replicate k ' ')
      = n ++ List.replicate (min l k) ' ' := by
  obtain ⟨a, m, rfl⟩ := List.exists_cons_of_ne_nil hne
  have hrev : (a :: m).reverse ≠ [] := by simp
  obtain ⟨b, m2, hb⟩ := List.exists_cons_of_ne_nil hrev
  have hbws : isWs b = false := by
    apply hn
    have : b ∈ (a :: m).reverse := by rw [hb]; exact List.mem_cons_self _ _
    exact List.mem_reverse.1 this
  have hlen : m2.length + 1 = m.length + 1 := by
    have := congrArg List.length hb
    simpa using this.symm
  have h1 : findFirstNotWs (List.replicate l ' ' ++ (a :: m) ++ List.replicate k ' ')
      = some l := by
    rw [List.append_assoc, List.cons_append]
    exact findFirstNotWs_spaces l a _ (hn a (List.mem_cons_self _ _))
  have h2 : findLastNotWs (List.replicate l ' ' ++ (a :: m) ++ List.replicate k ' ')
      = some (l + m.length) := by
    unfold findLastNotWs
    rw [List.reverse_append, List.reverse_append, List.reverse_replicate,
      List.reverse_replicate, hb, List.cons_append, findFirstNotWs_spaces k b _ hbws]
    simp only [Option.map_some', List.length_append, List.length_replicate, List.length_cons]
    congr 1
    omega
  unfold trim
  rw [h1, h2]
  simp only [substr]
  rw [List.append_assoc, List.drop_left' (List.length_replicate _ _)]
  have : l + m.length + 1 = (a :: m).length + l := by simp only [List.length_cons]; omega
  rw [this, List.take_append, List.take_replicate]

theorem lookup_single_ne (name other : List Char) (info : VarInfo) (h : other ≠ name) :
    lookup name [(other, info)] = none := by
  simp only [lookup, if_neg h]

/-- A source of two assignment statements to two different names. -/
theorem execute_two_assignments (source code1 code2 name1 name2 expr1 expr2 : List Char)
    (v1 v2 : Double) (t1 t2 : Int) (lines : List (List Char))
    (hsplit : splitStatements none source false false [] [] = [code1, code2])
    (hne1 : code1.isEmpty = false) (hne2 : code2.isEmpty = false)
    (hp1 : containsSub "printf".toList code1 = false)
    (hp2 : containsSub "printf".toList code2 = false)
    (hpa1 : parseAssignment code1 = some (name1, expr1))
    (hpa2 : parseAssignment code2 = some (name2, expr2))
    (hev1 : ∀ st : State, evaluateExpression st expr1 = .ok v1)
    (hev2 : ∀ st : State, evaluateExpression st expr2 = .ok v2)
    (ht1 : v1.toInt? = some t1) (ht2 : v2.toInt? = some t2)
    (hdiff : name1 ≠ name2)
    (hlines : (if ((splitLines (name1 ++ " = ".toList ++ intChars t1 ++ ['\n'] ++ name2
          ++ " = ".toList ++ intChars t2 ++ ['\n']) []).filter
          (fun line => !line.isEmpty)).isEmpty
        then ["Program finished successfully.".toList]
        else (splitLines (name1 ++ " = ".toList ++ intChars t1 ++ ['\n'] ++ name2
          ++ " = ".toList ++ intChars t2 ++ ['\n']) []).filter
          (fun line => !line.isEmpty)) = lines) :
    (∃ st, executeAll { State.init with output := [] } [code1, code2] = .ok st ∧
      st.locals = [(name2, ⟨1, false, false⟩), (name1, ⟨0, false, false⟩)] ∧
      st.nextLocalAddr = 2) ∧
    executeSource source = .ok lines := by
  obtain ⟨st1, ha1, wf1, ho1⟩ := assign_output { State.init with output := [] } name1 v1 t1
    init_wellFormed ht1
  obtain ⟨hl1, hc1, _⟩ := assign_new { State.init with output := [] } st1 name1 v1 rfl ha1
  have hst1 : executeStatement { State.init with output := [] } code1 = .ok st1 :=
    (executeStatement_assign _ code1 name1 expr1 v1 hp1 hpa1 (hev1 _)).trans ha1
  obtain ⟨st2, ha2, _, ho2⟩ := assign_output st1 name2 v2 t2 wf1 ht2
  have hlk : lookup name2 st1.locals = none := by
    rw [hl1]
    exact lookup_single_ne name2 name1 _ hdiff
  obtain ⟨hl2, hc2, _⟩ := assign_new st1 st2 name2 v2 hlk ha2
  have hst2 : executeStatement st1 code2 = .ok st2 :=
    (executeStatement_assign _ code2 name2 expr2 v2 hp2 hpa2 (hev2 _)).trans ha2
  have hall : executeAll { State.init with output := [] } [code1, code2] = .ok st2 := by
    rw [executeAll_cons _ _ _ _ hne1 hst1, executeAll_cons _ _ _ _ hne2 hst2]
    rfl
  refine ⟨⟨st2, hall, ?_, ?_⟩, ?_⟩
  · rw [hl2, hl1, hc1]
    rfl
  · rw [hc2, hc1]
    rfl
  · have hout : st2.output = name1 ++ " = ".toList ++ intChars t1 ++ ['\n'] ++ name2
        ++ " = ".toList ++ intChars t2 ++ ['\n'] := by
      rw [ho2, ho1]
      rfl
    unfold executeSource
    rw [execute_eq source st2 (by rw [hsplit]; exact hall), hout, hlines]

theorem two_intSafe : (Double.ofNat 2).toInt? = some 2 := by decide!

theorem one_toInt : (Double.ofNat 1).toInt? = some 1 := by decide!

theorem two_names_source :
    (∃ st, executeAll { State.init with output := [] } ["x = 1;".toList, "  x = 2;".toList]
        = .ok st ∧
      st.locals = [("x ".toList, ⟨1, false, false⟩), ("x".toList, ⟨0, false, false⟩)] ∧
      st.nextLocalAddr = 2) ∧
    executeSource "x = 1;\n  x = 2;".toList = .ok ["x = 1".toList, "x  = 2".toList] :=
  execute_two_assignments "x = 1;\n  x = 2;".toList "x = 1;".toList "  x = 2;".toList
    "x".toList "x ".toList "1;".toList "2;".toList (Double.ofNat 1) (Double.ofNat 2) 1 2
    ["x = 1".toList, "x  = 2".toList]
    (by decide) (by decide) (by decide) (by decide) (by decide) (by decide) (by decide)
    (fun st => evaluateExpression_literal st _ _ (by decide) (by decide!))
    (fun st => evaluateExpression_literal st _ _ (by decide) (by decide!))
    one_toInt two_intSafe (by decide) (by decide!)

/-- C29 (the code at the failing input, and what holds). The "trim
whitespace" lines remove the leading whitespace of a name, and of its
trailing blanks they keep as many as there were leading ones: the
left-hand side of `  x = 2;` becomes the name `x` followed by a blank,
that of `x = 1;` the name `x`. The source with these two statements
therefore creates two variables, at the addresses 0 and 1, and echoes the
lines `x = 1` and `x  = 2`. -/
theorem trim_keeps_trailing_blanks :
    (∀ (n : List Char) (l k : Nat), n ≠ [] → (∀ c ∈ n, isWs c = false) →
      trim (List.replicate l ' ' ++ n ++ List.replicate k ' ')
        = n ++ List.replicate (min l k) ' ') ∧
    parseAssignment "x = 1;".toList = some ("x".toList, "1;".toList) ∧
    parseAssignment "  x = 2;".toList = some ("x ".toList, "2;".toList) ∧
    splitStatements none "x = 1;\n  x = 2;".toList false false [] []
      = ["x = 1;".toList, "  x = 2;".toList] ∧
    (∃ st, executeAll { State.init with output := [] } ["x = 1;".toList, "  x = 2;".toList]
        = .ok st ∧
      st.locals = [("x ".toList, ⟨1, false, false⟩), ("x".toList, ⟨0, false, false⟩)] ∧
      st.nextLocalAddr = 2) ∧
    executeSource "x = 1;\n  x = 2;".toList = .ok ["x = 1".toList, "x  = 2".toList] :=
  ⟨trim_blanks, by decide, by decide, by decide, two_names_source.1, two_names_source.2⟩

/-- Instance of C29: the name `x` between two leading blanks and one
trailing blank. -/
theorem trim_keeps_trailing_blanks_witness :
    trim (List.replicate 2 ' ' ++ "x".toList ++ List.replicate 1 ' ')
      = "x".toList ++ List.replicate (min 2 1) ' ' :=
  trim_keeps_trailing_blanks.1 "x".toList 2 1 (by decide) (by decide)

end CInterpreter

end OmniNative

/-! ## Properties of the equation solver -/

namespace OmniMath

open OmniNative

/-! ### The parser returns -/

theorem length_dropWhile_le {α : Type} (p : α → Bool) (l : List α) :
    (l.dropWhile p).length ≤ l.length := by
  induction l with
  | nil => exact Nat.le_refl _
  | cons a rest ih =>
    rw [List.dropWhile_cons]
    split
    · exact Nat.le_succ_of_le ih
    · exact Nat.le_refl _

theorem length_dropWhile_lt {α : Type} (p : α → Bool) (a : α) (l : List α) (h : p a = true) :
    ((a :: l).dropWhile p).length < (a :: l).length := by
  rw [List.dropWhile_cons, if_pos h]
  exact Nat.lt_succ_of_le (length_dropWhile_le p l)

/-- A token other than the end token takes at least one character. -/
theorem next_measure (input : List Char) (t : Token) (rest : List Char)
    (h : Lexer.next input = some (t, rest)) :
    rest.length + (if t.type = .END then 0 else 1) ≤ input.length := by
  unfold Lexer.next at h
  have hd := length_dropWhile_le isSpace input
  split at h
  · injection h with h
    injection h with h1 h2
    subst h1 h2
    simp
  · rename_i c r hc
    rw [hc] at hd
    split at h
    · rename_i hnum
      simp only at h
      split at h
      · injection h with h
        injection h with h1 h2
        subst h1 h2
        have := length_dropWhile_lt isNumChar c r hnum
        simp only [List.length_cons] at this hd ⊢
        split <;> omega
      · exact absurd h (by simp)
    · split at h
      · rename_i halpha
        simp only at h
        injection h with h
        injection h with h1 h2
        subst h1 h2
        have := length_dropWhile_lt Char.isAlpha c r halpha
        simp only [List.length_cons] at this hd ⊢
        split <;> omega
      · injection h with h
        injection h with h1 h2
        subst h1 h2
        simp only [List.length_cons] at hd
        split <;> omega

/-- Reading the next token after a token other than the end token leaves
less to consume. -/
theorem advance_measure (p p1 : Parser) (hne : p.current.type ≠ .END)
    (h : advance p = .ok p1) : p1.measure < p.measure := by
  unfold advance at h
  split at h
  · rename_i t rest hn
    injection h with h
    subst h
    have := next_measure p.input t rest hn
    unfold Parser.measure
    simp only [if_neg hne]
    omega
  · exact absurd h (by simp)

theorem advance_ne_outOfFuel (p : Parser) : advance p ≠ .outOfFuel := by
  unfold advance
  split <;> simp

theorem advance_ne_stackOverflow (p : Parser) : advance p ≠ .stackOverflow := by
  unfold advance
  split <;> simp

theorem skipRParen_spec (p : Parser) :
    skipRParen p = .thrown ∨ ∃ p1, skipRParen p = .ok p1 ∧ p1.measure ≤ p.measure := by
  unfold skipRParen
  split
  · rename_i hr
    cases h : advance p with
    | ok p1 =>
      exact Or.inr ⟨p1, rfl, Nat.le_of_lt (advance_measure p p1 (by rw [hr]; decide) h)⟩
    | thrown => exact Or.inl rfl
    | stackOverflow => exact absurd h (advance_ne_stackOverflow p)
    | outOfFuel => exact absurd h (advance_ne_outOfFuel p)
  · exact Or.inr ⟨p, rfl, Nat.le_refl _⟩

theorem within_mono {r1 r2 : Prop} {a b ha hb : Nat} (hr : r2 → r1) (h : a ≤ b)
    (hh : ha ≤ hb) (r : Result (Node × Parser)) (hw : r.within r1 a ha) :
    r.within r2 b hb := by
  cases r with
  | ok v => exact ⟨Nat.le_trans hw.1 h, Nat.le_trans hw.2 hh⟩
  | thrown => trivial
  | stackOverflow => exact fun h2 => hw (hr h2)
  | outOfFuel => exact hw

theorem height_pos (n : Node) : 1 ≤ n.height := by
  cases n <;> simp [Node.height]

/-- With a bound of four times what is left to consume, plus a few, no
function of the parser uses the bound up; none gives back more to consume
than it got; the height of the tree it returns is at most what it has
consumed, plus one; and with room for as many nested calls as the bound,
the call stack is not used up. -/
theorem parser_within : ∀ (fuel depth : Nat),
    (∀ p : Parser, 4 * p.measure + 1 ≤ fuel →
      (parseFactor fuel depth p).within (fuel ≤ depth) p.measure (p.measure + 1)) ∧
    (∀ (lhs : Node) (p : Parser), 4 * p.measure + 1 ≤ fuel →
      (termLoop fuel depth lhs p).within (fuel ≤ depth) p.measure
        (max (lhs.height + p.measure) (p.measure + 1))) ∧
    (∀ p : Parser, 4 * p.measure + 2 ≤ fuel →
      (parseTerm fuel depth p).within (fuel ≤ depth) p.measure (p.measure + 1)) ∧
    (∀ (lhs : Node) (p : Parser), 4 * p.measure + 3 ≤ fuel →
      (exprLoop fuel depth lhs p).within (fuel ≤ depth) p.measure
        (max (lhs.height + p.measure) (p.measure + 1))) ∧
    (∀ p : Parser, 4 * p.measure + 4 ≤ fuel →
      (parseExpression fuel depth p).within (fuel ≤ depth) p.measure (p.measure + 1)) := by
  intro fuel
  induction fuel with
  | zero =>
    intro depth
    refine ⟨?_, ?_, ?_, ?_, ?_⟩ <;> intros <;> omega
  | succ fuel ih =>
    intro depth
    -- the two loops, which run in the frame of their function
    obtain ⟨ihF, ihTL, ihT, ihEL, _⟩ := ih depth
    have hTL : ∀ (lhs : Node) (p : Parser), 4 * p.measure + 1 ≤ fuel + 1 →
        (termLoop (fuel + 1) depth lhs p).within (fuel + 1 ≤ depth) p.measure
          (max (lhs.height + p.measure) (p.measure + 1)) := by
      intro lhs p hf
      rw [termLoop]
      split
      · rename_i hty
        have hne : p.current.type ≠ .END := by
          intro e; rw [e] at hty; exact absurd hty (by decide)
        cases h : advance p with
        | ok p1 =>
          have hm1 := advance_measure p p1 hne h
          simp only
          have hFr := ihF p1 (by omega)
          cases h2 : parseFactor fuel depth p1 with
          | ok v =>
            obtain ⟨rhs, p2⟩ := v
            rw [h2] at hFr
            obtain ⟨hm2, hh2⟩ : p2.measure ≤ p1.measure ∧ rhs.height + p2.measure ≤ p1.measure + 1 :=
              hFr
            simp only
            refine within_mono (fun hr => Nat.le_of_succ_le hr) (by omega) ?_ _
              (ihTL (.binary lhs p.current.type rhs) p2 (by omega))
            have hl := height_pos lhs
            simp only [Node.height]
            omega
          | thrown => trivial
          | stackOverflow =>
            rw [h2] at hFr
            exact fun hr => hFr (Nat.le_of_succ_le hr)
          | outOfFuel => rw [h2] at hFr; exact hFr
        | thrown => trivial
        | stackOverflow => exact absurd h (advance_ne_stackOverflow p)
        | outOfFuel => exact absurd h (advance_ne_outOfFuel p)
      · exact ⟨Nat.le_refl _, Nat.le_max_left _ _⟩
    have hEL : ∀ (lhs : Node) (p : Parser), 4 * p.measure + 3 ≤ fuel + 1 →
        (exprLoop (fuel + 1) depth lhs p).within (fuel + 1 ≤ depth) p.measure
          (max (lhs.height + p.measure) (p.measure + 1)) := by
      intro lhs p hf
      rw [exprLoop]
      split
      · rename_i hty
        have hne : p.current.type ≠ .END := by
          intro e; rw [e] at hty; exact absurd hty (by decide)
        cases h : advance p with
        | ok p1 =>
          have hm1 := advance_measure p p1 hne h
          simp only
          have hTr := ihT p1 (by omega)
          cases h2 : parseTerm fuel depth p1 with
          | ok v =>
            obtain ⟨rhs, p2⟩ := v
            rw [h2] at hTr
            obtain ⟨hm2, hh2⟩ : p2.measure ≤ p1.measure ∧ rhs.height + p2.measure ≤ p1.measure + 1 :=
              hTr
            simp only
            refine within_mono (fun hr => Nat.le_of_succ_le hr) (by omega) ?_ _
              (ihEL (.binary lhs p.current.type rhs) p2 (by omega))
            have hl := height_pos lhs
            simp only [Node.height]
            omega
          | thrown => trivial
          | stackOverflow =>
            rw [h2] at hTr
            exact fun hr => hTr (Nat.le_of_succ_le hr)
          | outOfFuel => rw [h2] at hTr; exact hTr
        | thrown => trivial
        | stackOverflow => exact absurd h (advance_ne_stackOverflow p)
        | outOfFuel => exact absurd h (advance_ne_outOfFuel p)
      · exact ⟨Nat.le_refl _, Nat.le_max_left _ _⟩
    -- the three functions, each of which takes a frame
    cases depth with
    | zero =>
      refine ⟨?_, hTL, ?_, hEL, ?_⟩
      · intro p _
        rw [parseFactor]
        exact fun hr => absurd hr (by omega)
      · intro p _
        rw [parseTerm]
        exact fun hr => absurd hr (by omega)
      · intro p _
        rw [parseExpression]
        exact fun hr => absurd hr (by omega)
    | succ depth =>
      obtain ⟨ihF, ihTL, ihT, ihEL, ihE⟩ := ih depth
      -- parseFactor
      have hF : ∀ p : Parser, 4 * p.measure + 1 ≤ fuel + 1 →
          (parseFactor (fuel + 1) (depth + 1) p).within (fuel + 1 ≤ depth + 1) p.measure
            (p.measure + 1) := by
        intro p hf
        rw [parseFactor]
        split
        · rename_i hty
          cases h : advance p with
          | ok p1 =>
            have := advance_measure p p1 (by rw [hty]; decide) h
            exact ⟨by omega, by simp only [Node.height]; omega⟩
          | thrown => trivial
          | stackOverflow => exact absurd h (advance_ne_stackOverflow p)
          | outOfFuel => exact absurd h (advance_ne_outOfFuel p)
        · split
          · rename_i hty
            cases h : advance p with
            | ok p1 =>
              have := advance_measure p p1 (by rw [hty]; decide) h
              exact ⟨by omega, by simp only [Node.height]; omega⟩
            | thrown => trivial
            | stackOverflow => exact absurd h (advance_ne_stackOverflow p)
            | outOfFuel => exact absurd h (advance_ne_outOfFuel p)
          · split
            · rename_i hty
              have hne : p.current.type ≠ .END := by
                intro e; rw [e] at hty; exact absurd hty (by decide)
              cases h : advance p with
              | ok p1 =>
                have hm1 := advance_measure p p1 hne h
                simp only
                split
                · rename_i hlp
                  cases h2 : advance p1 with
                  | ok p2 =>
                    have hm2 := advance_measure p1 p2 (by rw [hlp]; decide) h2
                    simp only
                    have hE := ihE p2 (by omega)
                    cases h3 : parseExpression fuel depth p2 with
                    | ok v =>
                      obtain ⟨arg, p3⟩ := v
                      rw [h3] at hE
                      obtain ⟨hm3, hh3⟩ : p3.measure ≤ p2.measure ∧
                          arg.height + p3.measure ≤ p2.measure + 1 := hE
                      simp only
                      rcases skipRParen_spec p3 with h4 | ⟨p4, h4, hm4⟩
                      · rw [h4]; trivial
                      · rw [h4]
                        exact ⟨by omega, by simp only [Node.height]; omega⟩
                    | thrown => trivial
                    | stackOverflow =>
                      rw [h3] at hE
                      exact fun hr => hE (Nat.le_of_succ_le_succ hr)
                    | outOfFuel => rw [h3] at hE; exact hE
                  | thrown => trivial
                  | stackOverflow => exact absurd h2 (advance_ne_stackOverflow p1)
                  | outOfFuel => exact absurd h2 (advance_ne_outOfFuel p1)
                · exact ⟨by omega, by simp only [Node.height]; omega⟩
              | thrown => trivial
              | stackOverflow => exact absurd h (advance_ne_stackOverflow p)
              | outOfFuel => exact absurd h (advance_ne_outOfFuel p)
            · split
              · rename_i hty
                cases h : advance p with
                | ok p1 =>
                  have hm1 := advance_measure p p1 (by rw [hty]; decide) h
                  simp only
                  have hE := ihE p1 (by omega)
                  cases h3 : parseExpression fuel depth p1 with
                  | ok v =>
                    obtain ⟨n, p2⟩ := v
                    rw [h3] at hE
                    obtain ⟨hm3, hh3⟩ : p2.measure ≤ p1.measure ∧
                        n.height + p2.measure ≤ p1.measure + 1 := hE
                    simp only
                    rcases skipRParen_spec p2 with h4 | ⟨p3, h4, hm4⟩
                    · rw [h4]; trivial
                    · rw [h4]
                      exact ⟨by omega, by omega⟩
                  | thrown => trivial
                  | stackOverflow =>
                    rw [h3] at hE
                    exact fun hr => hE (Nat.le_of_succ_le_succ hr)
                  | outOfFuel => rw [h3] at hE; exact hE
                | thrown => trivial
                | stackOverflow => exact absurd h (advance_ne_stackOverflow p)
                | outOfFuel => exact absurd h (advance_ne_outOfFuel p)
              · exact ⟨Nat.le_refl _, by simp only [Node.height]; omega⟩
      -- parseTerm
      have hT : ∀ p : Parser, 4 * p.measure + 2 ≤ fuel + 1 →
          (parseTerm (fuel + 1) (depth + 1) p).within (fuel + 1 ≤ depth + 1) p.measure
            (p.measure + 1) := by
        intro p hf
        rw [parseTerm]
        have hFr := ihF p (by omega)
        cases h : parseFactor fuel depth p with
        | ok v =>
          obtain ⟨lhs, p1⟩ := v
          rw [h] at hFr
          obtain ⟨hm1, hh1⟩ : p1.measure ≤ p.measure ∧ lhs.height + p1.measure ≤ p.measure + 1 :=
            hFr
          simp only
          exact within_mono (fun hr => Nat.le_of_succ_le_succ hr) hm1 (by omega) _
            (ihTL lhs p1 (by omega))
        | thrown => trivial
        | stackOverflow =>
          rw [h] at hFr
          exact fun hr => hFr (Nat.le_of_succ_le_succ hr)
        | outOfFuel => rw [h] at hFr; exact hFr
      -- parseExpression
      have hE : ∀ p : Parser, 4 * p.measure + 4 ≤ fuel + 1 →
          (parseExpression (fuel + 1) (depth + 1) p).within (fuel + 1 ≤ depth + 1) p.measure
            (p.measure + 1) := by
        intro p hf
        rw [parseExpression]
        have hTr := ihT p (by omega)
        cases h : parseTerm fuel depth p with
        | ok v =>
          obtain ⟨lhs, p1⟩ := v
          rw [h] at hTr
          obtain ⟨hm1, hh1⟩ : p1.measure ≤ p.measure ∧ lhs.height + p1.measure ≤ p.measure + 1 :=
            hTr
          simp only
          have hLr := ihEL lhs p1 (by omega)
          cases h2 : exprLoop fuel depth lhs p1 with
          | ok v2 =>
            obtain ⟨lhs2, p2⟩ := v2
            rw [h2] at hLr
            obtain ⟨hm2, hh2⟩ : p2.measure ≤ p1.measure ∧
                lhs2.height + p2.measure ≤ max (lhs.height + p1.measure) (p1.measure + 1) := hLr
            simp only
            split
            · rename_i hty
              cases h3 : advance p2 with
              | ok p3 =>
                have hm3 := advance_measure p2 p3 (by rw [hty]; decide) h3
                simp only
                have hEr := ihE p3 (by omega)
                cases h4 : parseExpression fuel depth p3 with
                | ok v4 =>
                  obtain ⟨rhs, p4⟩ := v4
                  rw [h4] at hEr
                  obtain ⟨hm4, hh4⟩ : p4.measure ≤ p3.measure ∧
                      rhs.height + p4.measure ≤ p3.measure + 1 := hEr
                  exact ⟨by omega, by simp only [Node.height]; omega⟩
                | thrown => trivial
                | stackOverflow =>
                  rw [h4] at hEr
                  exact fun hr => hEr (Nat.le_of_succ_le_succ hr)
                | outOfFuel => rw [h4] at hEr; exact hEr
              | thrown => trivial
              | stackOverflow => exact absurd h3 (advance_ne_stackOverflow p2)
              | outOfFuel => exact absurd h3 (advance_ne_outOfFuel p2)
            · exact ⟨by omega, by omega⟩
          | thrown => trivial
          | stackOverflow =>
            rw [h2] at hLr
            exact fun hr => hLr (Nat.le_of_succ_le_succ hr)
          | outOfFuel => rw [h2] at hLr; exact hLr
        | thrown => trivial
        | stackOverflow =>
          rw [h] at hTr
          exact fun hr => hTr (Nat.le_of_succ_le_succ hr)
        | outOfFuel => rw [h] at hTr; exact hTr
      exact ⟨hF, hTL, hT, hEL, hE⟩

/-- The parser does not use up its bound: it returns a tree, `std::stod`
throws, or the call stack is used up; the tree is not higher than the text
is long, plus one; and the call stack is not used up when there is room for
`4 * length + 4` nested calls. -/
theorem parse_returns (depth : Nat) (equation : List Char) :
    (parse depth equation = .thrown ∨
      (parse depth equation = .stackOverflow ∧ depth < 4 * equation.length + 4) ∨
      ∃ ast, parse depth equation = .ok ast ∧ ast.height ≤ equation.length + 1) := by
  unfold parse
  cases h : Lexer.next equation with
  | none => exact Or.inl rfl
  | some v =>
    obtain ⟨t, rest⟩ := v
    simp only
    have hm := next_measure equation t rest h
    have hw := (parser_within (4 * equation.length + 4) depth).2.2.2.2 ⟨t, rest⟩
      (by unfold Parser.measure; simp only; omega)
    cases h2 : parseExpression (4 * equation.length + 4) depth ⟨t, rest⟩ with
    | ok v2 =>
      obtain ⟨ast, p2⟩ := v2
      rw [h2] at hw
      obtain ⟨_, hh⟩ : p2.measure ≤ (⟨t, rest⟩ : Parser).measure ∧
          ast.height + p2.measure ≤ (⟨t, rest⟩ : Parser).measure + 1 := hw
      refine Or.inr (Or.inr ⟨ast, rfl, ?_⟩)
      unfold Parser.measure at hh
      simp only at hh
      omega
    | thrown => exact Or.inl rfl
    | stackOverflow =>
      rw [h2] at hw
      refine Or.inr (Or.inl ⟨rfl, ?_⟩)
      have hw2 : ¬ (4 * equation.length + 4 ≤ depth) := hw
      omega
    | outOfFuel => rw [h2] at hw; exact absurd hw (by simp [Result.within])

end OmniMath

namespace OmniMath

open OmniNative

/-! ### The calls of `evaluate` and of the destructor -/

/-- With room for as many nested calls as the tree is high, `evaluate`
returns the value of the tree. -/
theorem evaluate_of_le (m : Libm) (x : Double) :
    ∀ (n : Node) (depth : Nat), n.height ≤ depth → n.evaluate m depth x = .ok (n.value m x) := by
  intro n
  induction n with
  | number val =>
    intro depth h
    cases depth with
    | zero => simp only [Node.height] at h; omega
    | succ d => rfl
  | «variable» =>
    intro depth h
    cases depth with
    | zero => simp only [Node.height] at h; omega
    | succ d => rfl
  | binary left op right ihl ihr =>
    intro depth h
    cases depth with
    | zero => simp only [Node.height] at h; omega
    | succ d =>
      simp only [Node.height] at h
      rw [Node.evaluate, ihl d (by omega), ihr d (by omega)]
      rfl
  | func fn arg ih =>
    intro depth h
    cases depth with
    | zero => simp only [Node.height] at h; omega
    | succ d =>
      simp only [Node.height] at h
      rw [Node.evaluate, ih d (by omega)]
      rfl

/-- With less room than the tree is high, `evaluate` uses up the call
stack. -/
theorem evaluate_of_lt (m : Libm) (x : Double) :
    ∀ (n : Node) (depth : Nat), depth < n.height → n.evaluate m depth x = .stackOverflow := by
  intro n
  induction n with
  | number val =>
    intro depth h
    cases depth with
    | zero => rfl
    | succ d => simp only [Node.height] at h; omega
  | «variable» =>
    intro depth h
    cases depth with
    | zero => rfl
    | succ d => simp only [Node.height] at h; omega
  | binary left op right ihl ihr =>
    intro depth h
    cases depth with
    | zero => rfl
    | succ d =>
      simp only [Node.height] at h
      rw [Node.evaluate]
      by_cases hl : d < left.height
      · rw [ihl d hl]
      · rw [evaluate_of_le m x left d (by omega), ihr d (by omega)]
  | func fn arg ih =>
    intro depth h
    cases depth with
    | zero => rfl
    | succ d =>
      simp only [Node.height] at h
      rw [Node.evaluate, ih d (by omega)]

/-- With room for as many nested calls as the tree is high, the destructor
returns. -/
theorem destroy_of_le : ∀ (n : Node) (depth : Nat), n.height ≤ depth → n.destroy depth = .ok () := by
  intro n
  induction n with
  | number val =>
    intro depth h
    cases depth with
    | zero => simp only [Node.height] at h; omega
    | succ d => rfl
  | «variable» =>
    intro depth h
    cases depth with
    | zero => simp only [Node.height] at h; omega
    | succ d => rfl
  | binary left op right ihl ihr =>
    intro depth h
    cases depth with
    | zero => simp only [Node.height] at h; omega
    | succ d =>
      simp only [Node.height] at h
      rw [Node.destroy, ihl d (by omega), ihr d (by omega)]
  | func fn arg ih =>
    intro depth h
    cases depth with
    | zero => simp only [Node.height] at h; omega
    | succ d =>
      simp only [Node.height] at h
      rw [Node.destroy, ih d (by omega)]

/-! ### The Newton iteration -/

theorem newton_succ (m : Libm) (depth : Nat) (ast : Node) (n : Nat) (x : Double)
    (h : ast.height ≤ depth) :
    newton m depth ast (n + 1) x
      = if stops m ast x then .ok x else newton m depth ast n (update m ast x) := by
  rw [newton, evaluate_of_le m x ast depth h,
    evaluate_of_le m (Double.add x stepH) ast depth h]
  simp only [stops, update]
  by_cases h1 : Double.lt (fabs (ast.value m x)) EPSILON = true
  · simp only [h1, if_true, Bool.true_or]
  · by_cases h2 : Double.lt
        (fabs (Double.div (Double.sub (ast.value m (Double.add x stepH)) (ast.value m x))
          stepH)) derivativeBound = true
    · simp only [h1, h2, if_true, if_false, Bool.or_true, Bool.false_eq_true]
    · simp only [h1, h2, if_false, Bool.or_self, Bool.false_eq_true]

/-- With less room than the tree is high, the first call of `evaluate`
uses up the call stack. -/
theorem newton_overflow (m : Libm) (depth : Nat) (ast : Node) (n : Nat) (x : Double)
    (h : depth < ast.height) : newton m depth ast (n + 1) x = .stackOverflow := by
  rw [newton, evaluate_of_lt m x ast depth h]

/-- The loop returns one of the first `n + 1` iterates: the first one at
which it stops, or the last one. -/
theorem newton_spec (m : Libm) (depth : Nat) (ast : Node) (h : ast.height ≤ depth) :
    ∀ (n : Nat) (x : Double), ∃ k, k ≤ n ∧
      newton m depth ast n x = .ok (Nat.iterate (update m ast) k x) ∧
      (∀ i, i < k → stops m ast (Nat.iterate (update m ast) i x) = false) ∧
      (k < n → stops m ast (Nat.iterate (update m ast) k x) = true) := by
  intro n
  induction n with
  | zero =>
    intro x
    exact ⟨0, Nat.le_refl _, rfl, fun i hi => absurd hi (Nat.not_lt_zero _),
      fun h => absurd h (Nat.lt_irrefl _)⟩
  | succ n ih =>
    intro x
    rw [newton_succ m depth ast n x h]
    by_cases hs : stops m ast x = true
    · rw [if_pos hs]
      exact ⟨0, Nat.zero_le _, rfl, fun i hi => absurd hi (Nat.not_lt_zero _), fun _ => hs⟩
    · rw [if_neg hs]
      obtain ⟨k, hk, hres, hbefore, hat⟩ := ih (update m ast x)
      refine ⟨k + 1, Nat.succ_le_succ hk, ?_, ?_, ?_⟩
      · rw [hres]; rfl
      · intro i hi
        cases i with
        | zero => simpa using hs
        | succ j => exact hbefore j (Nat.lt_of_succ_lt_succ hi)
      · intro hlt
        exact hat (Nat.lt_of_succ_lt_succ hlt)

theorem five_not_small :
    Double.lt (fabs (Double.ofBits 4617315517961601024)) EPSILON = false := by decide!

theorem five_flat :
    Double.lt
      (fabs (Double.div
        (Double.sub (Double.ofBits 4617315517961601024) (Double.ofBits 4617315517961601024))
        stepH)) derivativeBound = true := by decide!

theorem next_five :
    Lexer.next "5".toList
      = some (⟨.NUMBER, "5".toList, Double.ofBits 4617315517961601024⟩, []) := by decide!

theorem next_dot : Lexer.next ".".toList = none := by decide!

/-- A text that is one number is parsed with room for three nested
calls. -/
theorem parseExpression_number (f d : Nat) (p p1 : Parser) (hn : p.current.type = .NUMBER)
    (ha : advance p = .ok p1) (he : p1.current.type = .END) :
    parseExpression (f + 3) (d + 3) p = .ok (.number p.current.numValue, p1) := by
  rw [parseExpression, parseTerm, parseFactor]
  simp only [hn, if_true, ha]
  rw [termLoop]
  simp only [he, reduceCtorEq, or_self, if_false]
  rw [exprLoop]
  simp only [he, reduceCtorEq, or_self, if_false]

/-- The text `5` is parsed with room for three nested calls. -/
theorem parse_five (d : Nat) :
    parse (d + 3) "5".toList = .ok (.number (Double.ofBits 4617315517961601024)) := by
  unfold parse
  rw [next_five]
  simp only
  rw [show 4 * "5".toList.length + 4 = 5 + 3 from rfl,
    parseExpression_number 5 d
      ⟨⟨.NUMBER, "5".toList, Double.ofBits 4617315517961601024⟩, []⟩
      ⟨⟨.END, [], Double.zero⟩, []⟩ rfl rfl rfl]

/-- For the text `.` the constructor of the parser throws, before any call
of `parseExpression`. -/
theorem parse_dot (depth : Nat) : parse depth ".".toList = .thrown := by
  unfold parse
  rw [next_dot]

theorem solve_of_parse (m : Libm) (depth : Nat) (equation : List Char) (ast : Node)
    (h : parse depth equation = .ok ast) (hh : ast.height ≤ depth) :
    solve m depth equation = newton m depth ast MAX_ITER Double.one := by
  unfold solve
  rw [h]
  simp only
  obtain ⟨k, _, hres, _⟩ := newton_spec m depth ast hh MAX_ITER Double.one
  rw [hres, destroy_of_le ast depth hh]

theorem solve_overflow (m : Libm) (depth : Nat) (equation : List Char) (ast : Node)
    (h : parse depth equation = .ok ast) (hh : depth < ast.height) :
    solve m depth equation = .stackOverflow := by
  unfold solve
  rw [h]
  simp only
  rw [show MAX_ITER = 99 + 1 from rfl, newton_overflow m depth ast 99 Double.one hh]

theorem solve_thrown (m : Libm) (depth : Nat) (equation : List Char)
    (h : parse depth equation = .thrown) : solve m depth equation = .thrown := by
  unfold solve
  rw [h]

theorem solve_parse_overflow (m : Libm) (depth : Nat) (equation : List Char)
    (h : parse depth equation = .stackOverflow) : solve m depth equation = .stackOverflow := by
  unfold solve
  rw [h]

/-- The equation `5`: the residual is 5 everywhere, the numerical
derivative is 0, and the loop stops at the initial guess. -/
theorem solve_five (m : Libm) (d : Nat) : solve m (d + 3) "5".toList = .ok Double.one := by
  have hh : (Node.number (Double.ofBits 4617315517961601024)).height ≤ d + 3 := by
    simp only [Node.height]; omega
  rw [solve_of_parse m _ _ _ (parse_five d) hh]
  show newton m _ _ (99 + 1) Double.one = _
  rw [newton_succ m _ _ _ _ hh]
  have hs : stops m (.number (Double.ofBits 4617315517961601024)) Double.one = true := by
    simp only [stops, Node.value, five_not_small, five_flat, Bool.false_or]
  rw [if_pos hs]

/-- What `solve` gives for a text, with any room for nested calls. -/
theorem solve_cases (m : Libm) (depth : Nat) (equation : List Char) :
    solve m depth equation = .thrown ∨
    (solve m depth equation = .stackOverflow ∧ depth < 4 * equation.length + 4) ∨
    ∃ ast k, parse depth equation = .ok ast ∧ k ≤ 100 ∧
      solve m depth equation = .ok (Nat.iterate (update m ast) k Double.one) ∧
      (∀ i, i < k → stops m ast (Nat.iterate (update m ast) i Double.one) = false) ∧
      (k < 100 → stops m ast (Nat.iterate (update m ast) k Double.one) = true) := by
  rcases parse_returns depth equation with h | ⟨h, hd⟩ | ⟨ast, h, hh⟩
  · exact Or.inl (solve_thrown m depth equation h)
  · exact Or.inr (Or.inl ⟨solve_parse_overflow m depth equation h, hd⟩)
  · by_cases hfit : ast.height ≤ depth
    · obtain ⟨k, hk, hres, hbefore, hat⟩ := newton_spec m depth ast hfit MAX_ITER Double.one
      refine Or.inr (Or.inr ⟨ast, k, h, hk, ?_, hbefore, hat⟩)
      rw [solve_of_parse m depth equation ast h hfit, hres]
    · exact Or.inr (Or.inl ⟨solve_overflow m depth equation ast h (by omega), by omega⟩)

theorem next_lparen (rest : List Char) :
    Lexer.next ('(' :: rest) = some (⟨.LPAREN, "(".toList, Double.zero⟩, rest) := by
  rfl

theorem advance_lparen (t : Token) (k : Nat) :
    advance ⟨t, List.replicate (k + 1) '('⟩
      = .ok ⟨⟨.LPAREN, "(".toList, Double.zero⟩, List.replicate k '('⟩ := by
  unfold advance
  rw [List.replicate_succ, next_lparen]

/-- The calls nest three deep for every opening parenthesis: on a text of
opening parentheses, the parser uses up any room of less than three calls
for each of them. -/
theorem parseExpression_deep : ∀ (k fuel depth : Nat), depth < fuel → depth ≤ 3 * k + 2 →
    parseExpression fuel depth
        ⟨⟨.LPAREN, "(".toList, Double.zero⟩, List.replicate k '('⟩ = .stackOverflow := by
  have small : ∀ (fuel depth : Nat) (p : Parser), depth < fuel → depth ≤ 2 →
      p.current.type = .LPAREN → parseExpression fuel depth p = .stackOverflow := by
    intro fuel depth p hf hd hp
    match depth, hd, hf with
    | 0, _, hf =>
      obtain ⟨f, rfl⟩ : ∃ f, fuel = f + 1 := ⟨fuel - 1, by omega⟩
      rw [parseExpression]
    | 1, _, hf =>
      obtain ⟨f, rfl⟩ : ∃ f, fuel = f + 2 := ⟨fuel - 2, by omega⟩
      rw [parseExpression, parseTerm]
    | 2, _, hf =>
      obtain ⟨f, rfl⟩ : ∃ f, fuel = f + 3 := ⟨fuel - 3, by omega⟩
      rw [parseExpression, parseTerm, parseFactor]
  intro k
  induction k with
  | zero =>
    intro fuel depth hf hd
    exact small fuel depth _ hf (by omega) rfl
  | succ k ih =>
    intro fuel depth hf hd
    by_cases h2 : depth ≤ 2
    · exact small fuel depth _ hf h2 rfl
    · obtain ⟨d, rfl⟩ : ∃ d, depth = d + 3 := ⟨depth - 3, by omega⟩
      obtain ⟨f, rfl⟩ : ∃ f, fuel = f + 3 := ⟨fuel - 3, by omega⟩
      rw [parseExpression, parseTerm, parseFactor]
      simp only [reduceCtorEq, if_false, isFunc, Bool.false_eq_true, if_true, advance_lparen]
      rw [ih f d (by omega) (by omega)]

/-- For any room on the call stack there is a text on which `solve` uses it
up. -/
theorem solve_deep (m : Libm) (depth : Nat) :
    solve m depth (List.replicate (depth + 1) '(') = .stackOverflow := by
  apply solve_parse_overflow
  unfold parse
  rw [List.replicate_succ, next_lparen]
  simp only
  rw [parseExpression_deep depth _ depth (by simp only [List.length_cons, List.length_replicate]; omega) (by omega)]

theorem parse_deep : parse 8 "((1".toList = .stackOverflow := by decide!

/-- C25 (the code at the failing input, and what holds). For the text `.`
the lexer passes a string without digit to `std::stod`, which throws: the
constructor of the parser does not return, and `solve` does not return, with
any library functions and any room on the call stack. For every other
text: with room for `4 * length + 4` nested calls, either `std::stod`
throws while the text is read, or the parser returns a tree and `solve`
returns one of the iterates `x_0 = 1.0`, `x_1`, ..., `x_100` of the update
`x - f(x) / f'(x)`: the first one at which `|f(x)| < 1e-7` or
`|f'(x)| < 1e-9` holds, or `x_100` when there is none among the first
hundred; so at most 100 updates are done, and a stop returns the current
iterate as it is. With less room the call stack may also be used up: for
any room there is a text of opening parentheses on which it is, as on the
text `((1` with room for 8 nested calls. The text `5` returns the initial
guess, with room for 3 nested calls. -/
theorem solve_bounded (m : Libm) :
    (Lexer.next ".".toList = none ∧ ∀ depth : Nat, solve m depth ".".toList = .thrown) ∧
    (∀ (depth : Nat) (equation : List Char), 4 * equation.length + 4 ≤ depth →
      solve m depth equation = .thrown ∨
      ∃ ast k, parse depth equation = .ok ast ∧ k ≤ 100 ∧
        solve m depth equation = .ok (Nat.iterate (update m ast) k Double.one) ∧
        (∀ i, i < k → stops m ast (Nat.iterate (update m ast) i Double.one) = false) ∧
        (k < 100 → stops m ast (Nat.iterate (update m ast) k Double.one) = true)) ∧
    (∀ (depth : Nat) (equation : List Char),
      solve m depth equation = .thrown ∨
      (solve m depth equation = .stackOverflow ∧ depth < 4 * equation.length + 4) ∨
      ∃ ast k, parse depth equation = .ok ast ∧ k ≤ 100 ∧
        solve m depth equation = .ok (Nat.iterate (update m ast) k Double.one) ∧
        (∀ i, i < k → stops m ast (Nat.iterate (update m ast) i Double.one) = false) ∧
        (k < 100 → stops m ast (Nat.iterate (update m ast) k Double.one) = true)) ∧
    (∀ (depth : Nat) (ast : Node) (n : Nat) (x : Double), ast.height ≤ depth →
      stops m ast x = true → newton m depth ast (n + 1) x = .ok x) ∧
    (∀ (depth : Nat) (ast : Node) (n : Nat) (x : Double), ast.height ≤ depth →
      stops m ast x = false →
      newton m depth ast (n + 1) x = newton m depth ast n (update m ast x)) ∧
    (∀ (depth : Nat) (ast : Node) (x : Double), ast.height ≤ depth →
      ast.evaluate m depth x = .ok (ast.value m x)) ∧
    (∀ depth : Nat, solve m depth (List.replicate (depth + 1) '(') = .stackOverflow) ∧
    solve m 8 "((1".toList = .stackOverflow ∧
    (∀ d : Nat, solve m (d + 3) "5".toList = .ok Double.one) := by
  refine ⟨⟨next_dot, fun depth => solve_thrown m depth _ (parse_dot depth)⟩, ?_,
    solve_cases m, ?_, ?_, fun depth ast x h => evaluate_of_le m x ast depth h,
    solve_deep m, solve_parse_overflow m 8 _ parse_deep, solve_five m⟩
  · intro depth equation hd
    rcases solve_cases m depth equation with h | ⟨_, h⟩ | h
    · exact Or.inl h
    · omega
    · exact Or.inr h
  · intro depth ast n x h hs
    rw [newton_succ m depth ast n x h, if_pos hs]
  · intro depth ast n x h hs
    rw [newton_succ m depth ast n x h, hs]
    simp

/-- Instance of C25: the text `2*x=6` with identity functions for the
library functions and room for 24 nested calls. -/
theorem solve_bounded_witness :
    4 * "2*x=6".toList.length + 4 ≤ 24 ∧
    (solve ⟨id, id, id, id, id, id, fun a _ => a⟩ 24 "2*x=6".toList = .thrown ∨
      ∃ ast k, parse 24 "2*x=6".toList = .ok ast ∧ k ≤ 100 ∧
        solve ⟨id, id, id, id, id, id, fun a _ => a⟩ 24 "2*x=6".toList
          = .ok (Nat.iterate (update ⟨id, id, id, id, id, id, fun a _ => a⟩ ast) k Double.one) ∧
        (∀ i, i < k → stops ⟨id, id, id, id, id, id, fun a _ => a⟩ ast
          (Nat.iterate (update ⟨id, id, id, id, id, id, fun a _ => a⟩ ast) i Double.one)
            = false) ∧
        (k < 100 → stops ⟨id, id, id, id, id, id, fun a _ => a⟩ ast
          (Nat.iterate (update ⟨id, id, id, id, id, id, fun a _ => a⟩ ast) k Double.one)
            = true)) :=
  ⟨by decide,
    (solve_bounded ⟨id, id, id, id, id, id, fun a _ => a⟩).2.1 24 "2*x=6".toList (by decide)⟩

end OmniMath
